import Mathlib

/-!
# Fire effect for the HUB75 LED panel (`app-fire-led/main.c`)

A shallow embedding of `create_fire_palette` and `render_fire`, followed by the
properties of the heat-field update that the specification states.

Conventions of the embedding.

* The arrays `fire_data`, `fire_pal` and the frame buffer behind `fb_base` are memories
  indexed by an integer offset from the start of the array (`Mem`).  A pointer such as `dp`
  is the offset it holds, so `dp[k]` is the cell at offset `dp + k`.  Offsets outside the
  declared array are cells of the surrounding memory; which offsets the code touches is
  recorded in the access log of the state.
* A `uint8_t` cell is read as its value modulo `2 ^ 8` and a `uint16_t` cell modulo `2 ^ 16`;
  stores convert in the same way.  `int` locals (`tmp`, `not_done`) are integers.
* `MISC_REG(MISC_RNG_REG)` is a stream `rng`: the `k`-th read of the register during the
  call returns `rng k` modulo `2 ^ 32`.
-/

namespace FireLed

/-! ## Constants -/

/-- The constant `#define FB_N 4`: the number of frame buffers. -/
def FB_N : Nat := 4

/-- The constant `#define FB_W 64`: the width of the grid. -/
def FB_W : Nat := 64

/-- The constant `#define FB_H 64`: the height of the grid without the ignition row. -/
def FB_H : Nat := 64

/-! ## Memory -/

/-- A memory region addressed by the offset from the start of an array. -/
abbrev Mem := Int → Int

/-- Read of a `uint8_t` cell. -/
def rd8 (m : Mem) (i : Int) : Int := m i % 256

/-- Store to a `uint8_t` cell (conversion of an `int` to `uint8_t`). -/
def wr8 (m : Mem) (i v : Int) : Mem := fun j => if j = i then v % 256 else m j

/-- Read of a `uint16_t` cell. -/
def rd16 (m : Mem) (i : Int) : Int := m i % 65536

/-- Store to a `uint16_t` cell. -/
def wr16 (m : Mem) (i v : Int) : Mem := fun j => if j = i then v % 65536 else m j

/-- One array access of `render_fire`, with the index used. -/
inductive Access where
  | fire_data_rd (i : Int)
  | fire_data_wr (i : Int)
  | fire_pal_rd (i : Int)
  | fb_wr (i : Int)
  deriving DecidableEq

/-! ## `create_fire_palette` -/

/-- The macro `COMP_COLOR(R, G, B)`:
`(((B) >> 3) << 11) | (((G) >> 2) << 5) | (((R) >> 3) << 0)`. -/
def COMP_COLOR (R G B : Int) : Int :=
  Int.lor (Int.lor ((B >>> (3 : Nat)) <<< (11 : Int)) ((G >>> (2 : Nat)) <<< (5 : Int)))
    ((R >>> (3 : Nat)) <<< (0 : Int))

/-- Body of the loop of `create_fire_palette` for one value of `i`. -/
def palette_body (fire_pal : Mem) (i : Int) : Mem :=
  -- black to blue
  let p := wr16 fire_pal i (COMP_COLOR 0 0 (i <<< (1 : Int)))
  -- blue to red
  let p := wr16 p (i + 32) (COMP_COLOR (i <<< (3 : Int)) 0 (64 - (i <<< (1 : Int))))
  -- red to yellow
  let p := wr16 p (i + 64) (COMP_COLOR 0xFF (i <<< (3 : Int)) 0)
  -- yellow to white
  let p := wr16 p (i + 96) (COMP_COLOR 0xFF 0xFF (0 + (i <<< (2 : Int))))
  let p := wr16 p (i + 128) (COMP_COLOR 0xFF 0xFF (64 + (i <<< (2 : Int))))
  let p := wr16 p (i + 160) (COMP_COLOR 0xFF 0xFF (128 + (i <<< (2 : Int))))
  let p := wr16 p (i + 192) (COMP_COLOR 0xFF 0xFF (192 + i))
  wr16 p (i + 224) (COMP_COLOR 0xFF 0xFF (224 + i))

/-- The loop `for (int i = 0; i < 32; i++)`, run for `n` iterations from `i = 0`. -/
def palette_loop (fire_pal : Mem) : Nat → Mem
  | 0 => fire_pal
  | n + 1 => palette_body (palette_loop fire_pal n) (n : Int)

/-- The function `create_fire_palette`, applied to the previous contents of `fire_pal`. -/
def create_fire_palette (fire_pal : Mem) : Mem := palette_loop fire_pal 32

/-! ## `render_fire` -/

/-- The variables of `render_fire`: the two arrays it writes, its locals, the number of reads
of the random register made so far, and the log of array accesses. -/
structure Fire where
  fire_data : Mem
  fb : Mem
  rnd : Nat
  rng_reads : Nat
  dp : Int
  fp : Int
  not_done : Int
  log : List Access

/-- The expression `(rnd & 3) ? 0 : 255`. -/
def seed_value (rnd : Nat) : Int := if rnd &&& 3 ≠ 0 then 0 else 255

/-- Body of the seeding loop for column `x`:
`if ((x & 15) == 0) rnd = MISC_REG(MISC_RNG_REG); *dp++ = (rnd & 3) ? 0 : 255; rnd >>= 2;` -/
def seed_body (rng : Nat → Nat) (x : Nat) (s : Fire) : Fire :=
  let s1 : Fire :=
    if x &&& 15 = 0 then
      { s with rnd := rng s.rng_reads % 2 ^ 32, rng_reads := s.rng_reads + 1 }
    else s
  { s1 with
    fire_data := wr8 s1.fire_data s1.dp (seed_value s1.rnd)
    dp := s1.dp + 1
    rnd := s1.rnd >>> 2
    log := s1.log ++ [Access.fire_data_wr s1.dp] }

/-- The loop `for (x = ...; x < ...; x++)` of the seeding phase: `n` iterations from `x`. -/
def seed_loop (rng : Nat → Nat) : Nat → Nat → Fire → Fire
  | 0, _, s => s
  | n + 1, x, s => seed_loop rng n (x + 1) (seed_body rng x s)

/-- The statement `tmp -= !!tmp;`. -/
def decay (tmp : Int) : Int := tmp - (if tmp ≠ 0 then 1 else 0)

/-- The statements `not_done |= tmp; *dp-- = tmp; *fp-- = fire_pal[tmp];`. -/
def store_cell (fire_pal : Mem) (s : Fire) (tmp : Int) : Fire :=
  { s with
    not_done := Int.lor s.not_done tmp
    fire_data := wr8 s.fire_data s.dp tmp
    fb := wr16 s.fb s.fp (rd16 fire_pal tmp)
    dp := s.dp - 1
    fp := s.fp - 1
    log := s.log ++ [Access.fire_data_wr s.dp, Access.fire_pal_rd tmp, Access.fb_wr s.fp] }

/-- The block under the comment "First colum": reads `dp[0]`, `dp[FB_W]`, `dp[FB_W+1]`. -/
def first_column (fire_pal : Mem) (s : Fire) : Fire :=
  let tmp := rd8 s.fire_data (s.dp + 0)
  let tmp := tmp + rd8 s.fire_data (s.dp + (FB_W : Int))
  let tmp := tmp + rd8 s.fire_data (s.dp + ((FB_W : Int) + 1))
  let tmp := (tmp * 85) >>> (8 : Nat)
  let tmp := decay tmp
  store_cell fire_pal
    { s with log := s.log ++ [Access.fire_data_rd (s.dp + 0),
        Access.fire_data_rd (s.dp + (FB_W : Int)),
        Access.fire_data_rd (s.dp + ((FB_W : Int) + 1))] } tmp

/-- Body of the loop under "Middle colums": reads `dp[0]`, `dp[FB_W]`, `dp[FB_W-1]`,
`dp[FB_W+1]`. -/
def middle_column (fire_pal : Mem) (s : Fire) : Fire :=
  let tmp := rd8 s.fire_data (s.dp + 0)
  let tmp := tmp + rd8 s.fire_data (s.dp + (FB_W : Int))
  let tmp := tmp + rd8 s.fire_data (s.dp + ((FB_W : Int) - 1))
  let tmp := tmp + rd8 s.fire_data (s.dp + ((FB_W : Int) + 1))
  let tmp := tmp >>> (2 : Nat)
  let tmp := decay tmp
  store_cell fire_pal
    { s with log := s.log ++ [Access.fire_data_rd (s.dp + 0),
        Access.fire_data_rd (s.dp + (FB_W : Int)),
        Access.fire_data_rd (s.dp + ((FB_W : Int) - 1)),
        Access.fire_data_rd (s.dp + ((FB_W : Int) + 1))] } tmp

/-- The block under the comment "Last column": reads `dp[0]`, `dp[FB_W]`, `dp[FB_W-1]`. -/
def last_column (fire_pal : Mem) (s : Fire) : Fire :=
  let tmp := rd8 s.fire_data (s.dp + 0)
  let tmp := tmp + rd8 s.fire_data (s.dp + (FB_W : Int))
  let tmp := tmp + rd8 s.fire_data (s.dp + ((FB_W : Int) - 1))
  let tmp := (tmp * 85) >>> (8 : Nat)
  let tmp := decay tmp
  store_cell fire_pal
    { s with log := s.log ++ [Access.fire_data_rd (s.dp + 0),
        Access.fire_data_rd (s.dp + (FB_W : Int)),
        Access.fire_data_rd (s.dp + ((FB_W : Int) - 1))] } tmp

/-- The statements `*dp-- = 0; *fp-- = 0;` of the early-stop branch. -/
def clear_cell (s : Fire) : Fire :=
  { s with
    fire_data := wr8 s.fire_data s.dp 0
    fb := wr16 s.fb s.fp 0
    dp := s.dp - 1
    fp := s.fp - 1
    log := s.log ++ [Access.fire_data_wr s.dp, Access.fb_wr s.fp] }

/-- The early-stop branch of the row loop: `for (x=0; x<FB_W; x++) { *dp-- = 0; *fp-- = 0; }`. -/
def clear_row (s : Fire) : Fire := clear_cell^[FB_W] s

/-- The rest of the row loop body: `not_done = 0;`, the first column, the `FB_W - 2` middle
columns (`for (x=1; x<FB_W-1; x++)`), the last column. -/
def draw_row (fire_pal : Mem) (s : Fire) : Fire :=
  let s := { s with not_done := 0 }
  let s := first_column fire_pal s
  let s := (middle_column fire_pal)^[FB_W - 2] s
  last_column fire_pal s

/-- Body of the loop `for (y=0; y<FB_H; y++)`. -/
def row_iter (fire_pal : Mem) (s : Fire) : Fire :=
  if s.not_done = 0 then clear_row s else draw_row fire_pal s

/-- The seeding phase: `dp = &fire_data[FB_W * FB_H];` and the loop over `x`.  The locals
`rnd`, `fp` and `not_done` are not yet assigned there; they start at `0` and are assigned
before their first use. -/
def seed (rng : Nat → Nat) (fire_data fb : Mem) : Fire :=
  seed_loop rng FB_W 0
    { fire_data := fire_data, fb := fb, rnd := 0, rng_reads := 0,
      dp := ((FB_W * FB_H : Nat) : Int), fp := 0, not_done := 0, log := [] }

/-- The statements `dp = &fire_data[FB_W * FB_H - 1]; fp = &fb_base[FB_W * FB_H - 1];
not_done = 1;`. -/
def draw_init (s : Fire) : Fire :=
  { s with
    dp := ((FB_W * FB_H : Nat) : Int) - 1
    fp := ((FB_W * FB_H : Nat) : Int) - 1
    not_done := 1 }

/-- The state of `render_fire` when `k` iterations of the row loop have run. -/
def draw_state (fire_pal : Mem) (rng : Nat → Nat) (fire_data fb : Mem) (k : Nat) : Fire :=
  (row_iter fire_pal)^[k] (draw_init (seed rng fire_data fb))

/-- The function `render_fire(fb_base)`: the state at the end of the call, from the contents of
`fire_pal`, the random stream, and the contents of `fire_data` and of the memory at
`fb_base` before the call.  (`cache_flush` changes none of these.) -/
def render_fire (fire_pal : Mem) (rng : Nat → Nat) (fire_data fb : Mem) : Fire :=
  draw_state fire_pal rng fire_data fb FB_H

/-! ## Quantities of the per-cell rules -/

/-- The value stored by the "First colum" and "Last column" blocks for the three bytes read:
`tmp = a + b + c; tmp = (tmp * 85) >> 8; tmp -= !!tmp;`. -/
def edge_rule (a b c : Int) : Int := decay (((a + b + c) * 85) >>> (8 : Nat))

/-- The value stored by the "Middle colums" loop for the four bytes read:
`tmp = a + b + c + d; tmp >>= 2; tmp -= !!tmp;`. -/
def middle_rule (a b c d : Int) : Int := decay ((a + b + c + d) >>> (2 : Nat))

/-- The two random bits that the seeding loop consumes for column `x`: bits `2 * (x % 16)` and
`2 * (x % 16) + 1` of the random word number `x / 16`. -/
def column_bits (rng : Nat → Nat) (x : Nat) : Nat :=
  ((rng (x / 16) % 2 ^ 32) >>> (2 * (x % 16))) &&& 3

/-- The index of the cell in row `y`, column `x` of the heat field and of the frame buffer:
`y * FB_W + x`.  Rows `0 .. FB_H - 1` are the body, row `FB_H` is the ignition row. -/
def cell (y x : Nat) : Int := ((y * FB_W + x : Nat) : Int)

/-- The intermediate value of `tmp` for the cell in row `y`, column `x`, just before the
statement `tmp -= !!tmp;`, when its row is computed: `fd` is the heat field before the call
and `F` the heat field at the end.  The cell of column `FB_W - 1` is the first one processed
in its row (block "First colum"), the cell of column `0` the last one (block "Last column"). -/
def cell_average (fd F : Mem) (y x : Nat) : Int :=
  if x = FB_W - 1 then
    ((rd8 fd (cell y x) + rd8 F (cell y x + 64) + rd8 F (cell y x + 65)) * 85) >>> (8 : Nat)
  else if x = 0 then
    ((rd8 fd (cell y x) + rd8 F (cell y x + 64) + rd8 F (cell y x + 63)) * 85) >>> (8 : Nat)
  else
    (rd8 fd (cell y x) + rd8 F (cell y x + 64) + rd8 F (cell y x + 63)
      + rd8 F (cell y x + 65)) >>> (2 : Nat)

/-- Row `y` of the heat field is computed, not cleared, by the call: `not_done` is nonzero
when the row loop reaches it, which is after `FB_H - 1 - y` iterations. -/
def row_computed (fire_pal : Mem) (rng : Nat → Nat) (fire_data fb : Mem) (y : Nat) : Prop :=
  (draw_state fire_pal rng fire_data fb (FB_H - 1 - y)).not_done ≠ 0

/-! ## The variant without early stop -/

/-- The state of the variant without early stop when `k` iterations of the row loop have run:
every iteration applies the per-cell rules (`draw_row`), whatever `not_done` is. -/
def full_state (fire_pal : Mem) (rng : Nat → Nat) (fire_data fb : Mem) (k : Nat) : Fire :=
  (draw_row fire_pal)^[k] (draw_init (seed rng fire_data fb))

/-- The variant of `render_fire` that the specification compares it with: the same seeding,
then the per-cell update rule applied to every one of the `FB_H` rows, with no early exit. -/
def render_fire_full (fire_pal : Mem) (rng : Nat → Nat) (fire_data fb : Mem) : Fire :=
  full_state fire_pal rng fire_data fb FB_H

/-! ## Bounds of the arrays -/

/-- The access stays inside the array it is made on: `fire_data` has `FB_W * (FB_H + 1)`
cells, `fire_pal` has `256`, the frame buffer at `fb_base` has `FB_W * FB_H`. -/
def in_bounds : Access → Prop
  | Access.fire_data_rd i => 0 ≤ i ∧ i < ((FB_W * (FB_H + 1) : Nat) : Int)
  | Access.fire_data_wr i => 0 ≤ i ∧ i < ((FB_W * (FB_H + 1) : Nat) : Int)
  | Access.fire_pal_rd i => 0 ≤ i ∧ i < 256
  | Access.fb_wr i => 0 ≤ i ∧ i < ((FB_W * FB_H : Nat) : Int)

/-! ## Inputs used in the examples -/

/-- A memory holding `0` in every cell. -/
def zero_mem : Mem := fun _ => 0

/-- A random register that returns the word `w` at every read. -/
def rng_const (w : Nat) : Nat → Nat := fun _ => w

/-- A random register whose first word has the bits `00` for column `0` and `01` for the
columns `1 .. 15`, and whose later words have the bits `01` for every column: the seeding loop
lights the ignition cell of column `0` only. -/
def rng_corner : Nat → Nat := fun k => if k = 0 then 0x55555554 else 0x55555555

/-- The heat field with a single cell of value `8` in row 62, column 5, and `0` elsewhere. -/
def spark_mem : Mem := wr8 zero_mem (cell 62 5) 8

/-! ## Predicates used in the proofs -/

/-- A row step moves both pointers down by one row and changes no cell outside the row of
`FB_W` cells that ends at the pointer. -/
def RowFrame (f : Fire → Fire) : Prop :=
  ∀ s : Fire, (f s).dp = s.dp - 64 ∧ (f s).fp = s.fp - 64 ∧
    (∀ i : Int, (s.dp < i ∨ i ≤ s.dp - 64) → (f s).fire_data i = s.fire_data i) ∧
    (∀ i : Int, (s.fp < i ∨ i ≤ s.fp - 64) → (f s).fb i = s.fb i)

/-- The row processed by iteration number `k` of the row loop (its first processed cell is at
index `4095 - 64 * k`) holds, in the final state `F`, the values of the per-cell rules applied
to the heat field `fd` before the call and to the final cells of higher index, and the frame
buffer holds the palette entries of these values. -/
def RowRules (pal fd : Mem) (F : Fire) (k : Nat) : Prop :=
  (F.fire_data (4095 - 64 * k) =
    edge_rule (rd8 fd (4095 - 64 * k)) (rd8 F.fire_data (4095 - 64 * k + 64))
      (rd8 F.fire_data (4095 - 64 * k + 65))) ∧
  (∀ j : Nat, 1 ≤ j → j ≤ 62 → F.fire_data (4095 - 64 * k - j) =
    middle_rule (rd8 fd (4095 - 64 * k - j)) (rd8 F.fire_data (4095 - 64 * k - j + 64))
      (rd8 F.fire_data (4095 - 64 * k - j + 63)) (rd8 F.fire_data (4095 - 64 * k - j + 65))) ∧
  (F.fire_data (4095 - 64 * k - 63) =
    edge_rule (rd8 fd (4095 - 64 * k - 63)) (rd8 F.fire_data (4095 - 64 * k - 63 + 64))
      (rd8 F.fire_data (4095 - 64 * k - 63 + 63))) ∧
  (∀ j : Nat, j < 64 →
    F.fb (4095 - 64 * k - j) = rd16 pal (F.fire_data (4095 - 64 * k - j)))

/-- The row processed by iteration number `k` of the row loop is all zero in the heat field
of state `F`. -/
def RowZero (F : Fire) (k : Nat) : Prop :=
  ∀ j : Nat, j < 64 → F.fire_data (4095 - 64 * k - j) = 0

/-- Row `y` of the body holds, in the final state `F`, the values of the per-cell rules, by
column: the block "First colum" for the cell of column `FB_W - 1`, the middle loop for the
columns in between, the block "Last column" for the cell of column `0`; and the frame buffer
holds the palette entries of these values. -/
def GridRules (pal fd : Mem) (F : Fire) (y : Nat) : Prop :=
  (F.fire_data (cell y 63) =
    edge_rule (rd8 fd (cell y 63)) (rd8 F.fire_data (cell (y + 1) 63))
      (rd8 F.fire_data (cell (y + 2) 0))) ∧
  (∀ x : Nat, 0 < x → x < 63 → F.fire_data (cell y x) =
    middle_rule (rd8 fd (cell y x)) (rd8 F.fire_data (cell (y + 1) x))
      (rd8 F.fire_data (cell (y + 1) (x - 1))) (rd8 F.fire_data (cell (y + 1) (x + 1)))) ∧
  (F.fire_data (cell y 0) =
    edge_rule (rd8 fd (cell y 0)) (rd8 F.fire_data (cell (y + 1) 0))
      (rd8 F.fire_data (cell y 63))) ∧
  (∀ x : Nat, x < 64 → F.fb (cell y x) = rd16 pal (F.fire_data (cell y x)))

/-- Two states agree on the heat field, the frame buffer, both pointers and `not_done`; the
access logs may differ. -/
def Agree (s t : Fire) : Prop :=
  s.fire_data = t.fire_data ∧ s.fb = t.fb ∧ s.dp = t.dp ∧ s.fp = t.fp ∧ s.not_done = t.not_done

/-- A step only appends to the access log. -/
def LogMono (f : Fire → Fire) : Prop := ∀ (s : Fire) (a : Access), a ∈ s.log → a ∈ (f s).log

/-- Every index of `fire_pal` in the access log is in `0 .. 254`. -/
def PalIndexOK (s : Fire) : Prop := ∀ i : Int, Access.fire_pal_rd i ∈ s.log → 0 ≤ i ∧ i ≤ 254

/-- Every access in the log is in bounds, except possibly reads of `fire_data[4160]`. -/
def LogOK (s : Fire) : Prop := ∀ a ∈ s.log, in_bounds a ∨ a = Access.fire_data_rd 4160

/-- Both pointers are at one of the `FB_W * FB_H` body cells. -/
def InBody (s : Fire) : Prop := 0 ≤ s.dp ∧ s.dp ≤ 4095 ∧ 0 ≤ s.fp ∧ s.fp ≤ 4095

/-! ## Channels of the palette entries -/

/-- The three channel values `(R, G, B)` that `create_fire_palette` passes to `COMP_COLOR` for
entry `j` of `fire_pal`: the entry is written in the iteration `i = j % 32` by the statement
of band number `j / 32`. -/
def palette_channels (j : Int) : Int × Int × Int :=
  if j / 32 = 0 then (0, 0, (j % 32) <<< (1 : Int))
  else if j / 32 = 1 then ((j % 32) <<< (3 : Int), 0, 64 - ((j % 32) <<< (1 : Int)))
  else if j / 32 = 2 then (0xFF, (j % 32) <<< (3 : Int), 0)
  else if j / 32 = 3 then (0xFF, 0xFF, 0 + ((j % 32) <<< (2 : Int)))
  else if j / 32 = 4 then (0xFF, 0xFF, 64 + ((j % 32) <<< (2 : Int)))
  else if j / 32 = 5 then (0xFF, 0xFF, 128 + ((j % 32) <<< (2 : Int)))
  else if j / 32 = 6 then (0xFF, 0xFF, 192 + j % 32)
  else (0xFF, 0xFF, 224 + j % 32)

/-- The red channel value, 8 bits, of palette entry `j` before packing. -/
def palette_red (j : Int) : Int := (palette_channels j).1

/-- The green channel value, 8 bits, of palette entry `j` before packing. -/
def palette_green (j : Int) : Int := (palette_channels j).2.1

/-- The blue channel value, 8 bits, of palette entry `j` before packing. -/
def palette_blue (j : Int) : Int := (palette_channels j).2.2

/-- The blue field of a packed colour: bits 11 to 15. -/
def blue_field (c : Int) : Int := (c >>> (11 : Nat)) % 32

/-- The green field of a packed colour: bits 5 to 10. -/
def green_field (c : Int) : Int := (c >>> (5 : Nat)) % 64

/-- The red field of a packed colour: bits 0 to 4. -/
def red_field (c : Int) : Int := c % 32

/-- The value that `create_fire_palette` stores in entry `j` of `fire_pal`: the packing of the
three channels, converted to `uint16_t`. -/
def palette_entry (j : Int) : Int :=
  COMP_COLOR (palette_red j) (palette_green j) (palette_blue j) % 65536

/-! ## `calloc_aligned` -/

/-- The C library function `memset(p, c, n)` on a byte memory indexed by address: the `n`
bytes from address `p` are set to `c`, the others are left as they are. -/
def memset (mem : Mem) (p c : Int) (n : Nat) : Mem :=
  fun a => if p ≤ a ∧ a < p + (n : Int) then c % 256 else mem a

/-- The function `calloc_aligned(nmemb, size, align)`.  `size_t` and the member `u` of the
union are 32 bits wide, so the arithmetic is taken modulo `2 ^ 32`.  `malloc` gives the address
returned by the C library for a request of the given size, `0` being `NULL`; `mem` is the byte
memory before the call.  The result is the returned pointer and the byte memory after the call:
`t = nmemb * size + align; m.p = malloc(t); if (!m.p) return NULL; memset(m.p, 0x00, t);
m.u = (m.u + align - 1) & ~(align - 1); return m.p;` -/
def calloc_aligned (malloc : Nat → Nat) (mem : Mem) (nmemb size align : Nat) : Nat × Mem :=
  let t : Nat := (nmemb * size + align) % 2 ^ 32
  let m : Nat := malloc t % 2 ^ 32
  if m = 0 then (0, mem)
  else
    let mem := memset mem (m : Int) 0x00 t
    let u : Nat := ((m + align) % 2 ^ 32 + (2 ^ 32 - 1)) % 2 ^ 32 &&&
      (2 ^ 32 - 1 - (align % 2 ^ 32 + (2 ^ 32 - 1)) % 2 ^ 32)
    (u, mem)

/-! ## The control word of the HUB75 driver -/

/-- The macro `HUB75_CTL_SCAN_ENA`, `(1 << 31)`, as a 32-bit pattern. -/
def HUB75_CTL_SCAN_ENA : Nat := 1 <<< 31

/-- The macro `HUB75_CTL_IRQ_ENA`, `(1 << 30)`. -/
def HUB75_CTL_IRQ_ENA : Nat := 1 <<< 30

/-- The macro `HUB75_CTL_FB(x)`, `((x) << 28)`. -/
def HUB75_CTL_FB (x : Nat) : Nat := x <<< 28

/-- The macro `HUB75_CTL_BCM_LSB_LEN(x)`, `((x) << 24)`. -/
def HUB75_CTL_BCM_LSB_LEN (x : Nat) : Nat := x <<< 24

/-- The macro `HUB75_CTL_FB_ADDR(x)`, `(((uint32_t)(x) >> 1) & ((1 << 24)-1))`. -/
def HUB75_CTL_FB_ADDR (x : Nat) : Nat := ((x % 2 ^ 32) >>> 1) &&& ((1 <<< 24) - 1)

/-- The word that the main loop writes to `MISC_HUB75_REG` after a frame, as stored in the
32-bit register: `HUB75_CTL_SCAN_ENA | HUB75_CTL_FB(fb_n) | HUB75_CTL_BCM_LSB_LEN(0) |
HUB75_CTL_FB_ADDR(hub75_mem)`. -/
def hub75_ctl (fb_n hub75_mem : Nat) : Nat :=
  (HUB75_CTL_SCAN_ENA ||| HUB75_CTL_FB fb_n ||| HUB75_CTL_BCM_LSB_LEN 0 |||
    HUB75_CTL_FB_ADDR hub75_mem) % 2 ^ 32

/-! ## `main` -/

/-- The effects of `main` that can be observed from outside, in the order they happen. -/
inductive Event where
  /-- The greeting printed on the console. -/
  | greeting
  /-- A call of `wait_for_button_release()`. -/
  | wait_release
  /-- A call of `cache_flush(start, stop)`, by byte address. -/
  | flush (start stop : Nat)
  /-- A call of `render_fire(fb_base)` made with `fb_n`, `fb_base` by byte address. -/
  | render (fb_n fb_base : Nat)
  /-- A write of `word` to `MISC_HUB75_REG`. -/
  | hub75 (word : Nat)
  deriving DecidableEq

/-- The variables of `main` and the statics it works on.  `fb_n` is an `int` that only ever
holds `0 .. 3`.  `hub75_mem` is a byte address, `0` being `NULL`; `pool` is the memory from
that address on, as 16-bit cells indexed by cell offset.  `rng_used` counts the reads of the
random register made so far. -/
structure Main where
  fb_n : Nat
  run : Bool
  hub75_mem : Nat
  pool : Mem
  fire_pal : Mem
  fire_data : Mem
  rng_used : Nat
  events : List Event

/-- The cell offset of `fb_base` in the pool: `fb_base = &hub75_mem[fb_n * FB_H * FB_H]`. -/
def fb_offset (fb_n : Nat) : Nat := fb_n * FB_H * FB_H

/-- The call `render_fire(fb_base)` with `fb_base = &hub75_mem[fb_n * FB_H * FB_H]`: the frame
buffer that the call sees at cell `j` is the pool at cell `fb_n * FB_H * FB_H + j`. -/
def render_frame (fire_pal : Mem) (rng : Nat → Nat) (fire_data pool : Mem) (fb_n : Nat) : Fire :=
  render_fire fire_pal rng fire_data (fun j => pool ((fb_offset fb_n : Int) + j))

/-- The pool after the call `render_fire(fb_base)` that ended in state `F`: the cell at pool
offset `i` is the cell that the call sees at `i - fb_n * FB_H * FB_H`. -/
def pool_after (fb_n : Nat) (F : Fire) : Mem :=
  fun i => F.fb (i - (fb_offset fb_n : Int))

/-- The start of `main`, up to the main loop: the greeting, `wait_for_button_release()`,
`hub75_mem = calloc_aligned(FB_N * FB_H * FB_W, sizeof(uint16_t), 128);`,
`cache_flush(&hub75_mem[0], &hub75_mem[FB_N * FB_H * FB_W]);`, the `memset` of `fire_data`
and `create_fire_palette()`.  The result of `calloc_aligned` is not tested.  `run` is not
initialised by the source, so its first value `run0` is a parameter; so are the contents of
the memory and of the two static arrays.  The cells of the pool are read from the byte memory
in little-endian order. -/
def main_start (malloc : Nat → Nat) (mem : Mem) (run0 : Bool) (fire_pal0 fire_data0 : Mem) :
    Main :=
  let r := calloc_aligned malloc mem (FB_N * FB_H * FB_W) 2 128
  { fb_n := 0
    run := run0
    hub75_mem := r.1
    pool := fun i => rd8 r.2 ((r.1 : Int) + 2 * i) + 256 * rd8 r.2 ((r.1 : Int) + 2 * i + 1)
    fire_pal := create_fire_palette fire_pal0
    fire_data := memset fire_data0 0 0x00 (FB_W * (FB_H + 1))
    rng_used := 0
    events := [Event.greeting, Event.wait_release,
      Event.flush r.1 ((r.1 + 2 * (FB_N * FB_H * FB_W)) % 2 ^ 32)] }

/-- The part of the loop body that renders: `fb_n = (fb_n + 1) & 3;
fb_base = &hub75_mem[fb_n * FB_H * FB_H]; render_fire(fb_base);` (which ends with
`cache_flush(fb_base, &fb_base[FB_W * FB_H])`) and the write of the control word to
`MISC_HUB75_REG`. -/
def frame (rng : Nat → Nat) (s : Main) : Main :=
  let fb_n := (s.fb_n + 1) &&& 3
  let fb_base := (s.hub75_mem + 2 * fb_offset fb_n) % 2 ^ 32
  let F := render_frame s.fire_pal (fun k => rng (s.rng_used + k)) s.fire_data s.pool fb_n
  { s with
    fb_n := fb_n
    pool := pool_after fb_n F
    fire_data := F.fire_data
    rng_used := s.rng_used + F.rng_reads
    events := s.events ++ [Event.render fb_n fb_base,
      Event.flush fb_base ((fb_base + 2 * (FB_W * FB_H)) % 2 ^ 32),
      Event.hub75 (hub75_ctl fb_n s.hub75_mem)] }

/-- One iteration of the main loop, entered when button A is not pressed; `btn_b` tells
whether button B is pressed: `delay(0); if (B pressed) { run ^= 1;
wait_for_button_release(); } if (!run) continue;` then the rendering part. -/
def main_iter (rng : Nat → Nat) (btn_b : Bool) (s : Main) : Main :=
  let s := if btn_b then { s with run := !s.run, events := s.events ++ [Event.wait_release] }
    else s
  if s.run then frame rng s else s

/-- The main loop, for the iterations made until button A is pressed: `btns` gives, for each
of them, whether button B is pressed. -/
def main_loop (rng : Nat → Nat) (btns : List Bool) (s : Main) : Main :=
  btns.foldl (fun t b => main_iter rng b t) s

/-- The function `main`: the start, the main loop, and `MISC_REG(MISC_HUB75_REG) = 0;` once
button A is pressed. -/
def main (malloc : Nat → Nat) (mem : Mem) (run0 : Bool) (fire_pal0 fire_data0 : Mem)
    (rng : Nat → Nat) (btns : List Bool) : Main :=
  let s := main_loop rng btns (main_start malloc mem run0 fire_pal0 fire_data0)
  { s with events := s.events ++ [Event.hub75 0] }

/-! ## Readings of the trace -/

/-- The buffer indices of the `render_fire` calls of a trace, in order. -/
def rendered (evs : List Event) : List Nat :=
  evs.filterMap fun e => match e with
    | Event.render n _ => some n
    | _ => none

/-- The words written to `MISC_HUB75_REG` in a trace, in order. -/
def published (evs : List Event) : List Nat :=
  evs.filterMap fun e => match e with
    | Event.hub75 w => some w
    | _ => none

/-- The frame-buffer selection field of a control word: bits 28 and 29. -/
def ctl_fb (w : Nat) : Nat := w / 2 ^ 28 % 4

/-- The address field of a control word: bits 0 to 23. -/
def ctl_addr (w : Nat) : Nat := w % 2 ^ 24

/-- The buffer index written by frame number `k` of a run, counted from `0`. -/
def target (k : Nat) : Nat := (k + 1) % 4

/-- What holds of the state of the main loop when `m` frames have been rendered and the pool
pointer is `h`: the frames went to the indices `target 0`, `target 1`, ... in this order, each
control word written carries the index of its frame and the address field of `h`, the last
one carries the current `fb_n`, every `render_fire` call got the pointer
`&hub75_mem[fb_n * FB_H * FB_H]` for an index in `0 .. 3`, and the pool was flushed at the
start. -/
def TraceInv (h : Nat) (s : Main) (m : Nat) : Prop :=
  rendered s.events = (List.range m).map target ∧
  (published s.events).map ctl_fb = rendered s.events ∧
  s.fb_n = m % 4 ∧
  s.hub75_mem = h ∧
  (∀ w ∈ published s.events, ctl_addr w = h % 2 ^ 32 / 2 % 2 ^ 24) ∧
  (∀ w : Nat, (published s.events).getLast? = some w → ctl_fb w = s.fb_n) ∧
  (∀ n b : Nat, Event.render n b ∈ s.events → b = (h + 2 * fb_offset n) % 2 ^ 32 ∧ n < 4) ∧
  Event.flush h ((h + 2 * (FB_N * FB_H * FB_W)) % 2 ^ 32) ∈ s.events

/-- A `malloc` that always fails. -/
def malloc_fail : Nat → Nat := fun _ => 0

/-- A `malloc` that always returns the address `0x40001004`. -/
def malloc_at : Nat → Nat := fun _ => 0x40001004

/-! # Lemmas -/

/-! ## Arithmetic of the cell rules -/

theorem shr8_eq (a : Int) : a >>> (8 : Nat) = a / 256 := by
  rw [Int.shiftRight_eq_div_pow]; norm_num

theorem shr2_eq (a : Int) : a >>> (2 : Nat) = a / 4 := by
  rw [Int.shiftRight_eq_div_pow]; norm_num

theorem nat_lor_eq_zero (m n : Nat) : m ||| n = 0 ↔ m = 0 ∧ n = 0 := by
  constructor
  · intro h
    constructor
    · apply Nat.eq_of_testBit_eq; intro i
      have := congrArg (fun k => Nat.testBit k i) h
      simp [Nat.testBit_or] at this ⊢
      exact this.1
    · apply Nat.eq_of_testBit_eq; intro i
      have := congrArg (fun k => Nat.testBit k i) h
      simp [Nat.testBit_or] at this ⊢
      exact this.2
  · rintro ⟨rfl, rfl⟩; rfl

theorem lor_eq_zero (a b : Int) : Int.lor a b = 0 ↔ a = 0 ∧ b = 0 := by
  cases a <;> cases b <;> simp [Int.lor]
  exact nat_lor_eq_zero _ _

theorem rd8_nonneg (m : Mem) (i : Int) : 0 ≤ rd8 m i := by unfold rd8; omega

theorem rd8_lt (m : Mem) (i : Int) : rd8 m i < 256 := by unfold rd8; omega

theorem decay_eq (t : Int) : decay t = if t = 0 then 0 else t - 1 := by
  unfold decay; split_ifs <;> omega

theorem edge_rule_bounds (a b c : Int) (ha : 0 ≤ a ∧ a < 256) (hb : 0 ≤ b ∧ b < 256)
    (hc : 0 ≤ c ∧ c < 256) : 0 ≤ edge_rule a b c ∧ edge_rule a b c ≤ 253 := by
  unfold edge_rule; rw [shr8_eq, decay_eq]; split_ifs <;> omega

theorem middle_rule_bounds (a b c d : Int) (ha : 0 ≤ a ∧ a < 256) (hb : 0 ≤ b ∧ b < 256)
    (hc : 0 ≤ c ∧ c < 256) (hd : 0 ≤ d ∧ d < 256) :
    0 ≤ middle_rule a b c d ∧ middle_rule a b c d ≤ 254 := by
  unfold middle_rule; rw [shr2_eq, decay_eq]; split_ifs <;> omega

/-! ## Single cells -/

theorem wr8_same (m : Mem) (i v : Int) : wr8 m i v i = v % 256 := by simp [wr8]

theorem wr8_other (m : Mem) (i v j : Int) (h : j ≠ i) : wr8 m i v j = m j := by simp [wr8, h]

theorem wr16_same (m : Mem) (i v : Int) : wr16 m i v i = v % 65536 := by simp [wr16]

theorem wr16_other (m : Mem) (i v j : Int) (h : j ≠ i) : wr16 m i v j = m j := by
  simp [wr16, h]

theorem rd8_congr {m n : Mem} {i : Int} (h : m i = n i) : rd8 m i = rd8 n i := by
  unfold rd8; rw [h]

theorem rd8_val {m : Mem} {i v : Int} (h : m i = v) : rd8 m i = v % 256 := by
  unfold rd8; rw [h]

theorem rd16_mod (m : Mem) (i : Int) : rd16 m i % 65536 = rd16 m i := by unfold rd16; omega

/-- The value computed by the "First colum" block in state `s`. -/
theorem first_column_fire_data (pal : Mem) (s : Fire) :
    (first_column pal s).fire_data = wr8 s.fire_data s.dp
      (edge_rule (rd8 s.fire_data s.dp) (rd8 s.fire_data (s.dp + 64))
        (rd8 s.fire_data (s.dp + 65))) := by
  simp [first_column, store_cell, edge_rule, FB_W]

theorem first_column_fb (pal : Mem) (s : Fire) :
    (first_column pal s).fb = wr16 s.fb s.fp (rd16 pal
      (edge_rule (rd8 s.fire_data s.dp) (rd8 s.fire_data (s.dp + 64))
        (rd8 s.fire_data (s.dp + 65)))) := by
  simp [first_column, store_cell, edge_rule, FB_W]

theorem first_column_not_done (pal : Mem) (s : Fire) :
    (first_column pal s).not_done = Int.lor s.not_done
      (edge_rule (rd8 s.fire_data s.dp) (rd8 s.fire_data (s.dp + 64))
        (rd8 s.fire_data (s.dp + 65))) := by
  simp [first_column, store_cell, edge_rule, FB_W]

theorem first_column_dp (pal : Mem) (s : Fire) : (first_column pal s).dp = s.dp - 1 := rfl

theorem first_column_fp (pal : Mem) (s : Fire) : (first_column pal s).fp = s.fp - 1 := rfl

theorem middle_column_fire_data (pal : Mem) (s : Fire) :
    (middle_column pal s).fire_data = wr8 s.fire_data s.dp
      (middle_rule (rd8 s.fire_data s.dp) (rd8 s.fire_data (s.dp + 64))
        (rd8 s.fire_data (s.dp + 63)) (rd8 s.fire_data (s.dp + 65))) := by
  simp [middle_column, store_cell, middle_rule, FB_W]

theorem middle_column_fb (pal : Mem) (s : Fire) :
    (middle_column pal s).fb = wr16 s.fb s.fp (rd16 pal
      (middle_rule (rd8 s.fire_data s.dp) (rd8 s.fire_data (s.dp + 64))
        (rd8 s.fire_data (s.dp + 63)) (rd8 s.fire_data (s.dp + 65)))) := by
  simp [middle_column, store_cell, middle_rule, FB_W]

theorem middle_column_not_done (pal : Mem) (s : Fire) :
    (middle_column pal s).not_done = Int.lor s.not_done
      (middle_rule (rd8 s.fire_data s.dp) (rd8 s.fire_data (s.dp + 64))
        (rd8 s.fire_data (s.dp + 63)) (rd8 s.fire_data (s.dp + 65))) := by
  simp [middle_column, store_cell, middle_rule, FB_W]

theorem middle_column_dp (pal : Mem) (s : Fire) : (middle_column pal s).dp = s.dp - 1 := rfl

theorem middle_column_fp (pal : Mem) (s : Fire) : (middle_column pal s).fp = s.fp - 1 := rfl

theorem last_column_fire_data (pal : Mem) (s : Fire) :
    (last_column pal s).fire_data = wr8 s.fire_data s.dp
      (edge_rule (rd8 s.fire_data s.dp) (rd8 s.fire_data (s.dp + 64))
        (rd8 s.fire_data (s.dp + 63))) := by
  simp [last_column, store_cell, edge_rule, FB_W]

theorem last_column_fb (pal : Mem) (s : Fire) :
    (last_column pal s).fb = wr16 s.fb s.fp (rd16 pal
      (edge_rule (rd8 s.fire_data s.dp) (rd8 s.fire_data (s.dp + 64))
        (rd8 s.fire_data (s.dp + 63)))) := by
  simp [last_column, store_cell, edge_rule, FB_W]

theorem last_column_not_done (pal : Mem) (s : Fire) :
    (last_column pal s).not_done = Int.lor s.not_done
      (edge_rule (rd8 s.fire_data s.dp) (rd8 s.fire_data (s.dp + 64))
        (rd8 s.fire_data (s.dp + 63))) := by
  simp [last_column, store_cell, edge_rule, FB_W]

theorem last_column_dp (pal : Mem) (s : Fire) : (last_column pal s).dp = s.dp - 1 := rfl

theorem last_column_fp (pal : Mem) (s : Fire) : (last_column pal s).fp = s.fp - 1 := rfl

theorem edge_rule_mod (m : Mem) (i j k : Int) :
    edge_rule (rd8 m i) (rd8 m j) (rd8 m k) % 256 = edge_rule (rd8 m i) (rd8 m j) (rd8 m k) := by
  have := edge_rule_bounds _ _ _ ⟨rd8_nonneg m i, rd8_lt m i⟩ ⟨rd8_nonneg m j, rd8_lt m j⟩
    ⟨rd8_nonneg m k, rd8_lt m k⟩
  omega

theorem middle_rule_mod (m : Mem) (i j k l : Int) :
    middle_rule (rd8 m i) (rd8 m j) (rd8 m k) (rd8 m l) % 256
      = middle_rule (rd8 m i) (rd8 m j) (rd8 m k) (rd8 m l) := by
  have := middle_rule_bounds _ _ _ _ ⟨rd8_nonneg m i, rd8_lt m i⟩ ⟨rd8_nonneg m j, rd8_lt m j⟩
    ⟨rd8_nonneg m k, rd8_lt m k⟩ ⟨rd8_nonneg m l, rd8_lt m l⟩
  omega

/-! ## The middle columns of a row -/

/-- Effect of `n` iterations of the middle-column loop started in state `s`. -/
theorem middle_iter (pal : Mem) (s : Fire) (n : Nat) (hn : n ≤ 63) :
    ((middle_column pal)^[n] s).dp = s.dp - n ∧
    ((middle_column pal)^[n] s).fp = s.fp - n ∧
    (∀ i : Int, (s.dp < i ∨ i ≤ s.dp - n) →
      ((middle_column pal)^[n] s).fire_data i = s.fire_data i) ∧
    (∀ i : Int, (s.fp < i ∨ i ≤ s.fp - n) → ((middle_column pal)^[n] s).fb i = s.fb i) ∧
    (∀ j : Nat, j < n → ((middle_column pal)^[n] s).fire_data (s.dp - j) =
      middle_rule (rd8 s.fire_data (s.dp - j)) (rd8 s.fire_data (s.dp - j + 64))
        (rd8 s.fire_data (s.dp - j + 63)) (rd8 s.fire_data (s.dp - j + 65))) ∧
    (∀ j : Nat, j < n → ((middle_column pal)^[n] s).fb (s.fp - j) =
      rd16 pal (((middle_column pal)^[n] s).fire_data (s.dp - j))) ∧
    (((middle_column pal)^[n] s).not_done = 0 ↔
      s.not_done = 0 ∧ ∀ j : Nat, j < n → ((middle_column pal)^[n] s).fire_data (s.dp - j) = 0) := by
  induction n with
  | zero => simp
  | succ n ih =>
    obtain ⟨hdp, hfp, hfd, hfb, hval, hpix, hnd⟩ := ih (by omega)
    rw [Function.iterate_succ_apply']
    generalize (middle_column pal)^[n] s = t at hdp hfp hfd hfb hval hpix hnd
    -- the value stored by this iteration, in terms of the state before the loop
    have hv : middle_rule (rd8 t.fire_data t.dp) (rd8 t.fire_data (t.dp + 64))
        (rd8 t.fire_data (t.dp + 63)) (rd8 t.fire_data (t.dp + 65)) =
        middle_rule (rd8 s.fire_data (s.dp - n)) (rd8 s.fire_data (s.dp - n + 64))
        (rd8 s.fire_data (s.dp - n + 63)) (rd8 s.fire_data (s.dp - n + 65)) := by
      rw [hdp, rd8_congr (hfd (s.dp - n) (by omega)), rd8_congr (hfd (s.dp - n + 64) (by omega)),
        rd8_congr (hfd (s.dp - n + 63) (by omega)), rd8_congr (hfd (s.dp - n + 65) (by omega))]
    have hnew : (middle_column pal t).fire_data (s.dp - n) =
        middle_rule (rd8 s.fire_data (s.dp - n)) (rd8 s.fire_data (s.dp - n + 64))
        (rd8 s.fire_data (s.dp - n + 63)) (rd8 s.fire_data (s.dp - n + 65)) := by
      rw [middle_column_fire_data, ← hdp, wr8_same, middle_rule_mod, hv, hdp]
    have hold : ∀ i : Int, i ≠ s.dp - n → (middle_column pal t).fire_data i = t.fire_data i := by
      intro i hi
      rw [middle_column_fire_data, wr8_other _ _ _ _ (by rw [hdp]; exact hi)]
    refine ⟨?_, ?_, ?_, ?_, ?_, ?_, ?_⟩
    · rw [middle_column_dp, hdp]; push_cast; omega
    · rw [middle_column_fp, hfp]; push_cast; omega
    · intro i hi
      rw [hold i (by push_cast at hi; omega)]
      exact hfd i (by push_cast at hi; omega)
    · intro i hi
      rw [middle_column_fb, wr16_other _ _ _ _ (by rw [hfp]; push_cast at hi; omega)]
      exact hfb i (by push_cast at hi; omega)
    · intro j hj
      rcases Nat.lt_succ_iff_lt_or_eq.mp hj with hlt | rfl
      · rw [hold _ (by omega)]; exact hval j hlt
      · exact hnew
    · intro j hj
      rcases Nat.lt_succ_iff_lt_or_eq.mp hj with hlt | rfl
      · rw [hold _ (by omega), middle_column_fb, wr16_other _ _ _ _ (by rw [hfp]; omega)]
        exact hpix j hlt
      · rw [hnew, middle_column_fb, ← hfp, wr16_same, rd16_mod, hv]
    · rw [middle_column_not_done, lor_eq_zero, hnd, hv, ← hnew]
      constructor
      · rintro ⟨⟨h0, hall⟩, hlast⟩
        refine ⟨h0, fun j hj => ?_⟩
        rcases Nat.lt_succ_iff_lt_or_eq.mp hj with hlt | rfl
        · rw [hold _ (by omega)]; exact hall j hlt
        · exact hlast
      · rintro ⟨h0, hall⟩
        refine ⟨⟨h0, fun j hj => ?_⟩, hall n (by omega)⟩
        rw [← hold _ (by omega)]; exact hall j (by omega)

/-! ## One row -/

/-- Effect of `n` iterations of the clearing loop started in state `s`. -/
theorem clear_iter (s : Fire) (n : Nat) :
    (clear_cell^[n] s).dp = s.dp - n ∧
    (clear_cell^[n] s).fp = s.fp - n ∧
    (clear_cell^[n] s).not_done = s.not_done ∧
    (∀ i : Int, (s.dp < i ∨ i ≤ s.dp - n) → (clear_cell^[n] s).fire_data i = s.fire_data i) ∧
    (∀ i : Int, (s.fp < i ∨ i ≤ s.fp - n) → (clear_cell^[n] s).fb i = s.fb i) ∧
    (∀ j : Nat, j < n → (clear_cell^[n] s).fire_data (s.dp - j) = 0) ∧
    (∀ j : Nat, j < n → (clear_cell^[n] s).fb (s.fp - j) = 0) := by
  induction n with
  | zero => simp
  | succ n ih =>
    obtain ⟨hdp, hfp, hnd, hfd, hfb, hval, hpix⟩ := ih
    rw [Function.iterate_succ_apply']
    generalize clear_cell^[n] s = t at hdp hfp hnd hfd hfb hval hpix
    have e1 : (clear_cell t).fire_data = wr8 t.fire_data t.dp 0 := rfl
    have e2 : (clear_cell t).fb = wr16 t.fb t.fp 0 := rfl
    have e3 : (clear_cell t).dp = t.dp - 1 := rfl
    have e4 : (clear_cell t).fp = t.fp - 1 := rfl
    have e5 : (clear_cell t).not_done = t.not_done := rfl
    refine ⟨?_, ?_, ?_, ?_, ?_, ?_, ?_⟩
    · rw [e3, hdp]; push_cast; omega
    · rw [e4, hfp]; push_cast; omega
    · rw [e5, hnd]
    · intro i hi
      rw [e1, wr8_other _ _ _ _ (by rw [hdp]; push_cast at hi; omega)]
      exact hfd i (by push_cast at hi; omega)
    · intro i hi
      rw [e2, wr16_other _ _ _ _ (by rw [hfp]; push_cast at hi; omega)]
      exact hfb i (by push_cast at hi; omega)
    · intro j hj
      rcases Nat.lt_succ_iff_lt_or_eq.mp hj with hlt | rfl
      · rw [e1, wr8_other _ _ _ _ (by rw [hdp]; omega)]; exact hval j hlt
      · rw [e1, ← hdp, wr8_same]; rfl
    · intro j hj
      rcases Nat.lt_succ_iff_lt_or_eq.mp hj with hlt | rfl
      · rw [e2, wr16_other _ _ _ _ (by rw [hfp]; omega)]; exact hpix j hlt
      · rw [e2, ← hfp, wr16_same]; rfl

/-- Effect of the early-stop branch on a row: the `FB_W` cells from `dp` and from `fp`
downwards are set to `0`, nothing else changes, `not_done` stays as it is. -/
theorem clear_row_spec (s : Fire) :
    (clear_row s).dp = s.dp - 64 ∧
    (clear_row s).fp = s.fp - 64 ∧
    (clear_row s).not_done = s.not_done ∧
    (∀ i : Int, (s.dp < i ∨ i ≤ s.dp - 64) → (clear_row s).fire_data i = s.fire_data i) ∧
    (∀ i : Int, (s.fp < i ∨ i ≤ s.fp - 64) → (clear_row s).fb i = s.fb i) ∧
    (∀ j : Nat, j < 64 → (clear_row s).fire_data (s.dp - j) = 0) ∧
    (∀ j : Nat, j < 64 → (clear_row s).fb (s.fp - j) = 0) := by
  have h := clear_iter s 64
  simpa [clear_row, FB_W] using h

/-- Effect of the computing branch on a row, in terms of the state `s` at its start: the cell
at `dp` gets the edge rule of `dp[0]`, `dp[64]`, `dp[65]`; the next 62 cells get the middle
rule; the last cell, 63 below `dp`, gets the edge rule of its own value, the cell 64 above it
and the cell 63 above it, which is the cell at `dp` just written. -/
theorem draw_row_spec (pal : Mem) (s : Fire) :
    (draw_row pal s).dp = s.dp - 64 ∧
    (draw_row pal s).fp = s.fp - 64 ∧
    (∀ i : Int, (s.dp < i ∨ i ≤ s.dp - 64) → (draw_row pal s).fire_data i = s.fire_data i) ∧
    (∀ i : Int, (s.fp < i ∨ i ≤ s.fp - 64) → (draw_row pal s).fb i = s.fb i) ∧
    ((draw_row pal s).fire_data s.dp =
      edge_rule (rd8 s.fire_data s.dp) (rd8 s.fire_data (s.dp + 64))
        (rd8 s.fire_data (s.dp + 65))) ∧
    (∀ j : Nat, 1 ≤ j → j ≤ 62 → (draw_row pal s).fire_data (s.dp - j) =
      middle_rule (rd8 s.fire_data (s.dp - j)) (rd8 s.fire_data (s.dp - j + 64))
        (rd8 s.fire_data (s.dp - j + 63)) (rd8 s.fire_data (s.dp - j + 65))) ∧
    ((draw_row pal s).fire_data (s.dp - 63) =
      edge_rule (rd8 s.fire_data (s.dp - 63)) (rd8 s.fire_data (s.dp - 63 + 64))
        (rd8 (draw_row pal s).fire_data (s.dp - 63 + 63))) ∧
    (∀ j : Nat, j < 64 → (draw_row pal s).fb (s.fp - j) =
      rd16 pal ((draw_row pal s).fire_data (s.dp - j))) ∧
    ((draw_row pal s).not_done = 0 ↔
      ∀ j : Nat, j < 64 → (draw_row pal s).fire_data (s.dp - j) = 0) := by
  have hdef : draw_row pal s = last_column pal ((middle_column pal)^[62]
      (first_column pal { s with not_done := 0 })) := rfl
  rw [hdef]
  -- after the first column
  have a_fd := first_column_fire_data pal { s with not_done := 0 }
  have a_fb := first_column_fb pal { s with not_done := 0 }
  have a_nd := first_column_not_done pal { s with not_done := 0 }
  have a_dp := first_column_dp pal { s with not_done := 0 }
  have a_fp := first_column_fp pal { s with not_done := 0 }
  simp only [] at a_fd a_fb a_nd a_dp a_fp
  generalize first_column pal { s with not_done := 0 } = s1 at a_fd a_fb a_nd a_dp a_fp
  generalize hv0 : edge_rule (rd8 s.fire_data s.dp) (rd8 s.fire_data (s.dp + 64))
    (rd8 s.fire_data (s.dp + 65)) = v0 at a_fd a_fb a_nd
  have hv0m : v0 % 256 = v0 := by rw [← hv0]; exact edge_rule_mod _ _ _ _
  have a_same : s1.fire_data s.dp = v0 := by rw [a_fd, wr8_same, hv0m]
  have a_other : ∀ i : Int, i ≠ s.dp → s1.fire_data i = s.fire_data i := by
    intro i hi; rw [a_fd, wr8_other _ _ _ _ hi]
  -- after the middle columns
  obtain ⟨b_dp, b_fp, b_fd, b_fb, b_val, b_pix, b_nd⟩ := middle_iter pal s1 62 (by omega)
  generalize (middle_column pal)^[62] s1 = s2 at b_dp b_fp b_fd b_fb b_val b_pix b_nd
  rw [a_dp] at b_dp b_fd b_val b_pix b_nd
  rw [a_fp] at b_fp b_fb b_pix
  have e62 : s.dp - 1 - ((62 : Nat) : Int) = s.dp - 63 := by push_cast; omega
  have f62 : s.fp - 1 - ((62 : Nat) : Int) = s.fp - 63 := by push_cast; omega
  rw [e62] at b_dp b_fd
  rw [f62] at b_fp b_fb
  have b_top : s2.fire_data s.dp = v0 := by rw [b_fd s.dp (by omega), a_same]
  have b_mid : ∀ j : Nat, 1 ≤ j → j ≤ 62 → s2.fire_data (s.dp - j) =
      middle_rule (rd8 s.fire_data (s.dp - j)) (rd8 s.fire_data (s.dp - j + 64))
        (rd8 s.fire_data (s.dp - j + 63)) (rd8 s.fire_data (s.dp - j + 65)) := by
    intro j h1 h2
    have h := b_val (j - 1) (by omega)
    have e : s.dp - 1 - ((j - 1 : Nat) : Int) = s.dp - j := by omega
    rw [e] at h
    rw [h, rd8_congr (a_other (s.dp - j) (by omega)),
      rd8_congr (a_other (s.dp - j + 64) (by omega)),
      rd8_congr (a_other (s.dp - j + 63) (by omega)),
      rd8_congr (a_other (s.dp - j + 65) (by omega))]
  -- the last column
  generalize hv1 : edge_rule (rd8 s2.fire_data s2.dp) (rd8 s2.fire_data (s2.dp + 64))
    (rd8 s2.fire_data (s2.dp + 63)) = v1
  have hv1m : v1 % 256 = v1 := by rw [← hv1]; exact edge_rule_mod _ _ _ _
  have c_fd : (last_column pal s2).fire_data = wr8 s2.fire_data (s.dp - 63) v1 := by
    rw [last_column_fire_data, hv1, b_dp]
  have c_fb : (last_column pal s2).fb = wr16 s2.fb (s.fp - 63) (rd16 pal v1) := by
    rw [last_column_fb, hv1, b_fp]
  have c_nd : (last_column pal s2).not_done = Int.lor s2.not_done v1 := by
    rw [last_column_not_done, hv1]
  have c_same : (last_column pal s2).fire_data (s.dp - 63) = v1 := by
    rw [c_fd, wr8_same, hv1m]
  have c_other : ∀ i : Int, i ≠ s.dp - 63 →
      (last_column pal s2).fire_data i = s2.fire_data i := by
    intro i hi; rw [c_fd, wr8_other _ _ _ _ hi]
  have c_top : (last_column pal s2).fire_data s.dp = v0 := by
    rw [c_other _ (by omega), b_top]
  have hv1' : v1 = edge_rule (rd8 s.fire_data (s.dp - 63)) (rd8 s.fire_data (s.dp - 63 + 64))
      (rd8 (last_column pal s2).fire_data (s.dp - 63 + 63)) := by
    rw [← hv1, b_dp]
    rw [rd8_congr (b_fd (s.dp - 63) (by omega)),
      rd8_congr (a_other (s.dp - 63) (by omega)),
      rd8_congr (b_fd (s.dp - 63 + 64) (by omega)),
      rd8_congr (a_other (s.dp - 63 + 64) (by omega))]
    congr 1
    apply rd8_congr
    rw [c_other _ (by omega)]
  -- every cell of the row, by position
  have cell : ∀ j : Nat, j < 64 → (last_column pal s2).fire_data (s.dp - j) =
      if j = 0 then v0 else if j = 63 then v1 else s2.fire_data (s.dp - j) := by
    intro j hj
    by_cases h0 : j = 0
    · subst h0; simpa using c_top
    · by_cases h63 : j = 63
      · subst h63; simpa using c_same
      · rw [if_neg h0, if_neg h63, c_other _ (by omega)]
  refine ⟨?_, ?_, ?_, ?_, ?_, ?_, ?_, ?_, ?_⟩
  · rw [last_column_dp, b_dp]; omega
  · rw [last_column_fp, b_fp]; omega
  · intro i hi
    rw [c_other _ (by omega), b_fd i (by omega), a_other i (by omega)]
  · intro i hi
    rw [c_fb, wr16_other _ _ _ _ (by omega), b_fb i (by omega), a_fb,
      wr16_other _ _ _ _ (by omega)]
  · exact c_top
  · intro j h1 h2
    rw [c_other _ (by omega)]; exact b_mid j h1 h2
  · rw [c_same]; exact hv1'
  · intro j hj
    rw [cell j hj]
    by_cases h0 : j = 0
    · subst h0
      rw [if_pos rfl, c_fb, wr16_other _ _ _ _ (by push_cast; omega),
        b_fb _ (by push_cast; omega), a_fb]
      simp [wr16_same, rd16_mod]
    · by_cases h63 : j = 63
      · subst h63
        rw [if_neg h0, if_pos rfl, c_fb]
        simp [wr16_same, rd16_mod]
      · rw [if_neg h0, if_neg h63, c_fb, wr16_other _ _ _ _ (by omega)]
        have h := b_pix (j - 1) (by omega)
        have e : s.dp - 1 - ((j - 1 : Nat) : Int) = s.dp - j := by omega
        have e' : s.fp - 1 - ((j - 1 : Nat) : Int) = s.fp - j := by omega
        rw [e, e'] at h
        exact h
  · rw [c_nd, lor_eq_zero, b_nd, a_nd, lor_eq_zero]
    constructor
    · rintro ⟨⟨⟨-, h0⟩, hmid⟩, h1⟩ j hj
      rw [cell j hj]
      by_cases j0 : j = 0
      · rw [if_pos j0]; exact h0
      · by_cases j63 : j = 63
        · rw [if_neg j0, if_pos j63]; exact h1
        · rw [if_neg j0, if_neg j63]
          have h := hmid (j - 1) (by omega)
          have e : s.dp - 1 - ((j - 1 : Nat) : Int) = s.dp - j := by omega
          rw [e] at h
          exact h
    · intro hall
      have h0 := hall 0 (by omega)
      have h63 := hall 63 (by omega)
      rw [cell 0 (by omega)] at h0
      rw [cell 63 (by omega)] at h63
      simp only [if_true] at h0
      simp only [show ¬ (63 : Nat) = 0 by omega, if_false, if_true] at h63
      refine ⟨⟨⟨rfl, h0⟩, fun j hj => ?_⟩, h63⟩
      have h := hall (j + 1) (by omega)
      rw [cell (j + 1) (by omega), if_neg (by omega), if_neg (by omega)] at h
      have e : s.dp - ((j + 1 : Nat) : Int) = s.dp - 1 - j := by push_cast; omega
      rw [e] at h
      exact h

/-! ## The seeding loop -/

theorem seed_loop_succ (rng : Nat → Nat) (n x : Nat) (s : Fire) :
    seed_loop rng (n + 1) x s = seed_body rng (x + n) (seed_loop rng n x s) := by
  induction n generalizing x s with
  | zero => rfl
  | succ n ih =>
    show seed_loop rng (n + 1) (x + 1) (seed_body rng x s) = _
    rw [ih]
    have e : x + 1 + n = x + (n + 1) := by omega
    rw [e]
    rfl

theorem seed_value_eq (w k : Nat) : seed_value (w >>> k) = seed_value ((w >>> k) &&& 3) := by
  unfold seed_value
  rw [Nat.and_assoc, Nat.and_self]

theorem seed_value_mod (r : Nat) : seed_value r % 256 = seed_value r := by
  unfold seed_value; split_ifs <;> rfl

/-- Effect of `n` iterations of the seeding loop started at column `0` with no random word
drawn yet. -/
theorem seed_iter (rng : Nat → Nat) (s : Fire) (hs : s.rng_reads = 0) (n : Nat) :
    (seed_loop rng n 0 s).dp = s.dp + n ∧
    (seed_loop rng n 0 s).rng_reads = (n + 15) / 16 ∧
    (n % 16 ≠ 0 → (seed_loop rng n 0 s).rnd = (rng (n / 16) % 2 ^ 32) >>> (2 * (n % 16))) ∧
    (seed_loop rng n 0 s).fb = s.fb ∧
    (∀ i : Int, (i < s.dp ∨ s.dp + n ≤ i) → (seed_loop rng n 0 s).fire_data i = s.fire_data i) ∧
    (∀ x : Nat, x < n →
      (seed_loop rng n 0 s).fire_data (s.dp + x) = seed_value (column_bits rng x)) := by
  induction n with
  | zero => simp [seed_loop, hs]
  | succ n ih =>
    obtain ⟨hdp, hrd, hrnd, hfb, hfd, hval⟩ := ih
    rw [seed_loop_succ, Nat.zero_add]
    generalize seed_loop rng n 0 s = t at hdp hrd hrnd hfb hfd hval
    have hand : n &&& 15 = n % 16 := Nat.and_pow_two_sub_one_eq_mod n 4
    by_cases h0 : n % 16 = 0
    · -- a fresh random word is read
      have hb : seed_body rng n t =
          { t with
            fire_data := wr8 t.fire_data t.dp (seed_value (rng t.rng_reads % 2 ^ 32))
            dp := t.dp + 1
            rnd := (rng t.rng_reads % 2 ^ 32) >>> 2
            rng_reads := t.rng_reads + 1
            log := t.log ++ [Access.fire_data_wr t.dp] } := by
        simp [seed_body, hand, h0]
      rw [hb]
      have hq : t.rng_reads = n / 16 := by rw [hrd]; omega
      refine ⟨?_, ?_, ?_, ?_, ?_, ?_⟩
      · show t.dp + 1 = _; rw [hdp]; push_cast; omega
      · show t.rng_reads + 1 = _; rw [hrd]; omega
      · intro _
        show (rng t.rng_reads % 2 ^ 32) >>> 2 = _
        rw [hq]
        have e1 : (n + 1) / 16 = n / 16 := by omega
        have e2 : (n + 1) % 16 = 1 := by omega
        rw [e1, e2]
      · exact hfb
      · intro i hi
        show wr8 t.fire_data t.dp _ i = _
        rw [wr8_other _ _ _ _ (by rw [hdp]; push_cast at hi; omega)]
        exact hfd i (by push_cast at hi; omega)
      · intro x hx
        show wr8 t.fire_data t.dp _ (s.dp + x) = _
        rcases Nat.lt_succ_iff_lt_or_eq.mp hx with hlt | rfl
        · rw [wr8_other _ _ _ _ (by rw [hdp]; omega)]; exact hval x hlt
        · rw [← hdp, wr8_same, seed_value_mod, hq]
          unfold column_bits
          rw [h0, Nat.mul_zero, ← seed_value_eq]
          rfl
    · -- the current word is used further
      have hb : seed_body rng n t =
          { t with
            fire_data := wr8 t.fire_data t.dp (seed_value t.rnd)
            dp := t.dp + 1
            rnd := t.rnd >>> 2
            log := t.log ++ [Access.fire_data_wr t.dp] } := by
        simp [seed_body, hand, h0]
      rw [hb]
      refine ⟨?_, ?_, ?_, ?_, ?_, ?_⟩
      · show t.dp + 1 = _; rw [hdp]; push_cast; omega
      · show t.rng_reads = _; rw [hrd]; omega
      · intro h1
        show t.rnd >>> 2 = _
        rw [hrnd h0, ← Nat.shiftRight_add]
        have e1 : (n + 1) / 16 = n / 16 := by omega
        have e2 : 2 * (n % 16) + 2 = 2 * ((n + 1) % 16) := by omega
        rw [e1, e2]
      · exact hfb
      · intro i hi
        show wr8 t.fire_data t.dp _ i = _
        rw [wr8_other _ _ _ _ (by rw [hdp]; push_cast at hi; omega)]
        exact hfd i (by push_cast at hi; omega)
      · intro x hx
        show wr8 t.fire_data t.dp _ (s.dp + x) = _
        rcases Nat.lt_succ_iff_lt_or_eq.mp hx with hlt | rfl
        · rw [wr8_other _ _ _ _ (by rw [hdp]; omega)]; exact hval x hlt
        · rw [← hdp, wr8_same, seed_value_mod, hrnd h0, seed_value_eq]
          rfl

theorem seed_value_bits (rng : Nat → Nat) (x : Nat) :
    seed_value (column_bits rng x) = if column_bits rng x = 0 then 255 else 0 := by
  unfold seed_value column_bits
  rw [Nat.and_assoc, Nat.and_self]
  split_ifs <;> first | rfl | contradiction

theorem column_bits_lt (rng : Nat → Nat) (x : Nat) : column_bits rng x < 4 := by
  unfold column_bits
  have h := Nat.and_pow_two_sub_one_eq_mod ((rng (x / 16) % 2 ^ 32) >>> (2 * (x % 16))) 2
  have e : 2 ^ 2 - 1 = 3 := rfl
  rw [e] at h
  rw [h]
  exact Nat.mod_lt _ (by decide)

/-! ## The row loop -/

theorem draw_row_frame (pal : Mem) : RowFrame (draw_row pal) := by
  intro s
  obtain ⟨h1, h2, h3, h4, -⟩ := draw_row_spec pal s
  exact ⟨h1, h2, h3, h4⟩

theorem clear_row_frame : RowFrame clear_row := by
  intro s
  obtain ⟨h1, h2, -, h3, h4, -⟩ := clear_row_spec s
  exact ⟨h1, h2, h3, h4⟩

theorem row_iter_frame (pal : Mem) : RowFrame (row_iter pal) := by
  intro s
  unfold row_iter
  split_ifs
  · exact clear_row_frame s
  · exact draw_row_frame pal s

theorem rows_frame (f : Fire → Fire) (hf : RowFrame f) (s : Fire) (n : Nat) :
    (f^[n] s).dp = s.dp - 64 * n ∧ (f^[n] s).fp = s.fp - 64 * n ∧
    (∀ i : Int, (s.dp < i ∨ i ≤ s.dp - 64 * n) → (f^[n] s).fire_data i = s.fire_data i) ∧
    (∀ i : Int, (s.fp < i ∨ i ≤ s.fp - 64 * n) → (f^[n] s).fb i = s.fb i) := by
  induction n with
  | zero => simp
  | succ n ih =>
    obtain ⟨hdp, hfp, hfd, hfb⟩ := ih
    rw [Function.iterate_succ_apply']
    obtain ⟨g1, g2, g3, g4⟩ := hf (f^[n] s)
    refine ⟨?_, ?_, ?_, ?_⟩
    · rw [g1, hdp]; push_cast; omega
    · rw [g2, hfp]; push_cast; omega
    · intro i hi
      rw [g3 i (by rw [hdp]; push_cast at hi; omega)]
      exact hfd i (by push_cast at hi; omega)
    · intro i hi
      rw [g4 i (by rw [hfp]; push_cast at hi; omega)]
      exact hfb i (by push_cast at hi; omega)

/-- The state after `k` of `n` row steps, seen from both ends: cells at or below the pointer
still hold their initial contents, cells above the pointer already hold their final contents,
and so does the row written by the next step. -/
theorem rows_view (f : Fire → Fire) (hf : RowFrame f) (s0 : Fire) (n k : Nat) (hk : k < n) :
    (f^[k] s0).dp = s0.dp - 64 * k ∧ (f^[k] s0).fp = s0.fp - 64 * k ∧
    (∀ i : Int, i ≤ s0.dp - 64 * k → (f^[k] s0).fire_data i = s0.fire_data i) ∧
    (∀ i : Int, s0.dp - 64 * k < i → (f^[k] s0).fire_data i = (f^[n] s0).fire_data i) ∧
    (∀ i : Int, s0.dp - 64 * k - 64 < i →
      (f (f^[k] s0)).fire_data i = (f^[n] s0).fire_data i) ∧
    (∀ i : Int, s0.fp - 64 * k - 64 < i → (f (f^[k] s0)).fb i = (f^[n] s0).fb i) := by
  obtain ⟨hdp, hfp, hfd, -⟩ := rows_frame f hf s0 k
  have e1 : f^[n] s0 = f^[n - k] (f^[k] s0) := by
    rw [← Function.iterate_add_apply]; congr 1; omega
  have e2 : f^[n] s0 = f^[n - (k + 1)] (f (f^[k] s0)) := by
    rw [← Function.iterate_succ_apply' f k, ← Function.iterate_add_apply]; congr 1; omega
  obtain ⟨-, -, a3, -⟩ := rows_frame f hf (f^[k] s0) (n - k)
  obtain ⟨-, -, b3, b4⟩ := rows_frame f hf (f (f^[k] s0)) (n - (k + 1))
  obtain ⟨c1, c2, -, -⟩ := hf (f^[k] s0)
  refine ⟨hdp, hfp, fun i hi => hfd i (Or.inr hi), ?_, ?_, ?_⟩
  · intro i hi
    rw [e1, a3 i (Or.inl (by rw [hdp]; exact hi))]
  · intro i hi
    rw [e2, b3 i (Or.inl (by rw [c1, hdp]; omega))]
  · intro i hi
    rw [e2, b4 i (Or.inl (by rw [c2, hfp]; omega))]

/-! ## The state before the row loop -/

theorem seed_unfold (rng : Nat → Nat) (fd fb : Mem) :
    seed rng fd fb = seed_loop rng 64 0
      { fire_data := fd, fb := fb, rnd := 0, rng_reads := 0,
        dp := 4096, fp := 0, not_done := 0, log := [] } := by
  simp only [seed, FB_W, FB_H]
  norm_num

theorem draw_init_dp (s : Fire) : (draw_init s).dp = 4095 := by
  simp only [draw_init, FB_W, FB_H]; norm_num

theorem draw_init_fp (s : Fire) : (draw_init s).fp = 4095 := by
  simp only [draw_init, FB_W, FB_H]; norm_num

theorem draw_init_not_done (s : Fire) : (draw_init s).not_done = 1 := rfl

theorem draw_init_fire_data (s : Fire) : (draw_init s).fire_data = s.fire_data := rfl

theorem draw_init_fb (s : Fire) : (draw_init s).fb = s.fb := rfl

theorem draw_init_rng_reads (s : Fire) : (draw_init s).rng_reads = s.rng_reads := rfl

theorem draw_init_seed (rng : Nat → Nat) (fd fb : Mem) :
    (draw_init (seed rng fd fb)).dp = 4095 ∧
    (draw_init (seed rng fd fb)).fp = 4095 ∧
    (draw_init (seed rng fd fb)).not_done = 1 ∧
    (draw_init (seed rng fd fb)).fb = fb ∧
    (draw_init (seed rng fd fb)).rng_reads = 4 ∧
    (∀ i : Int, (i < 4096 ∨ 4160 ≤ i) → (draw_init (seed rng fd fb)).fire_data i = fd i) ∧
    (∀ x : Nat, x < 64 →
      (draw_init (seed rng fd fb)).fire_data (4096 + x) = seed_value (column_bits rng x)) := by
  rw [draw_init_dp, draw_init_fp, draw_init_not_done, draw_init_fb, draw_init_rng_reads,
    draw_init_fire_data, seed_unfold]
  have h := seed_iter rng
    { fire_data := fd, fb := fb, rnd := 0, rng_reads := 0,
      dp := 4096, fp := 0, not_done := 0, log := [] } rfl 64
  generalize seed_loop rng 64 0
    { fire_data := fd, fb := fb, rnd := 0, rng_reads := 0,
      dp := 4096, fp := 0, not_done := 0, log := [] } = t at h
  obtain ⟨-, hrd, -, hfb, hfd, hval⟩ := h
  simp only [] at hrd hfb hfd hval
  refine ⟨rfl, rfl, rfl, hfb, ?_, ?_, ?_⟩
  · rw [hrd]
  · intro i hi
    exact hfd i (by push_cast; omega)
  · intro x hx
    exact hval x hx

/-! ## Rows of the final heat field -/

/-- A row to which the per-cell rules are applied, in terms of the heat field `fd` before the
call and the heat field at the end of the `64` row steps `f`.  The row is the one processed
by step number `k`; its first processed cell is at index `4095 - 64 * k`. -/
theorem computed_row (pal : Mem) (rng : Nat → Nat) (fd fb : Mem) (f : Fire → Fire)
    (hf : RowFrame f) (k : Nat) (hk : k < 64)
    (hdraw : f (f^[k] (draw_init (seed rng fd fb)))
      = draw_row pal (f^[k] (draw_init (seed rng fd fb)))) :
    RowRules pal fd (f^[64] (draw_init (seed rng fd fb))) k ∧
    ((f^[k + 1] (draw_init (seed rng fd fb))).not_done = 0 ↔
      RowZero (f^[64] (draw_init (seed rng fd fb))) k) := by
  unfold RowRules RowZero
  obtain ⟨i_dp, i_fp, -, -, -, i_fd, -⟩ := draw_init_seed rng fd fb
  obtain ⟨v_dp, v_fp, v_old, v_new, v_row, v_pix⟩ :=
    rows_view f hf (draw_init (seed rng fd fb)) 64 k hk
  rw [Function.iterate_succ_apply' f k]
  rw [i_dp] at v_dp v_old v_new v_row
  rw [i_fp] at v_fp v_pix
  generalize f^[64] (draw_init (seed rng fd fb)) = F at v_new v_row v_pix ⊢
  generalize f^[k] (draw_init (seed rng fd fb)) = s at v_dp v_fp v_old v_new v_row v_pix hdraw
  rw [hdraw] at v_row v_pix ⊢
  obtain ⟨-, -, -, -, d_top, d_mid, d_last, d_pix, d_nd⟩ := draw_row_spec pal s
  rw [v_dp] at d_top d_mid d_last d_pix d_nd
  rw [v_fp] at d_pix
  -- reads of the state at the start of the row, in terms of `fd` and of the final state
  have old : ∀ i : Int, i ≤ 4095 - 64 * (k : Int) → rd8 s.fire_data i = rd8 fd i := by
    intro i hi
    apply rd8_congr
    rw [v_old i hi, i_fd i (by omega)]
  have new : ∀ i : Int, 4095 - 64 * (k : Int) < i → rd8 s.fire_data i = rd8 F.fire_data i :=
    fun i hi => rd8_congr (v_new i hi)
  refine ⟨⟨?_, ?_, ?_, ?_⟩, ?_⟩
  · rw [← v_row _ (by omega), d_top, old _ (by omega), new _ (by omega), new _ (by omega)]
  · intro j h1 h2
    rw [← v_row _ (by omega), d_mid j h1 h2, old _ (by omega), new _ (by omega),
      new _ (by omega), new _ (by omega)]
  · rw [← v_row _ (by omega), d_last, old _ (by omega), new _ (by omega)]
    congr 1
    exact rd8_congr (v_row _ (by omega))
  · intro j hj
    rw [← v_pix _ (by omega), ← v_row _ (by omega)]
    exact d_pix j hj
  · rw [d_nd]
    constructor
    · intro h j hj
      rw [← v_row _ (by omega)]; exact h j hj
    · intro h j hj
      rw [v_row _ (by omega)]; exact h j hj

theorem render_fire_def (pal : Mem) (rng : Nat → Nat) (fd fb : Mem) :
    render_fire pal rng fd fb = (row_iter pal)^[64] (draw_init (seed rng fd fb)) := rfl

theorem draw_state_def (pal : Mem) (rng : Nat → Nat) (fd fb : Mem) (k : Nat) :
    draw_state pal rng fd fb k = (row_iter pal)^[k] (draw_init (seed rng fd fb)) := rfl

theorem render_fire_full_def (pal : Mem) (rng : Nat → Nat) (fd fb : Mem) :
    render_fire_full pal rng fd fb = (draw_row pal)^[64] (draw_init (seed rng fd fb)) := rfl

theorem full_state_def (pal : Mem) (rng : Nat → Nat) (fd fb : Mem) (k : Nat) :
    full_state pal rng fd fb k = (draw_row pal)^[k] (draw_init (seed rng fd fb)) := rfl

theorem row_iter_of_ne (pal : Mem) (s : Fire) (h : s.not_done ≠ 0) :
    row_iter pal s = draw_row pal s := by
  unfold row_iter; rw [if_neg h]

theorem row_iter_of_eq (pal : Mem) (s : Fire) (h : s.not_done = 0) :
    row_iter pal s = clear_row s := by
  unfold row_iter; rw [if_pos h]

/-- A row that `render_fire` reaches with `not_done` nonzero follows the per-cell rules. -/
theorem render_row (pal : Mem) (rng : Nat → Nat) (fd fb : Mem) (k : Nat) (hk : k < 64)
    (h : (draw_state pal rng fd fb k).not_done ≠ 0) :
    RowRules pal fd (render_fire pal rng fd fb) k ∧
    ((draw_state pal rng fd fb (k + 1)).not_done = 0 ↔
      RowZero (render_fire pal rng fd fb) k) := by
  rw [render_fire_def, draw_state_def]
  rw [draw_state_def] at h
  exact computed_row pal rng fd fb (row_iter pal) (row_iter_frame pal) k hk
    (row_iter_of_ne pal _ h)

/-- Every row of the variant without early stop follows the per-cell rules. -/
theorem full_row (pal : Mem) (rng : Nat → Nat) (fd fb : Mem) (k : Nat) (hk : k < 64) :
    RowRules pal fd (render_fire_full pal rng fd fb) k ∧
    ((full_state pal rng fd fb (k + 1)).not_done = 0 ↔
      RowZero (render_fire_full pal rng fd fb) k) := by
  rw [render_fire_full_def, full_state_def]
  exact computed_row pal rng fd fb (draw_row pal) (draw_row_frame pal) k hk rfl

/-- A row that `render_fire` reaches with `not_done` zero is cleared in the heat field and in
the frame buffer, and `not_done` stays zero. -/
theorem render_row_cleared (pal : Mem) (rng : Nat → Nat) (fd fb : Mem) (k : Nat) (hk : k < 64)
    (h : (draw_state pal rng fd fb k).not_done = 0) :
    RowZero (render_fire pal rng fd fb) k ∧
    (∀ j : Nat, j < 64 → (render_fire pal rng fd fb).fb (4095 - 64 * k - j) = 0) ∧
    (draw_state pal rng fd fb (k + 1)).not_done = 0 := by
  obtain ⟨i_dp, i_fp, -⟩ := draw_init_seed rng fd fb
  obtain ⟨v_dp, v_fp, -, -, v_row, v_pix⟩ :=
    rows_view (row_iter pal) (row_iter_frame pal) (draw_init (seed rng fd fb)) 64 k hk
  rw [i_dp] at v_dp v_row
  rw [i_fp] at v_fp v_pix
  rw [render_fire_def, draw_state_def, Function.iterate_succ_apply' (row_iter pal) k]
  rw [draw_state_def] at h
  generalize (row_iter pal)^[64] (draw_init (seed rng fd fb)) = F at v_row v_pix ⊢
  generalize (row_iter pal)^[k] (draw_init (seed rng fd fb)) = s at v_dp v_fp v_row v_pix h ⊢
  have e : row_iter pal s = clear_row s := row_iter_of_eq pal s h
  rw [e] at v_row v_pix ⊢
  obtain ⟨-, -, c_nd, -, -, c_val, c_pix⟩ := clear_row_spec s
  rw [v_dp] at c_val
  rw [v_fp] at c_pix
  refine ⟨?_, ?_, ?_⟩
  · intro j hj
    rw [← v_row _ (by omega)]; exact c_val j hj
  · intro j hj
    rw [← v_pix _ (by omega)]; exact c_pix j hj
  · rw [c_nd, h]

/-- The flag tested at the start of an iteration is zero exactly when the row processed by the
previous iteration is all zero in the final heat field. -/
theorem not_done_iff (pal : Mem) (rng : Nat → Nat) (fd fb : Mem) (k : Nat) (hk : k < 64) :
    (draw_state pal rng fd fb (k + 1)).not_done = 0 ↔ RowZero (render_fire pal rng fd fb) k := by
  by_cases h : (draw_state pal rng fd fb k).not_done = 0
  · obtain ⟨h1, -, h3⟩ := render_row_cleared pal rng fd fb k hk h
    exact ⟨fun _ => h1, fun _ => h3⟩
  · exact (render_row pal rng fd fb k hk h).2

/-- The cells above the body of the heat field after `64` row steps: the seeded ignition row,
and beyond it the memory as it was. -/
theorem final_above (rng : Nat → Nat) (fd fb : Mem) (f : Fire → Fire) (hf : RowFrame f) :
    (∀ x : Nat, x < 64 → (f^[64] (draw_init (seed rng fd fb))).fire_data (4096 + x) =
      seed_value (column_bits rng x)) ∧
    (∀ i : Int, 4160 ≤ i → (f^[64] (draw_init (seed rng fd fb))).fire_data i = fd i) ∧
    (∀ i : Int, (i < 0 ∨ 4096 ≤ i) → (f^[64] (draw_init (seed rng fd fb))).fb i = fb i) := by
  obtain ⟨i_dp, i_fp, -, i_fb, -, i_fd, i_seed⟩ := draw_init_seed rng fd fb
  obtain ⟨-, -, r_fd, r_fb⟩ := rows_frame f hf (draw_init (seed rng fd fb)) 64
  rw [i_dp] at r_fd
  rw [i_fp] at r_fb
  refine ⟨?_, ?_, ?_⟩
  · intro x hx
    rw [r_fd _ (by omega)]; exact i_seed x hx
  · intro i hi
    rw [r_fd _ (by omega)]; exact i_fd i (by omega)
  · intro i hi
    rw [r_fb _ (by push_cast; omega), i_fb]

/-! ## Rows and columns -/

theorem cell_eq (y x : Nat) : cell y x = 64 * (y : Int) + x := by
  simp only [cell, FB_W]; push_cast; omega

theorem grid_of_row (pal fd : Mem) (F : Fire) (y : Nat) (hy : y < 64)
    (h : RowRules pal fd F (63 - y)) : GridRules pal fd F y := by
  obtain ⟨h1, h2, h3, h4⟩ := h
  have e0 : (4095 : Int) - 64 * ((63 - y : Nat) : Int) = cell y 63 := by rw [cell_eq]; omega
  refine ⟨?_, ?_, ?_, ?_⟩
  · have a1 : cell y 63 + 64 = cell (y + 1) 63 := by simp only [cell_eq]; push_cast; omega
    have a2 : cell y 63 + 65 = cell (y + 2) 0 := by simp only [cell_eq]; push_cast; omega
    rw [e0, a1, a2] at h1
    exact h1
  · intro x hx0 hx1
    have h := h2 (63 - x) (by omega) (by omega)
    have e : cell y 63 - ((63 - x : Nat) : Int) = cell y x := by simp only [cell_eq]; omega
    have a1 : cell y x + 64 = cell (y + 1) x := by simp only [cell_eq]; push_cast; omega
    have a2 : cell y x + 63 = cell (y + 1) (x - 1) := by simp only [cell_eq]; push_cast; omega
    have a3 : cell y x + 65 = cell (y + 1) (x + 1) := by simp only [cell_eq]; push_cast; omega
    rw [e0, e, a1, a2, a3] at h
    exact h
  · have e : cell y 63 - 63 = cell y 0 := by simp only [cell_eq]; push_cast; omega
    have a1 : cell y 0 + 64 = cell (y + 1) 0 := by simp only [cell_eq]; push_cast; omega
    have a2 : cell y 0 + 63 = cell y 63 := by simp only [cell_eq]; push_cast; omega
    rw [e0, e, a1, a2] at h3
    exact h3
  · intro x hx
    have h := h4 (63 - x) (by omega)
    have e : cell y 63 - ((63 - x : Nat) : Int) = cell y x := by simp only [cell_eq]; omega
    rw [e0, e] at h
    exact h

theorem row_zero_iff (F : Fire) (y : Nat) (hy : y < 64) :
    RowZero F (63 - y) ↔ ∀ x : Nat, x < 64 → F.fire_data (cell y x) = 0 := by
  unfold RowZero
  constructor
  · intro h x hx
    have := h (63 - x) (by omega)
    have e : (4095 : Int) - 64 * ((63 - y : Nat) : Int) - ((63 - x : Nat) : Int) = cell y x := by
      rw [cell_eq]; omega
    rw [e] at this
    exact this
  · intro h j hj
    have := h (63 - j) (by omega)
    have e : cell y (63 - j) = (4095 : Int) - 64 * ((63 - y : Nat) : Int) - (j : Int) := by
      rw [cell_eq]; omega
    rw [e] at this
    exact this

theorem row_computed_iff (pal : Mem) (rng : Nat → Nat) (fd fb : Mem) (y : Nat) :
    row_computed pal rng fd fb y ↔ (draw_state pal rng fd fb (63 - y)).not_done ≠ 0 := by
  unfold row_computed
  have e : FB_H - 1 - y = 63 - y := by simp [FB_H]
  rw [e]

/-- The bottom row of the body is always computed: `not_done` is `1` when the loop starts. -/
theorem row_computed_bottom (pal : Mem) (rng : Nat → Nat) (fd fb : Mem) :
    row_computed pal rng fd fb 63 := by
  rw [row_computed_iff]
  show (draw_init (seed rng fd fb)).not_done ≠ 0
  rw [draw_init_not_done]; decide

/-- A computed row of `render_fire`, by row and column. -/
theorem render_grid (pal : Mem) (rng : Nat → Nat) (fd fb : Mem) (y : Nat) (hy : y < 64)
    (hc : row_computed pal rng fd fb y) : GridRules pal fd (render_fire pal rng fd fb) y :=
  grid_of_row pal fd _ y hy
    (render_row pal rng fd fb (63 - y) (by omega) ((row_computed_iff pal rng fd fb y).mp hc)).1

/-- A cleared row of `render_fire`, by row and column. -/
theorem render_grid_cleared (pal : Mem) (rng : Nat → Nat) (fd fb : Mem) (y : Nat) (hy : y < 64)
    (hc : ¬ row_computed pal rng fd fb y) (x : Nat) (hx : x < 64) :
    (render_fire pal rng fd fb).fire_data (cell y x) = 0 ∧
    (render_fire pal rng fd fb).fb (cell y x) = 0 := by
  rw [row_computed_iff, not_not] at hc
  obtain ⟨h1, h2, -⟩ := render_row_cleared pal rng fd fb (63 - y) (by omega) hc
  refine ⟨(row_zero_iff _ y hy).mp h1 x hx, ?_⟩
  have := h2 (63 - x) (by omega)
  have e : (4095 : Int) - 64 * ((63 - y : Nat) : Int) - ((63 - x : Nat) : Int) = cell y x := by
    rw [cell_eq]; omega
  rw [e] at this
  exact this

/-- Every row of the variant without early stop, by row and column. -/
theorem full_grid (pal : Mem) (rng : Nat → Nat) (fd fb : Mem) (y : Nat) (hy : y < 64) :
    GridRules pal fd (render_fire_full pal rng fd fb) y :=
  grid_of_row pal fd _ y hy (full_row pal rng fd fb (63 - y) (by omega)).1

/-- Row `y` is computed exactly when it is the bottom row or the row below it has a nonzero
cell in the final heat field. -/
theorem row_computed_succ (pal : Mem) (rng : Nat → Nat) (fd fb : Mem) (y : Nat) (hy : y < 63) :
    row_computed pal rng fd fb y ↔
      ¬ ∀ x : Nat, x < 64 → (render_fire pal rng fd fb).fire_data (cell (y + 1) x) = 0 := by
  rw [row_computed_iff, ← row_zero_iff _ (y + 1) (by omega)]
  have e : 63 - y = (63 - (y + 1)) + 1 := by omega
  rw [e, Ne, not_done_iff pal rng fd fb (63 - (y + 1)) (by omega)]

/-- The ignition row after `render_fire`, and the memory past the array. -/
theorem render_ignition (pal : Mem) (rng : Nat → Nat) (fd fb : Mem) :
    (∀ x : Nat, x < 64 → (render_fire pal rng fd fb).fire_data (cell 64 x) =
      seed_value (column_bits rng x)) ∧
    (∀ i : Int, 4160 ≤ i → (render_fire pal rng fd fb).fire_data i = fd i) ∧
    (∀ i : Int, (i < 0 ∨ 4096 ≤ i) → (render_fire pal rng fd fb).fb i = fb i) := by
  obtain ⟨h1, h2, h3⟩ := final_above rng fd fb (row_iter pal) (row_iter_frame pal)
  rw [render_fire_def]
  refine ⟨fun x hx => ?_, h2, h3⟩
  have e : cell 64 x = 4096 + (x : Int) := by rw [cell_eq]; push_cast; omega
  rw [e]; exact h1 x hx

theorem full_ignition (pal : Mem) (rng : Nat → Nat) (fd fb : Mem) :
    (∀ x : Nat, x < 64 → (render_fire_full pal rng fd fb).fire_data (cell 64 x) =
      seed_value (column_bits rng x)) ∧
    (∀ i : Int, 4160 ≤ i → (render_fire_full pal rng fd fb).fire_data i = fd i) ∧
    (∀ i : Int, (i < 0 ∨ 4096 ≤ i) → (render_fire_full pal rng fd fb).fb i = fb i) := by
  obtain ⟨h1, h2, h3⟩ := final_above rng fd fb (draw_row pal) (draw_row_frame pal)
  rw [render_fire_full_def]
  refine ⟨fun x hx => ?_, h2, h3⟩
  have e : cell 64 x = 4096 + (x : Int) := by rw [cell_eq]; push_cast; omega
  rw [e]; exact h1 x hx

/-! ## The access log -/

theorem first_column_log (pal : Mem) (s : Fire) :
    (first_column pal s).log = s.log ++ [Access.fire_data_rd s.dp,
      Access.fire_data_rd (s.dp + 64), Access.fire_data_rd (s.dp + 65),
      Access.fire_data_wr s.dp,
      Access.fire_pal_rd (edge_rule (rd8 s.fire_data s.dp) (rd8 s.fire_data (s.dp + 64))
        (rd8 s.fire_data (s.dp + 65))),
      Access.fb_wr s.fp] := by
  simp [first_column, store_cell, edge_rule, FB_W]

theorem middle_column_log (pal : Mem) (s : Fire) :
    (middle_column pal s).log = s.log ++ [Access.fire_data_rd s.dp,
      Access.fire_data_rd (s.dp + 64), Access.fire_data_rd (s.dp + 63),
      Access.fire_data_rd (s.dp + 65), Access.fire_data_wr s.dp,
      Access.fire_pal_rd (middle_rule (rd8 s.fire_data s.dp) (rd8 s.fire_data (s.dp + 64))
        (rd8 s.fire_data (s.dp + 63)) (rd8 s.fire_data (s.dp + 65))),
      Access.fb_wr s.fp] := by
  simp [middle_column, store_cell, middle_rule, FB_W]

theorem last_column_log (pal : Mem) (s : Fire) :
    (last_column pal s).log = s.log ++ [Access.fire_data_rd s.dp,
      Access.fire_data_rd (s.dp + 64), Access.fire_data_rd (s.dp + 63),
      Access.fire_data_wr s.dp,
      Access.fire_pal_rd (edge_rule (rd8 s.fire_data s.dp) (rd8 s.fire_data (s.dp + 64))
        (rd8 s.fire_data (s.dp + 63))),
      Access.fb_wr s.fp] := by
  simp [last_column, store_cell, edge_rule, FB_W]

theorem clear_cell_log (s : Fire) :
    (clear_cell s).log = s.log ++ [Access.fire_data_wr s.dp, Access.fb_wr s.fp] := rfl

theorem seed_body_log (rng : Nat → Nat) (x : Nat) (s : Fire) :
    (seed_body rng x s).log = s.log ++ [Access.fire_data_wr s.dp] := by
  unfold seed_body
  split_ifs <;> rfl

theorem iterate_logMono (f : Fire → Fire) (hf : LogMono f) (n : Nat) : LogMono f^[n] := by
  induction n with
  | zero => intro s a h; exact h
  | succ n ih =>
    intro s a h
    rw [Function.iterate_succ_apply']
    exact hf _ a (ih s a h)

theorem first_column_logMono (pal : Mem) : LogMono (first_column pal) := by
  intro s a h; rw [first_column_log]; exact List.mem_append_left _ h

theorem middle_column_logMono (pal : Mem) : LogMono (middle_column pal) := by
  intro s a h; rw [middle_column_log]; exact List.mem_append_left _ h

theorem last_column_logMono (pal : Mem) : LogMono (last_column pal) := by
  intro s a h; rw [last_column_log]; exact List.mem_append_left _ h

theorem clear_cell_logMono : LogMono clear_cell := by
  intro s a h; rw [clear_cell_log]; exact List.mem_append_left _ h

theorem draw_row_eq (pal : Mem) (s : Fire) :
    draw_row pal s = last_column pal ((middle_column pal)^[62]
      (first_column pal { s with not_done := 0 })) := rfl

theorem clear_row_eq (s : Fire) : clear_row s = clear_cell^[64] s := rfl

theorem draw_row_logMono (pal : Mem) : LogMono (draw_row pal) := by
  intro s a h
  rw [draw_row_eq]
  apply last_column_logMono
  apply iterate_logMono _ (middle_column_logMono pal)
  apply first_column_logMono
  exact h

theorem clear_row_logMono : LogMono clear_row := by
  intro s a h
  rw [clear_row_eq]
  exact iterate_logMono _ clear_cell_logMono 64 s a h

theorem row_iter_logMono (pal : Mem) : LogMono (row_iter pal) := by
  intro s a h
  unfold row_iter
  split_ifs
  · exact clear_row_logMono s a h
  · exact draw_row_logMono pal s a h

/-- The first cell processed by the row loop reads `dp[FB_W + 1]` with `dp` at the last cell
of the body. -/
theorem first_row_log (pal : Mem) (rng : Nat → Nat) (fd fb : Mem) :
    Access.fire_data_rd 4160 ∈ (draw_state pal rng fd fb 1).log := by
  have e : draw_state pal rng fd fb 1 = row_iter pal (draw_init (seed rng fd fb)) := rfl
  rw [e, row_iter_of_ne pal _ (by rw [draw_init_not_done]; decide), draw_row_eq]
  apply last_column_logMono
  apply iterate_logMono _ (middle_column_logMono pal)
  rw [first_column_log]
  have hdp : (draw_init (seed rng fd fb)).dp = 4095 := draw_init_dp _
  simp only [hdp]
  simp

/-! ### Indices of the palette -/

theorem first_column_palOK (pal : Mem) (s : Fire) (h : PalIndexOK s) :
    PalIndexOK (first_column pal s) := by
  intro i hi
  rw [first_column_log] at hi
  rcases List.mem_append.mp hi with h1 | h1
  · exact h i h1
  · simp at h1
    have := edge_rule_bounds _ _ _ ⟨rd8_nonneg s.fire_data s.dp, rd8_lt s.fire_data s.dp⟩
      ⟨rd8_nonneg s.fire_data (s.dp + 64), rd8_lt s.fire_data (s.dp + 64)⟩
      ⟨rd8_nonneg s.fire_data (s.dp + 65), rd8_lt s.fire_data (s.dp + 65)⟩
    rw [h1]; omega

theorem middle_column_palOK (pal : Mem) (s : Fire) (h : PalIndexOK s) :
    PalIndexOK (middle_column pal s) := by
  intro i hi
  rw [middle_column_log] at hi
  rcases List.mem_append.mp hi with h1 | h1
  · exact h i h1
  · simp at h1
    have := middle_rule_bounds _ _ _ _ ⟨rd8_nonneg s.fire_data s.dp, rd8_lt s.fire_data s.dp⟩
      ⟨rd8_nonneg s.fire_data (s.dp + 64), rd8_lt s.fire_data (s.dp + 64)⟩
      ⟨rd8_nonneg s.fire_data (s.dp + 63), rd8_lt s.fire_data (s.dp + 63)⟩
      ⟨rd8_nonneg s.fire_data (s.dp + 65), rd8_lt s.fire_data (s.dp + 65)⟩
    rw [h1]; omega

theorem last_column_palOK (pal : Mem) (s : Fire) (h : PalIndexOK s) :
    PalIndexOK (last_column pal s) := by
  intro i hi
  rw [last_column_log] at hi
  rcases List.mem_append.mp hi with h1 | h1
  · exact h i h1
  · simp at h1
    have := edge_rule_bounds _ _ _ ⟨rd8_nonneg s.fire_data s.dp, rd8_lt s.fire_data s.dp⟩
      ⟨rd8_nonneg s.fire_data (s.dp + 64), rd8_lt s.fire_data (s.dp + 64)⟩
      ⟨rd8_nonneg s.fire_data (s.dp + 63), rd8_lt s.fire_data (s.dp + 63)⟩
    rw [h1]; omega

theorem clear_cell_palOK (s : Fire) (h : PalIndexOK s) : PalIndexOK (clear_cell s) := by
  intro i hi
  rw [clear_cell_log] at hi
  rcases List.mem_append.mp hi with h1 | h1
  · exact h i h1
  · simp at h1

theorem iterate_palOK (f : Fire → Fire) (hf : ∀ s, PalIndexOK s → PalIndexOK (f s)) (n : Nat)
    (s : Fire) (h : PalIndexOK s) : PalIndexOK (f^[n] s) := by
  induction n with
  | zero => exact h
  | succ n ih => rw [Function.iterate_succ_apply']; exact hf _ ih

theorem row_iter_palOK (pal : Mem) (s : Fire) (h : PalIndexOK s) :
    PalIndexOK (row_iter pal s) := by
  unfold row_iter
  split_ifs
  · rw [clear_row_eq]; exact iterate_palOK _ clear_cell_palOK 64 s h
  · rw [draw_row_eq]
    apply last_column_palOK
    apply iterate_palOK _ (middle_column_palOK pal)
    apply first_column_palOK
    exact h

theorem seed_loop_palOK (rng : Nat → Nat) (n x : Nat) (s : Fire) (h : PalIndexOK s) :
    PalIndexOK (seed_loop rng n x s) := by
  induction n generalizing x s with
  | zero => exact h
  | succ n ih =>
    show PalIndexOK (seed_loop rng n (x + 1) (seed_body rng x s))
    apply ih
    intro i hi
    rw [seed_body_log] at hi
    rcases List.mem_append.mp hi with h1 | h1
    · exact h i h1
    · simp at h1

theorem render_fire_palOK (pal : Mem) (rng : Nat → Nat) (fd fb : Mem) :
    PalIndexOK (render_fire pal rng fd fb) := by
  rw [render_fire_def]
  apply iterate_palOK _ (row_iter_palOK pal)
  have e : (draw_init (seed rng fd fb)).log = (seed rng fd fb).log := rfl
  intro i hi
  rw [e, seed_unfold] at hi
  exact seed_loop_palOK rng 64 0 _ (fun j hj => by simp at hj) i hi

/-! ## Comparison with the variant without early stop -/

theorem first_column_agree (pal : Mem) (s t : Fire) (h : Agree s t) :
    Agree (first_column pal s) (first_column pal t) := by
  obtain ⟨h1, h2, h3, h4, h5⟩ := h
  refine ⟨?_, ?_, ?_, ?_, ?_⟩
  · rw [first_column_fire_data, first_column_fire_data, h1, h3]
  · rw [first_column_fb, first_column_fb, h1, h2, h3, h4]
  · rw [first_column_dp, first_column_dp, h3]
  · rw [first_column_fp, first_column_fp, h4]
  · rw [first_column_not_done, first_column_not_done, h1, h3, h5]

theorem middle_column_agree (pal : Mem) (s t : Fire) (h : Agree s t) :
    Agree (middle_column pal s) (middle_column pal t) := by
  obtain ⟨h1, h2, h3, h4, h5⟩ := h
  refine ⟨?_, ?_, ?_, ?_, ?_⟩
  · rw [middle_column_fire_data, middle_column_fire_data, h1, h3]
  · rw [middle_column_fb, middle_column_fb, h1, h2, h3, h4]
  · rw [middle_column_dp, middle_column_dp, h3]
  · rw [middle_column_fp, middle_column_fp, h4]
  · rw [middle_column_not_done, middle_column_not_done, h1, h3, h5]

theorem last_column_agree (pal : Mem) (s t : Fire) (h : Agree s t) :
    Agree (last_column pal s) (last_column pal t) := by
  obtain ⟨h1, h2, h3, h4, h5⟩ := h
  refine ⟨?_, ?_, ?_, ?_, ?_⟩
  · rw [last_column_fire_data, last_column_fire_data, h1, h3]
  · rw [last_column_fb, last_column_fb, h1, h2, h3, h4]
  · rw [last_column_dp, last_column_dp, h3]
  · rw [last_column_fp, last_column_fp, h4]
  · rw [last_column_not_done, last_column_not_done, h1, h3, h5]

theorem iterate_agree (f : Fire → Fire) (hf : ∀ s t, Agree s t → Agree (f s) (f t)) (n : Nat)
    (s t : Fire) (h : Agree s t) : Agree (f^[n] s) (f^[n] t) := by
  induction n with
  | zero => exact h
  | succ n ih =>
    rw [Function.iterate_succ_apply', Function.iterate_succ_apply']
    exact hf _ _ ih

/-- The computing branch does not look at `not_done` nor at the log. -/
theorem draw_row_agree (pal : Mem) (s t : Fire) (h1 : s.fire_data = t.fire_data)
    (h2 : s.fb = t.fb) (h3 : s.dp = t.dp) (h4 : s.fp = t.fp) :
    Agree (draw_row pal s) (draw_row pal t) := by
  rw [draw_row_eq, draw_row_eq]
  apply last_column_agree
  apply iterate_agree _ (middle_column_agree pal)
  apply first_column_agree
  exact ⟨h1, h2, h3, h4, rfl⟩

theorem edge_rule_eq_zero (a b c : Int) (h : edge_rule a b c = 0) : a + b + c ≤ 6 := by
  unfold edge_rule at h
  rw [shr8_eq, decay_eq] at h
  split_ifs at h <;> omega

theorem edge_rule_small (c : Int) (h0 : 0 ≤ c) (h6 : c ≤ 6) : edge_rule 0 0 c = 0 := by
  unfold edge_rule
  rw [shr8_eq, decay_eq]
  split_ifs <;> omega

theorem middle_rule_zero : middle_rule 0 0 0 0 = 0 := by decide

/-- One row step of `render_fire` and of the variant, from states that agree, when the early
stop only clears cells that held zero.  The second component records what the early stop
relies on: once `not_done` is `0`, the row just processed is all zero and the byte that the
first block of the next row reads at `dp[FB_W + 1]` is at most `6`. -/
theorem agree_step (pal : Mem) (hpal : rd16 pal 0 = 0) (R G : Fire) (hag : Agree R G)
    (hcold : R.not_done = 0 → ∀ j : Nat, j < 64 → rd8 R.fire_data (R.dp - j) = 0)
    (haux : R.not_done = 0 →
      (∀ j : Nat, j < 64 → R.fire_data (R.dp + 64 - j) = 0) ∧ rd8 R.fire_data (R.dp + 65) ≤ 6) :
    Agree (row_iter pal R) (draw_row pal G) ∧
    ((row_iter pal R).not_done = 0 →
      (∀ j : Nat, j < 64 → (row_iter pal R).fire_data ((row_iter pal R).dp + 64 - j) = 0) ∧
      rd8 (row_iter pal R).fire_data ((row_iter pal R).dp + 65) ≤ 6) := by
  obtain ⟨a1, a2, a3, a4, a5⟩ := hag
  by_cases hnd : R.not_done = 0
  · -- the early stop clears the row; the rules give zero on it
    obtain ⟨x_row, x_six⟩ := haux hnd
    have x_own := hcold hnd
    rw [row_iter_of_eq pal R hnd]
    obtain ⟨c_dp, c_fp, c_nd, c_fd, c_fb, c_val, c_pix⟩ := clear_row_spec R
    obtain ⟨d_dp, d_fp, d_fd, d_fb, d_top, d_mid, d_last, d_pix, d_nd⟩ := draw_row_spec pal G
    simp only [← a1, ← a2, ← a3, ← a4] at d_dp d_fp d_fd d_fb d_top d_mid d_last d_pix d_nd
    have below : ∀ i : Int, R.dp < i → i ≤ R.dp + 64 → rd8 R.fire_data i = 0 := by
      intro i h1 h2
      have h := x_row (R.dp + 64 - i).toNat (by omega)
      have e : R.dp + 64 - ((R.dp + 64 - i).toNat : Int) = i := by omega
      rw [e] at h
      rw [rd8_val h]; rfl
    have g_top : (draw_row pal G).fire_data R.dp = 0 := by
      have h := x_own 0 (by omega)
      simp only [Nat.cast_zero, sub_zero] at h
      rw [d_top, h, below _ (by omega) (by omega)]
      exact edge_rule_small _ (rd8_nonneg _ _) x_six
    have g_mid : ∀ j : Nat, 1 ≤ j → j ≤ 62 → (draw_row pal G).fire_data (R.dp - j) = 0 := by
      intro j h1 h2
      rw [d_mid j h1 h2, x_own j (by omega), below _ (by omega) (by omega),
        below _ (by omega) (by omega), below _ (by omega) (by omega)]
      exact middle_rule_zero
    have g_last : (draw_row pal G).fire_data (R.dp - 63) = 0 := by
      have h := x_own 63 (by omega)
      simp only [Nat.cast_ofNat] at h
      have e : R.dp - 63 + 63 = R.dp := by omega
      rw [d_last, h, below _ (by omega) (by omega), e, rd8_val g_top]
      decide
    have g_all : ∀ j : Nat, j < 64 → (draw_row pal G).fire_data (R.dp - j) = 0 := by
      intro j hj
      by_cases j0 : j = 0
      · subst j0; simpa using g_top
      · by_cases j63 : j = 63
        · subst j63; simpa using g_last
        · exact g_mid j (by omega) (by omega)
    refine ⟨⟨?_, ?_, ?_, ?_, ?_⟩, ?_⟩
    · funext i
      by_cases hi : R.dp < i ∨ i ≤ R.dp - 64
      · rw [c_fd i hi, d_fd i hi, a1]
      · have e : i = R.dp - ((R.dp - i).toNat : Int) := by omega
        rw [e, c_val _ (by omega), g_all _ (by omega)]
    · funext i
      by_cases hi : R.fp < i ∨ i ≤ R.fp - 64
      · rw [c_fb i hi, d_fb i hi, a2]
      · have e : i = R.fp - ((R.fp - i).toNat : Int) := by omega
        rw [e, c_pix _ (by omega), d_pix _ (by omega), g_all _ (by omega), hpal]
    · rw [c_dp, d_dp]
    · rw [c_fp, d_fp]
    · rw [c_nd, hnd]
      exact (d_nd.mpr g_all).symm
    · intro _
      rw [c_dp]
      constructor
      · intro j hj
        have e : R.dp - 64 + 64 - (j : Int) = R.dp - j := by omega
        rw [e]; exact c_val j hj
      · have e : R.dp - 64 + 65 = R.dp + 1 := by omega
        rw [e, rd8_congr (c_fd _ (Or.inl (by omega))), below _ (by omega) (by omega)]
        decide
  · -- both compute the row
    rw [row_iter_of_ne pal R hnd]
    refine ⟨draw_row_agree pal R G a1 a2 a3 a4, ?_⟩
    obtain ⟨d_dp, -, d_fd, -, -, -, d_last, -, d_nd⟩ := draw_row_spec pal R
    intro hz
    rw [d_dp]
    have hall := d_nd.mp hz
    constructor
    · intro j hj
      have e : R.dp - 64 + 64 - (j : Int) = R.dp - j := by omega
      rw [e]; exact hall j hj
    · have h63 := hall 63 (by omega)
      simp only [Nat.cast_ofNat] at h63
      rw [d_last] at h63
      have hb := edge_rule_eq_zero _ _ _ h63
      have e : R.dp - 64 + 65 = R.dp - 63 + 64 := by omega
      rw [e, rd8_congr (d_fd _ (Or.inl (by omega)))]
      have n1 := rd8_nonneg R.fire_data (R.dp - 63)
      have n3 := rd8_nonneg (draw_row pal R).fire_data (R.dp - 63 + 63)
      omega

/-! ### Bounds of the logged accesses -/

theorem in_bounds_fd_rd (i : Int) (h0 : 0 ≤ i) (h1 : i ≤ 4160) :
    in_bounds (Access.fire_data_rd i) ∨ Access.fire_data_rd i = Access.fire_data_rd 4160 := by
  by_cases h : i = 4160
  · right; rw [h]
  · left
    show 0 ≤ i ∧ i < ((FB_W * (FB_H + 1) : Nat) : Int)
    simp only [FB_W, FB_H]; push_cast; omega

theorem in_bounds_fd_wr (i : Int) (h0 : 0 ≤ i) (h1 : i < 4160) :
    in_bounds (Access.fire_data_wr i) := by
  show 0 ≤ i ∧ i < ((FB_W * (FB_H + 1) : Nat) : Int)
  simp only [FB_W, FB_H]; push_cast; omega

theorem in_bounds_fb_wr (i : Int) (h0 : 0 ≤ i) (h1 : i < 4096) :
    in_bounds (Access.fb_wr i) := by
  show 0 ≤ i ∧ i < ((FB_W * FB_H : Nat) : Int)
  simp only [FB_W, FB_H]; push_cast; omega

theorem in_bounds_pal_rd (i : Int) (h0 : 0 ≤ i) (h1 : i ≤ 254) :
    in_bounds (Access.fire_pal_rd i) := by
  show 0 ≤ i ∧ i < 256
  omega

theorem first_column_logOK (pal : Mem) (s : Fire) (h : LogOK s) (hb : InBody s) :
    LogOK (first_column pal s) := by
  obtain ⟨b1, b2, b3, b4⟩ := hb
  have hr := edge_rule_bounds _ _ _ ⟨rd8_nonneg s.fire_data s.dp, rd8_lt s.fire_data s.dp⟩
    ⟨rd8_nonneg s.fire_data (s.dp + 64), rd8_lt s.fire_data (s.dp + 64)⟩
    ⟨rd8_nonneg s.fire_data (s.dp + 65), rd8_lt s.fire_data (s.dp + 65)⟩
  intro a ha
  rw [first_column_log] at ha
  rcases List.mem_append.mp ha with h1 | h1
  · exact h a h1
  · simp only [List.mem_cons, List.mem_singleton, List.not_mem_nil, or_false] at h1
    rcases h1 with rfl | rfl | rfl | rfl | rfl | rfl
    · exact in_bounds_fd_rd _ (by omega) (by omega)
    · exact in_bounds_fd_rd _ (by omega) (by omega)
    · exact in_bounds_fd_rd _ (by omega) (by omega)
    · exact Or.inl (in_bounds_fd_wr _ (by omega) (by omega))
    · exact Or.inl (in_bounds_pal_rd _ (by omega) (by omega))
    · exact Or.inl (in_bounds_fb_wr _ (by omega) (by omega))

theorem middle_column_logOK (pal : Mem) (s : Fire) (h : LogOK s) (hb : InBody s) :
    LogOK (middle_column pal s) := by
  obtain ⟨b1, b2, b3, b4⟩ := hb
  have hr := middle_rule_bounds _ _ _ _ ⟨rd8_nonneg s.fire_data s.dp, rd8_lt s.fire_data s.dp⟩
    ⟨rd8_nonneg s.fire_data (s.dp + 64), rd8_lt s.fire_data (s.dp + 64)⟩
    ⟨rd8_nonneg s.fire_data (s.dp + 63), rd8_lt s.fire_data (s.dp + 63)⟩
    ⟨rd8_nonneg s.fire_data (s.dp + 65), rd8_lt s.fire_data (s.dp + 65)⟩
  intro a ha
  rw [middle_column_log] at ha
  rcases List.mem_append.mp ha with h1 | h1
  · exact h a h1
  · simp only [List.mem_cons, List.mem_singleton, List.not_mem_nil, or_false] at h1
    rcases h1 with rfl | rfl | rfl | rfl | rfl | rfl | rfl
    · exact in_bounds_fd_rd _ (by omega) (by omega)
    · exact in_bounds_fd_rd _ (by omega) (by omega)
    · exact in_bounds_fd_rd _ (by omega) (by omega)
    · exact in_bounds_fd_rd _ (by omega) (by omega)
    · exact Or.inl (in_bounds_fd_wr _ (by omega) (by omega))
    · exact Or.inl (in_bounds_pal_rd _ (by omega) (by omega))
    · exact Or.inl (in_bounds_fb_wr _ (by omega) (by omega))

theorem last_column_logOK (pal : Mem) (s : Fire) (h : LogOK s) (hb : InBody s) :
    LogOK (last_column pal s) := by
  obtain ⟨b1, b2, b3, b4⟩ := hb
  have hr := edge_rule_bounds _ _ _ ⟨rd8_nonneg s.fire_data s.dp, rd8_lt s.fire_data s.dp⟩
    ⟨rd8_nonneg s.fire_data (s.dp + 64), rd8_lt s.fire_data (s.dp + 64)⟩
    ⟨rd8_nonneg s.fire_data (s.dp + 63), rd8_lt s.fire_data (s.dp + 63)⟩
  intro a ha
  rw [last_column_log] at ha
  rcases List.mem_append.mp ha with h1 | h1
  · exact h a h1
  · simp only [List.mem_cons, List.mem_singleton, List.not_mem_nil, or_false] at h1
    rcases h1 with rfl | rfl | rfl | rfl | rfl | rfl
    · exact in_bounds_fd_rd _ (by omega) (by omega)
    · exact in_bounds_fd_rd _ (by omega) (by omega)
    · exact in_bounds_fd_rd _ (by omega) (by omega)
    · exact Or.inl (in_bounds_fd_wr _ (by omega) (by omega))
    · exact Or.inl (in_bounds_pal_rd _ (by omega) (by omega))
    · exact Or.inl (in_bounds_fb_wr _ (by omega) (by omega))

theorem clear_cell_logOK (s : Fire) (h : LogOK s) (hb : InBody s) : LogOK (clear_cell s) := by
  obtain ⟨b1, b2, b3, b4⟩ := hb
  intro a ha
  rw [clear_cell_log] at ha
  rcases List.mem_append.mp ha with h1 | h1
  · exact h a h1
  · simp only [List.mem_cons, List.mem_singleton, List.not_mem_nil, or_false] at h1
    rcases h1 with rfl | rfl
    · exact Or.inl (in_bounds_fd_wr _ (by omega) (by omega))
    · exact Or.inl (in_bounds_fb_wr _ (by omega) (by omega))

/-- A run of `n` cell steps that starts at least `n - 1` cells above the start of the arrays
keeps the log in bounds and writes the `n` cells it passes. -/
theorem iterate_cells (f : Fire → Fire)
    (hstep : ∀ s, (f s).dp = s.dp - 1 ∧ (f s).fp = s.fp - 1)
    (hok : ∀ s, LogOK s → InBody s → LogOK (f s))
    (hmono : LogMono f)
    (hwr : ∀ s, Access.fire_data_wr s.dp ∈ (f s).log ∧ Access.fb_wr s.fp ∈ (f s).log)
    (n : Nat) (s : Fire) (h : LogOK s) (hb : InBody s) (hd : (n : Int) ≤ s.dp + 1)
    (hf : (n : Int) ≤ s.fp + 1) :
    (f^[n] s).dp = s.dp - n ∧ (f^[n] s).fp = s.fp - n ∧ LogOK (f^[n] s) ∧
    (∀ j : Nat, j < n → Access.fire_data_wr (s.dp - j) ∈ (f^[n] s).log ∧
      Access.fb_wr (s.fp - j) ∈ (f^[n] s).log) := by
  induction n with
  | zero => simp [h]
  | succ n ih =>
    obtain ⟨i1, i2, i3, i4⟩ := ih (by push_cast at hd; omega) (by push_cast at hf; omega)
    obtain ⟨b1, b2, b3, b4⟩ := hb
    rw [Function.iterate_succ_apply']
    obtain ⟨s1, s2⟩ := hstep (f^[n] s)
    have hb' : InBody (f^[n] s) := by
      refine ⟨?_, ?_, ?_, ?_⟩
      · rw [i1]; push_cast at hd; omega
      · rw [i1]; omega
      · rw [i2]; push_cast at hf; omega
      · rw [i2]; omega
    refine ⟨?_, ?_, hok _ i3 hb', ?_⟩
    · rw [s1, i1]; push_cast; omega
    · rw [s2, i2]; push_cast; omega
    · have hw := hwr (f^[n] s)
      rw [i1, i2] at hw
      intro j hj
      rcases Nat.lt_succ_iff_lt_or_eq.mp hj with hlt | rfl
      · exact ⟨hmono _ _ (i4 j hlt).1, hmono _ _ (i4 j hlt).2⟩
      · exact hw

theorem cell_writes_first (pal : Mem) (s : Fire) :
    Access.fire_data_wr s.dp ∈ (first_column pal s).log ∧
    Access.fb_wr s.fp ∈ (first_column pal s).log := by
  rw [first_column_log]; simp

theorem cell_writes_middle (pal : Mem) (s : Fire) :
    Access.fire_data_wr s.dp ∈ (middle_column pal s).log ∧
    Access.fb_wr s.fp ∈ (middle_column pal s).log := by
  rw [middle_column_log]; simp

theorem cell_writes_last (pal : Mem) (s : Fire) :
    Access.fire_data_wr s.dp ∈ (last_column pal s).log ∧
    Access.fb_wr s.fp ∈ (last_column pal s).log := by
  rw [last_column_log]; simp

theorem cell_writes_clear (s : Fire) :
    Access.fire_data_wr s.dp ∈ (clear_cell s).log ∧ Access.fb_wr s.fp ∈ (clear_cell s).log := by
  rw [clear_cell_log]; simp

/-- One iteration of the row loop started with both pointers at the last cell of a body row:
the log stays in bounds, up to reads of `fire_data[4160]`, and the `64` cells of the row are
written in the heat field and in the frame buffer. -/
theorem row_iter_log (pal : Mem) (s : Fire) (h : LogOK s) (hd : 63 ≤ s.dp) (hd2 : s.dp ≤ 4095)
    (hf : 63 ≤ s.fp) (hf2 : s.fp ≤ 4095) :
    LogOK (row_iter pal s) ∧
    (∀ j : Nat, j < 64 → Access.fire_data_wr (s.dp - j) ∈ (row_iter pal s).log ∧
      Access.fb_wr (s.fp - j) ∈ (row_iter pal s).log) := by
  by_cases hnd : s.not_done = 0
  · rw [row_iter_of_eq pal s hnd, clear_row_eq]
    obtain ⟨-, -, c3, c4⟩ := iterate_cells clear_cell (fun _ => ⟨rfl, rfl⟩) clear_cell_logOK
      clear_cell_logMono cell_writes_clear 64 s h ⟨by omega, hd2, by omega, hf2⟩
      (by push_cast; omega) (by push_cast; omega)
    exact ⟨c3, c4⟩
  · rw [row_iter_of_ne pal s hnd, draw_row_eq]
    have h0 : LogOK { s with not_done := 0 } := h
    have a_ok := first_column_logOK pal { s with not_done := 0 } h0
      ⟨by show 0 ≤ s.dp; omega, hd2, by show 0 ≤ s.fp; omega, hf2⟩
    have a_wr := cell_writes_first pal { s with not_done := 0 }
    have a_dp := first_column_dp pal { s with not_done := 0 }
    have a_fp := first_column_fp pal { s with not_done := 0 }
    simp only [] at a_wr a_dp a_fp
    generalize first_column pal { s with not_done := 0 } = s1 at a_ok a_wr a_dp a_fp
    obtain ⟨m1, m2, m3, m4⟩ := iterate_cells (middle_column pal)
      (fun _ => ⟨rfl, rfl⟩) (middle_column_logOK pal) (middle_column_logMono pal)
      (cell_writes_middle pal) 62 s1 a_ok
      ⟨by rw [a_dp]; omega, by rw [a_dp]; omega, by rw [a_fp]; omega, by rw [a_fp]; omega⟩
      (by rw [a_dp]; push_cast; omega) (by rw [a_fp]; push_cast; omega)
    have a_wr2 : Access.fire_data_wr s.dp ∈ ((middle_column pal)^[62] s1).log ∧
        Access.fb_wr s.fp ∈ ((middle_column pal)^[62] s1).log :=
      ⟨iterate_logMono _ (middle_column_logMono pal) 62 _ _ a_wr.1,
        iterate_logMono _ (middle_column_logMono pal) 62 _ _ a_wr.2⟩
    rw [a_dp] at m1 m4
    rw [a_fp] at m2 m4
    generalize (middle_column pal)^[62] s1 = s2 at m1 m2 m3 m4 a_wr2
    have e62 : s.dp - 1 - ((62 : Nat) : Int) = s.dp - 63 := by push_cast; omega
    have f62 : s.fp - 1 - ((62 : Nat) : Int) = s.fp - 63 := by push_cast; omega
    rw [e62] at m1
    rw [f62] at m2
    have c_ok := last_column_logOK pal s2 m3
      ⟨by rw [m1]; omega, by rw [m1]; omega, by rw [m2]; omega, by rw [m2]; omega⟩
    have c_wr := cell_writes_last pal s2
    rw [m1, m2] at c_wr
    refine ⟨c_ok, ?_⟩
    intro j hj
    by_cases j0 : j = 0
    · subst j0
      simp only [Nat.cast_zero, sub_zero]
      exact ⟨last_column_logMono pal _ _ a_wr2.1, last_column_logMono pal _ _ a_wr2.2⟩
    · by_cases j63 : j = 63
      · subst j63
        simpa using c_wr
      · have h := m4 (j - 1) (by omega)
        have e : s.dp - 1 - ((j - 1 : Nat) : Int) = s.dp - j := by omega
        have e' : s.fp - 1 - ((j - 1 : Nat) : Int) = s.fp - j := by omega
        rw [e, e'] at h
        exact ⟨last_column_logMono pal _ _ h.1, last_column_logMono pal _ _ h.2⟩

theorem seed_loop_logOK (rng : Nat → Nat) (s : Fire) (hs : s.rng_reads = 0) (hdp : s.dp = 4096)
    (h : LogOK s) (n : Nat) (hn : n ≤ 64) : LogOK (seed_loop rng n 0 s) := by
  induction n with
  | zero => exact h
  | succ n ih =>
    have ih' := ih (by omega)
    obtain ⟨i_dp, -⟩ := seed_iter rng s hs n
    rw [seed_loop_succ, Nat.zero_add]
    intro a ha
    rw [seed_body_log] at ha
    rcases List.mem_append.mp ha with h1 | h1
    · exact ih' a h1
    · simp only [List.mem_singleton] at h1
      rw [h1, i_dp, hdp]
      exact Or.inl (in_bounds_fd_wr _ (by omega) (by omega))

/-- The log of `render_fire` after `k` iterations of the row loop. -/
theorem draw_state_log (pal : Mem) (rng : Nat → Nat) (fd fb : Mem) (k : Nat) (hk : k ≤ 64) :
    LogOK (draw_state pal rng fd fb k) ∧
    (∀ k0 : Nat, k0 < k → ∀ j : Nat, j < 64 →
      Access.fire_data_wr (4095 - 64 * k0 - j) ∈ (draw_state pal rng fd fb k).log ∧
      Access.fb_wr (4095 - 64 * k0 - j) ∈ (draw_state pal rng fd fb k).log) := by
  induction k with
  | zero =>
    refine ⟨?_, fun k0 h0 => absurd h0 (by omega)⟩
    have e : (draw_state pal rng fd fb 0).log = (seed rng fd fb).log := rfl
    intro a ha
    rw [e, seed_unfold] at ha
    exact seed_loop_logOK rng _ rfl rfl (fun b hb => by simp at hb) 64 (by omega) a ha
  | succ k ih =>
    obtain ⟨i1, i2⟩ := ih (by omega)
    have e1 : draw_state pal rng fd fb (k + 1) = row_iter pal (draw_state pal rng fd fb k) := by
      rw [draw_state_def, draw_state_def, Function.iterate_succ_apply']
    obtain ⟨i_dp, i_fp, -⟩ := draw_init_seed rng fd fb
    obtain ⟨v_dp, v_fp, -, -⟩ :=
      rows_frame (row_iter pal) (row_iter_frame pal) (draw_init (seed rng fd fb)) k
    rw [i_dp] at v_dp
    rw [i_fp] at v_fp
    rw [← draw_state_def] at v_dp v_fp
    obtain ⟨r1, r2⟩ := row_iter_log pal (draw_state pal rng fd fb k) i1
      (by rw [v_dp]; omega) (by rw [v_dp]; omega) (by rw [v_fp]; omega) (by rw [v_fp]; omega)
    rw [v_dp, v_fp] at r2
    rw [e1]
    refine ⟨r1, ?_⟩
    intro k0 h0 j hj
    rcases Nat.lt_succ_iff_lt_or_eq.mp h0 with hlt | rfl
    · exact ⟨row_iter_logMono pal _ _ (i2 k0 hlt j hj).1,
        row_iter_logMono pal _ _ (i2 k0 hlt j hj).2⟩
    · exact r2 j hj

/-- The accesses of one call: all in bounds up to reads of `fire_data[4160]`, and every body
cell and every display cell is written. -/
theorem render_fire_log (pal : Mem) (rng : Nat → Nat) (fd fb : Mem) :
    LogOK (render_fire pal rng fd fb) ∧
    (∀ y x : Nat, y < 64 → x < 64 →
      Access.fire_data_wr (cell y x) ∈ (render_fire pal rng fd fb).log ∧
      Access.fb_wr (cell y x) ∈ (render_fire pal rng fd fb).log) := by
  have e : render_fire pal rng fd fb = draw_state pal rng fd fb 64 := rfl
  rw [e]
  obtain ⟨h1, h2⟩ := draw_state_log pal rng fd fb 64 (by omega)
  refine ⟨h1, ?_⟩
  intro y x hy hx
  have h := h2 (63 - y) (by omega) (63 - x) (by omega)
  have e2 : (4095 : Int) - 64 * ((63 - y : Nat) : Int) - ((63 - x : Nat) : Int) = cell y x := by
    rw [cell_eq]; omega
  rw [e2] at h
  exact h

/-! ## A cold frame -/

theorem edge_rule_zero : edge_rule 0 0 0 = 0 := by decide

/-- With no heat anywhere that the code reads, none appears: if every body cell and the byte
that follows the array are `0` before the call, and every column draws nonzero bits so that
the ignition row is reseeded to all zeros, then after the call every body cell is `0` and
every display cell holds `0`, for a palette whose entry `0` is `0`.  (The byte after the
array counts because the first cell processed reads it.) -/
theorem cold_frame (pal : Mem) (hpal : rd16 pal 0 = 0) (rng : Nat → Nat) (fd fb : Mem)
    (hbody : ∀ y x : Nat, y < 64 → x < 64 → rd8 fd (cell y x) = 0)
    (hnext : rd8 fd 4160 = 0)
    (hbits : ∀ x : Nat, x < 64 → column_bits rng x ≠ 0)
    (y : Nat) (hy : y < 64) (x : Nat) (hx : x < 64) :
    (render_fire pal rng fd fb).fire_data (cell y x) = 0 ∧
    (render_fire pal rng fd fb).fb (cell y x) = 0 := by
  obtain ⟨i1, i2, -⟩ := render_ignition pal rng fd fb
  have ign : ∀ x : Nat, x < 64 → rd8 (render_fire pal rng fd fb).fire_data (cell 64 x) = 0 := by
    intro x hx
    rw [rd8_val (i1 x hx), seed_value_bits, if_neg (hbits x hx)]; rfl
  -- the bottom row is computed from zeros
  obtain ⟨g1, g2, g3, -⟩ := render_grid pal rng fd fb 63 (by omega) (row_computed_bottom _ _ _ _)
  simp only [Nat.reduceAdd] at g1 g2 g3
  have top : (render_fire pal rng fd fb).fire_data (cell 63 63) = 0 := by
    have e : rd8 (render_fire pal rng fd fb).fire_data (cell 65 0) = 0 := by
      rw [show cell 65 0 = 4160 by decide]
      rw [rd8_congr (i2 4160 (by omega))]; exact hnext
    rw [g1, hbody 63 63 (by omega) (by omega), ign 63 (by omega), e]
    exact edge_rule_zero
  have r63 : ∀ x : Nat, x < 64 → (render_fire pal rng fd fb).fire_data (cell 63 x) = 0 := by
    intro x hx
    by_cases c1 : x = 63
    · subst c1; exact top
    · by_cases c0 : x = 0
      · subst c0
        rw [g3, hbody 63 0 (by omega) (by omega), ign 0 (by omega), rd8_val top]
        exact edge_rule_zero
      · rw [g2 x (by omega) (by omega), hbody 63 x (by omega) hx, ign x hx,
          ign (x - 1) (by omega), ign (x + 1) (by omega)]
        exact middle_rule_zero
  -- every row above is cleared
  have rows : ∀ d : Nat, d ≤ 63 → ∀ x : Nat, x < 64 →
      (render_fire pal rng fd fb).fire_data (cell (63 - d) x) = 0 := by
    intro d
    induction d with
    | zero =>
      intro _ x hx
      simp only [Nat.sub_zero]
      exact r63 x hx
    | succ d ih =>
      intro hd x hx
      have hc : ¬ row_computed pal rng fd fb (63 - (d + 1)) := by
        rw [row_computed_succ _ _ _ _ _ (by omega), not_not]
        have e : 63 - (d + 1) + 1 = 63 - d := by omega
        rw [e]
        exact ih (by omega)
      exact (render_grid_cleared pal rng fd fb _ (by omega) hc x hx).1
  have hz : (render_fire pal rng fd fb).fire_data (cell y x) = 0 := by
    have h := rows (63 - y) (by omega) x hx
    have e : 63 - (63 - y) = y := by omega
    rw [e] at h
    exact h
  refine ⟨hz, ?_⟩
  by_cases hc : row_computed pal rng fd fb y
  · rw [(render_grid pal rng fd fb y hy hc).2.2.2 x hx, hz]
    exact hpal
  · exact (render_grid_cleared pal rng fd fb y hy hc x hx).2

/-! ## Further lemmas for the claims -/

theorem average_of_grid (pal fd : Mem) (F : Fire) (y x : Nat) (hx : x < 64)
    (h : GridRules pal fd F y) :
    F.fire_data (cell y x) = decay (cell_average fd F.fire_data y x) := by
  obtain ⟨h1, h2, h3, -⟩ := h
  have eW : FB_W - 1 = 63 := rfl
  unfold cell_average
  rw [eW]
  by_cases c1 : x = 63
  · subst c1
    rw [if_pos rfl, h1]
    have a1 : cell (y + 1) 63 = cell y 63 + 64 := by simp only [cell_eq]; push_cast; omega
    have a2 : cell (y + 2) 0 = cell y 63 + 65 := by simp only [cell_eq]; push_cast; omega
    rw [a1, a2]; rfl
  · by_cases c0 : x = 0
    · subst c0
      rw [if_neg c1, if_pos rfl, h3]
      have a1 : cell (y + 1) 0 = cell y 0 + 64 := by simp only [cell_eq]; push_cast; omega
      have a2 : cell y 63 = cell y 0 + 63 := by simp only [cell_eq]; push_cast; omega
      rw [a1, a2]; rfl
    · rw [if_neg c1, if_neg c0, h2 x (by omega) (by omega)]
      have a1 : cell (y + 1) x = cell y x + 64 := by simp only [cell_eq]; push_cast; omega
      have a2 : cell (y + 1) (x - 1) = cell y x + 63 := by simp only [cell_eq]; push_cast; omega
      have a3 : cell (y + 1) (x + 1) = cell y x + 65 := by simp only [cell_eq]; push_cast; omega
      rw [a1, a2, a3]; rfl

theorem cell_average_nonneg (fd F : Mem) (y x : Nat) : 0 ≤ cell_average fd F y x := by
  unfold cell_average
  have a := rd8_nonneg fd (cell y x)
  have b := rd8_nonneg F (cell y x + 64)
  have c := rd8_nonneg F (cell y x + 63)
  have d := rd8_nonneg F (cell y x + 65)
  split_ifs
  · rw [shr8_eq]; omega
  · rw [shr8_eq]; omega
  · rw [shr2_eq]; omega

set_option maxRecDepth 100000 in
theorem palette_entry_0 (pal0 : Mem) : create_fire_palette pal0 0 = COMP_COLOR 0 0 0 % 65536 := rfl

set_option maxRecDepth 100000 in
theorem palette_entry_64 (pal0 : Mem) :
    create_fire_palette pal0 64 = COMP_COLOR 255 0 0 % 65536 := rfl

set_option maxRecDepth 100000 in
theorem palette_entry_96 (pal0 : Mem) :
    create_fire_palette pal0 96 = COMP_COLOR 255 255 0 % 65536 := rfl

set_option maxRecDepth 100000 in
theorem palette_entry_255 (pal0 : Mem) :
    create_fire_palette pal0 255 = COMP_COLOR 255 255 255 % 65536 := rfl

theorem cell_succ_row (y x : Nat) : cell (y + 1) x = cell y x + 64 := by
  simp only [cell_eq]; push_cast; omega

theorem grid_bounds (pal fd : Mem) (F : Fire) (y x : Nat) (hx : x < 64)
    (h : GridRules pal fd F y) : 0 ≤ F.fire_data (cell y x) ∧ F.fire_data (cell y x) ≤ 254 := by
  obtain ⟨h1, h2, h3, -⟩ := h
  by_cases c1 : x = 63
  · subst c1
    rw [h1]
    have := edge_rule_bounds _ _ _ ⟨rd8_nonneg fd (cell y 63), rd8_lt fd (cell y 63)⟩
      ⟨rd8_nonneg F.fire_data (cell (y + 1) 63), rd8_lt F.fire_data (cell (y + 1) 63)⟩
      ⟨rd8_nonneg F.fire_data (cell (y + 2) 0), rd8_lt F.fire_data (cell (y + 2) 0)⟩
    omega
  · by_cases c0 : x = 0
    · subst c0
      rw [h3]
      have := edge_rule_bounds _ _ _ ⟨rd8_nonneg fd (cell y 0), rd8_lt fd (cell y 0)⟩
        ⟨rd8_nonneg F.fire_data (cell (y + 1) 0), rd8_lt F.fire_data (cell (y + 1) 0)⟩
        ⟨rd8_nonneg F.fire_data (cell y 63), rd8_lt F.fire_data (cell y 63)⟩
      omega
    · rw [h2 x (by omega) (by omega)]
      exact middle_rule_bounds _ _ _ _ ⟨rd8_nonneg fd (cell y x), rd8_lt fd (cell y x)⟩
        ⟨rd8_nonneg F.fire_data (cell (y + 1) x), rd8_lt F.fire_data (cell (y + 1) x)⟩
        ⟨rd8_nonneg F.fire_data (cell (y + 1) (x - 1)),
          rd8_lt F.fire_data (cell (y + 1) (x - 1))⟩
        ⟨rd8_nonneg F.fire_data (cell (y + 1) (x + 1)),
          rd8_lt F.fire_data (cell (y + 1) (x + 1))⟩

theorem render_bounds (pal : Mem) (rng : Nat → Nat) (fd fb : Mem) (y x : Nat) (hy : y < 64)
    (hx : x < 64) :
    0 ≤ (render_fire pal rng fd fb).fire_data (cell y x) ∧
    (render_fire pal rng fd fb).fire_data (cell y x) ≤ 254 := by
  by_cases hc : row_computed pal rng fd fb y
  · exact grid_bounds pal fd _ y x hx (render_grid pal rng fd fb y hy hc)
  · rw [(render_grid_cleared pal rng fd fb y hy hc x hx).1]; omega

theorem agree_refl (s : Fire) : Agree s s := ⟨rfl, rfl, rfl, rfl, rfl⟩

/-- The states of `render_fire` and of the variant agree after every iteration of the row
loop, when the early stop only clears cells that held zero. -/
theorem agree_states (pal : Mem) (hpal : rd16 pal 0 = 0) (rng : Nat → Nat) (fd fb : Mem)
    (hcold : ∀ k : Nat, k < 64 → (draw_state pal rng fd fb k).not_done = 0 →
      ∀ j : Nat, j < 64 → rd8 fd (4095 - 64 * k - j) = 0)
    (k : Nat) (hk : k ≤ 64) :
    Agree (draw_state pal rng fd fb k) (full_state pal rng fd fb k) ∧
    ((draw_state pal rng fd fb k).not_done = 0 →
      (∀ j : Nat, j < 64 → (draw_state pal rng fd fb k).fire_data
        ((draw_state pal rng fd fb k).dp + 64 - j) = 0) ∧
      rd8 (draw_state pal rng fd fb k).fire_data ((draw_state pal rng fd fb k).dp + 65) ≤ 6) := by
  induction k with
  | zero =>
    refine ⟨agree_refl _, ?_⟩
    intro h
    have e : (draw_state pal rng fd fb 0).not_done = 1 := draw_init_not_done _
    rw [e] at h
    exact absurd h (by decide)
  | succ k ih =>
    obtain ⟨hag, haux⟩ := ih (by omega)
    have e1 : draw_state pal rng fd fb (k + 1) = row_iter pal (draw_state pal rng fd fb k) := by
      rw [draw_state_def, draw_state_def, Function.iterate_succ_apply']
    have e2 : full_state pal rng fd fb (k + 1) = draw_row pal (full_state pal rng fd fb k) := by
      rw [full_state_def, full_state_def, Function.iterate_succ_apply']
    rw [e1, e2]
    apply agree_step pal hpal _ _ hag _ haux
    intro hnd j hj
    obtain ⟨i_dp, -, -, -, -, i_fd, -⟩ := draw_init_seed rng fd fb
    obtain ⟨v_dp, -, v_old, -⟩ :=
      rows_view (row_iter pal) (row_iter_frame pal) (draw_init (seed rng fd fb)) 64 k
        (by omega)
    rw [i_dp] at v_dp v_old
    rw [draw_state_def, v_dp, rd8_congr (v_old _ (by omega)), rd8_congr (i_fd _ (by omega))]
    exact hcold k (by omega) hnd j hj

theorem spark_mem_other (i : Int) (h : i ≠ cell 62 5) : rd8 spark_mem i = 0 := by
  unfold spark_mem rd8
  rw [wr8_other _ _ _ _ h]; rfl

/-! ## The palette, entry by entry -/

theorem shl_eq (a : Int) (n : Nat) : a <<< (n : Int) = a * 2 ^ n := by
  rw [Int.shiftLeft_eq_mul_pow]; push_cast; rfl

theorem shl1_eq (a : Int) : a <<< (1 : Int) = a * 2 := by
  have := shl_eq a 1; simpa using this

theorem shl2_eq (a : Int) : a <<< (2 : Int) = a * 4 := by
  have := shl_eq a 2; simpa using this

theorem shl3_eq (a : Int) : a <<< (3 : Int) = a * 8 := by
  have := shl_eq a 3; simpa using this

theorem shl5_eq (a : Int) : a <<< (5 : Int) = a * 32 := by
  have := shl_eq a 5; simpa using this

theorem shl11_eq (a : Int) : a <<< (11 : Int) = a * 2048 := by
  have := shl_eq a 11; simpa using this

theorem shl0_eq (a : Int) : a <<< (0 : Int) = a := by
  have := shl_eq a 0; simpa using this

theorem shr3_eq (a : Int) : a >>> (3 : Nat) = a / 8 := by
  rw [Int.shiftRight_eq_div_pow]; norm_num

theorem shr5_eq (a : Int) : a >>> (5 : Nat) = a / 32 := by
  rw [Int.shiftRight_eq_div_pow]; norm_num

theorem shr11_eq (a : Int) : a >>> (11 : Nat) = a / 2048 := by
  rw [Int.shiftRight_eq_div_pow]; norm_num

/-- The bitwise or of two non-negative integers whose bits do not overlap is their sum. -/
theorem lor_eq_add (a b : Int) (k : Nat) (ha : 0 ≤ a) (hb : 0 ≤ b) (hk : b < 2 ^ k) :
    Int.lor (a * 2 ^ k) b = a * 2 ^ k + b := by
  obtain ⟨m, rfl⟩ := Int.eq_ofNat_of_zero_le ha
  obtain ⟨n, rfl⟩ := Int.eq_ofNat_of_zero_le hb
  have hn : n < 2 ^ k := by exact_mod_cast hk
  have e : ((m : Int) * 2 ^ k) = ((2 ^ k * m : Nat) : Int) := by push_cast; ring
  rw [e]
  show ((2 ^ k * m ||| n : Nat) : Int) = _
  rw [← Nat.mul_add_lt_is_or hn m]
  push_cast; ring

/-- The packing of `COMP_COLOR` for channel values of 8 bits: the three truncated channels
side by side, blue in bits 11-15, green in bits 5-10, red in bits 0-4. -/
theorem COMP_COLOR_eq (R G B : Int) (hR : 0 ≤ R ∧ R < 256) (hG : 0 ≤ G ∧ G < 256)
    (hB : 0 ≤ B ∧ B < 256) : COMP_COLOR R G B = B / 8 * 2048 + G / 4 * 32 + R / 8 := by
  unfold COMP_COLOR
  rw [shl11_eq, shl5_eq, shl0_eq, shr3_eq, shr3_eq, shr2_eq]
  have h1 := lor_eq_add (B / 8) (G / 4 * 32) 11 (by omega) (by omega) (by norm_num; omega)
  have e1 : B / 8 * 2 ^ 11 = B / 8 * 2048 := by ring
  rw [e1] at h1
  rw [h1]
  have h2 := lor_eq_add (B / 8 * 64 + G / 4) (R / 8) 5 (by omega) (by omega) (by norm_num; omega)
  have e2 : (B / 8 * 64 + G / 4) * 2 ^ 5 = B / 8 * 2048 + G / 4 * 32 := by ring
  rw [e2] at h2
  exact h2

theorem palette_body_apply (p : Mem) (i j : Int) :
    palette_body p i j =
      if j = i + 224 then COMP_COLOR 0xFF 0xFF (224 + i) % 65536
      else if j = i + 192 then COMP_COLOR 0xFF 0xFF (192 + i) % 65536
      else if j = i + 160 then COMP_COLOR 0xFF 0xFF (128 + (i <<< (2 : Int))) % 65536
      else if j = i + 128 then COMP_COLOR 0xFF 0xFF (64 + (i <<< (2 : Int))) % 65536
      else if j = i + 96 then COMP_COLOR 0xFF 0xFF (0 + (i <<< (2 : Int))) % 65536
      else if j = i + 64 then COMP_COLOR 0xFF (i <<< (3 : Int)) 0 % 65536
      else if j = i + 32 then COMP_COLOR (i <<< (3 : Int)) 0 (64 - (i <<< (1 : Int))) % 65536
      else if j = i then COMP_COLOR 0 0 (i <<< (1 : Int)) % 65536
      else p j := rfl

theorem entry_band0 (j : Int) (h : j / 32 = 0) :
    palette_entry j = COMP_COLOR 0 0 ((j % 32) <<< (1 : Int)) % 65536 := by
  unfold palette_entry palette_red palette_green palette_blue palette_channels
  rw [h]
  rfl

theorem entry_band1 (j : Int) (h : j / 32 = 1) :
    palette_entry j = COMP_COLOR ((j % 32) <<< (3 : Int)) 0 (64 - ((j % 32) <<< (1 : Int))) % 65536 := by
  unfold palette_entry palette_red palette_green palette_blue palette_channels
  rw [h]
  rfl

theorem entry_band2 (j : Int) (h : j / 32 = 2) :
    palette_entry j = COMP_COLOR 0xFF ((j % 32) <<< (3 : Int)) 0 % 65536 := by
  unfold palette_entry palette_red palette_green palette_blue palette_channels
  rw [h]
  rfl

theorem entry_band3 (j : Int) (h : j / 32 = 3) :
    palette_entry j = COMP_COLOR 0xFF 0xFF (0 + ((j % 32) <<< (2 : Int))) % 65536 := by
  unfold palette_entry palette_red palette_green palette_blue palette_channels
  rw [h]
  rfl

theorem entry_band4 (j : Int) (h : j / 32 = 4) :
    palette_entry j = COMP_COLOR 0xFF 0xFF (64 + ((j % 32) <<< (2 : Int))) % 65536 := by
  unfold palette_entry palette_red palette_green palette_blue palette_channels
  rw [h]
  rfl

theorem entry_band5 (j : Int) (h : j / 32 = 5) :
    palette_entry j = COMP_COLOR 0xFF 0xFF (128 + ((j % 32) <<< (2 : Int))) % 65536 := by
  unfold palette_entry palette_red palette_green palette_blue palette_channels
  rw [h]
  rfl

theorem entry_band6 (j : Int) (h : j / 32 = 6) :
    palette_entry j = COMP_COLOR 0xFF 0xFF (192 + j % 32) % 65536 := by
  unfold palette_entry palette_red palette_green palette_blue palette_channels
  rw [h]
  rfl

theorem entry_band7 (j : Int) (h : j / 32 = 7) :
    palette_entry j = COMP_COLOR 0xFF 0xFF (224 + j % 32) % 65536 := by
  unfold palette_entry palette_red palette_green palette_blue palette_channels
  rw [h]
  rfl

/-- One iteration of the palette loop writes the eight entries `i`, `i + 32`, ..., `i + 224`
and nothing else. -/
theorem palette_body_spec (p : Mem) (n : Nat) (hn : n < 32) (j : Int) :
    palette_body p n j =
      if 0 ≤ j ∧ j < 256 ∧ j % 32 = n then palette_entry j else p j := by
  rw [palette_body_apply]
  by_cases h : 0 ≤ j ∧ j < 256 ∧ j % 32 = n
  · rw [if_pos h]
    obtain ⟨h0, h1, h2⟩ := h
    have hq : j / 32 = 0 ∨ j / 32 = 1 ∨ j / 32 = 2 ∨ j / 32 = 3 ∨ j / 32 = 4 ∨ j / 32 = 5 ∨
        j / 32 = 6 ∨ j / 32 = 7 := by omega
    rcases hq with q | q | q | q | q | q | q | q
    · rw [entry_band0 j q, h2, if_neg (show ¬ j = (n : Int) + 224 by omega),
        if_neg (show ¬ j = (n : Int) + 192 by omega),
        if_neg (show ¬ j = (n : Int) + 160 by omega),
        if_neg (show ¬ j = (n : Int) + 128 by omega),
        if_neg (show ¬ j = (n : Int) + 96 by omega),
        if_neg (show ¬ j = (n : Int) + 64 by omega),
        if_neg (show ¬ j = (n : Int) + 32 by omega),
        if_pos (show j = (n : Int) by omega)]
    · rw [entry_band1 j q, h2, if_neg (show ¬ j = (n : Int) + 224 by omega),
        if_neg (show ¬ j = (n : Int) + 192 by omega),
        if_neg (show ¬ j = (n : Int) + 160 by omega),
        if_neg (show ¬ j = (n : Int) + 128 by omega),
        if_neg (show ¬ j = (n : Int) + 96 by omega),
        if_neg (show ¬ j = (n : Int) + 64 by omega),
        if_pos (show j = (n : Int) + 32 by omega)]
    · rw [entry_band2 j q, h2, if_neg (show ¬ j = (n : Int) + 224 by omega),
        if_neg (show ¬ j = (n : Int) + 192 by omega),
        if_neg (show ¬ j = (n : Int) + 160 by omega),
        if_neg (show ¬ j = (n : Int) + 128 by omega),
        if_neg (show ¬ j = (n : Int) + 96 by omega),
        if_pos (show j = (n : Int) + 64 by omega)]
    · rw [entry_band3 j q, h2, if_neg (show ¬ j = (n : Int) + 224 by omega),
        if_neg (show ¬ j = (n : Int) + 192 by omega),
        if_neg (show ¬ j = (n : Int) + 160 by omega),
        if_neg (show ¬ j = (n : Int) + 128 by omega),
        if_pos (show j = (n : Int) + 96 by omega)]
    · rw [entry_band4 j q, h2, if_neg (show ¬ j = (n : Int) + 224 by omega),
        if_neg (show ¬ j = (n : Int) + 192 by omega),
        if_neg (show ¬ j = (n : Int) + 160 by omega),
        if_pos (show j = (n : Int) + 128 by omega)]
    · rw [entry_band5 j q, h2, if_neg (show ¬ j = (n : Int) + 224 by omega),
        if_neg (show ¬ j = (n : Int) + 192 by omega),
        if_pos (show j = (n : Int) + 160 by omega)]
    · rw [entry_band6 j q, h2, if_neg (show ¬ j = (n : Int) + 224 by omega),
        if_pos (show j = (n : Int) + 192 by omega)]
    · rw [entry_band7 j q, h2, if_pos (show j = (n : Int) + 224 by omega)]
  · rw [if_neg h]
    split_ifs <;> first | rfl | (exfalso; omega)

/-- The palette after `n` iterations of the loop. -/
theorem palette_loop_spec (pal0 : Mem) (n : Nat) (hn : n ≤ 32) (j : Int) :
    palette_loop pal0 n j =
      if 0 ≤ j ∧ j < 256 ∧ j % 32 < n then palette_entry j else pal0 j := by
  induction n with
  | zero =>
    have h : ¬ (0 ≤ j ∧ j < 256 ∧ j % 32 < ((0 : Nat) : Int)) := by omega
    rw [if_neg h]; rfl
  | succ n ih =>
    show palette_body (palette_loop pal0 n) (n : Int) j = _
    rw [palette_body_spec _ n (by omega), ih (by omega)]
    by_cases h1 : 0 ≤ j ∧ j < 256 ∧ j % 32 = n
    · rw [if_pos h1, if_pos (by push_cast; omega)]
    · rw [if_neg h1]
      by_cases h2 : 0 ≤ j ∧ j < 256 ∧ j % 32 < n
      · rw [if_pos h2, if_pos (by push_cast; omega)]
      · rw [if_neg h2, if_neg (by push_cast; omega)]

/-- Every one of the 256 entries after `create_fire_palette`, whatever `fire_pal` held before;
the memory outside the array is untouched. -/
theorem create_fire_palette_spec (pal0 : Mem) (j : Int) :
    create_fire_palette pal0 j = if 0 ≤ j ∧ j < 256 then palette_entry j else pal0 j := by
  unfold create_fire_palette
  rw [palette_loop_spec pal0 32 (by omega)]
  by_cases h : 0 ≤ j ∧ j < 256
  · rw [if_pos h, if_pos (by push_cast; omega)]
  · rw [if_neg h, if_neg (by push_cast; omega)]

theorem palette_channels_range (j : Int) :
    (0 ≤ palette_red j ∧ palette_red j < 256) ∧ (0 ≤ palette_green j ∧ palette_green j < 256) ∧
    (0 ≤ palette_blue j ∧ palette_blue j < 256) := by
  unfold palette_red palette_green palette_blue palette_channels
  simp only [shl1_eq, shl2_eq, shl3_eq]
  split_ifs <;> dsimp only <;> omega

theorem COMP_COLOR_fields (R G B : Int) (hR : 0 ≤ R ∧ R < 256) (hG : 0 ≤ G ∧ G < 256)
    (hB : 0 ≤ B ∧ B < 256) :
    red_field (COMP_COLOR R G B) = R >>> (3 : Nat) ∧
    green_field (COMP_COLOR R G B) = G >>> (2 : Nat) ∧
    blue_field (COMP_COLOR R G B) = B >>> (3 : Nat) ∧
    0 ≤ COMP_COLOR R G B ∧ COMP_COLOR R G B < 65536 := by
  unfold red_field green_field blue_field
  rw [COMP_COLOR_eq R G B hR hG hB, shr3_eq, shr3_eq, shr2_eq, shr5_eq, shr11_eq]
  omega

/-- Entry `j` after `create_fire_palette` is the packing of its three channels; the
conversion to `uint16_t` changes nothing. -/
theorem palette_entry_eq (j : Int) :
    palette_entry j = COMP_COLOR (palette_red j) (palette_green j) (palette_blue j) := by
  obtain ⟨hR, hG, hB⟩ := palette_channels_range j
  have := COMP_COLOR_fields _ _ _ hR hG hB
  unfold palette_entry
  omega

/-! ## The channels of each palette band -/

theorem channels_band0 (j : Int) (h : j / 32 = 0) :
    palette_red j = 0 ∧ palette_green j = 0 ∧ palette_blue j = j % 32 * 2 := by
  unfold palette_red palette_green palette_blue palette_channels
  rw [h]
  simp only [shl1_eq, shl2_eq, shl3_eq]
  refine ⟨?_, ?_, ?_⟩ <;> rfl

theorem channels_band1 (j : Int) (h : j / 32 = 1) :
    palette_red j = j % 32 * 8 ∧ palette_green j = 0 ∧ palette_blue j = 64 - j % 32 * 2 := by
  unfold palette_red palette_green palette_blue palette_channels
  rw [h]
  simp only [shl1_eq, shl2_eq, shl3_eq]
  refine ⟨?_, ?_, ?_⟩ <;> rfl

theorem channels_band2 (j : Int) (h : j / 32 = 2) :
    palette_red j = 255 ∧ palette_green j = j % 32 * 8 ∧ palette_blue j = 0 := by
  unfold palette_red palette_green palette_blue palette_channels
  rw [h]
  simp only [shl1_eq, shl2_eq, shl3_eq]
  refine ⟨?_, ?_, ?_⟩ <;> rfl

theorem channels_band3 (j : Int) (h : j / 32 = 3) :
    palette_red j = 255 ∧ palette_green j = 255 ∧ palette_blue j = 0 + j % 32 * 4 := by
  unfold palette_red palette_green palette_blue palette_channels
  rw [h]
  simp only [shl1_eq, shl2_eq, shl3_eq]
  refine ⟨?_, ?_, ?_⟩ <;> rfl

theorem channels_band4 (j : Int) (h : j / 32 = 4) :
    palette_red j = 255 ∧ palette_green j = 255 ∧ palette_blue j = 64 + j % 32 * 4 := by
  unfold palette_red palette_green palette_blue palette_channels
  rw [h]
  simp only [shl1_eq, shl2_eq, shl3_eq]
  refine ⟨?_, ?_, ?_⟩ <;> rfl

theorem channels_band5 (j : Int) (h : j / 32 = 5) :
    palette_red j = 255 ∧ palette_green j = 255 ∧ palette_blue j = 128 + j % 32 * 4 := by
  unfold palette_red palette_green palette_blue palette_channels
  rw [h]
  simp only [shl1_eq, shl2_eq, shl3_eq]
  refine ⟨?_, ?_, ?_⟩ <;> rfl

theorem channels_band6 (j : Int) (h : j / 32 = 6) :
    palette_red j = 255 ∧ palette_green j = 255 ∧ palette_blue j = 192 + j % 32 := by
  unfold palette_red palette_green palette_blue palette_channels
  rw [h]
  simp only [shl1_eq, shl2_eq, shl3_eq]
  refine ⟨?_, ?_, ?_⟩ <;> rfl

theorem channels_band7 (j : Int) (h : j / 32 = 7) :
    palette_red j = 255 ∧ palette_green j = 255 ∧ palette_blue j = 224 + j % 32 := by
  unfold palette_red palette_green palette_blue palette_channels
  rw [h]
  simp only [shl1_eq, shl2_eq, shl3_eq]
  refine ⟨?_, ?_, ?_⟩ <;> rfl

/-! ## Rows above an extinguished row -/

/-- Once a row of the final heat field is all zero, no row above it is computed. -/
theorem not_computed_above (pal : Mem) (rng : Nat → Nat) (fd fb : Mem) (y : Nat) (hy : y < 64)
    (h : ∀ x : Nat, x < 64 → (render_fire pal rng fd fb).fire_data (cell y x) = 0) :
    ∀ d : Nat, d < y → ¬ row_computed pal rng fd fb (y - 1 - d) := by
  intro d
  induction d with
  | zero =>
    intro hd
    rw [row_computed_succ pal rng fd fb (y - 1 - 0) (by omega), not_not]
    have e : y - 1 - 0 + 1 = y := by omega
    rw [e]
    exact h
  | succ d ih =>
    intro hd
    have hc := ih (by omega)
    rw [row_computed_succ pal rng fd fb (y - 1 - (d + 1)) (by omega), not_not]
    have e : y - 1 - (d + 1) + 1 = y - 1 - d := by omega
    rw [e]
    intro x hx
    exact (render_grid_cleared pal rng fd fb (y - 1 - d) (by omega) hc x hx).1

/-! ## The random words of a call -/

theorem iterate_rng_reads (f : Fire → Fire) (hf : ∀ s, (f s).rng_reads = s.rng_reads) (n : Nat)
    (s : Fire) : (f^[n] s).rng_reads = s.rng_reads := by
  induction n with
  | zero => rfl
  | succ n ih => rw [Function.iterate_succ_apply' f n, hf, ih]

theorem draw_row_rng_reads (pal : Mem) (s : Fire) : (draw_row pal s).rng_reads = s.rng_reads := by
  have e : draw_row pal s = last_column pal ((middle_column pal)^[FB_W - 2]
      (first_column pal { s with not_done := 0 })) := rfl
  have l : ∀ t, (last_column pal t).rng_reads = t.rng_reads := fun _ => rfl
  have m : ∀ t, (middle_column pal t).rng_reads = t.rng_reads := fun _ => rfl
  have f : ∀ t, (first_column pal t).rng_reads = t.rng_reads := fun _ => rfl
  rw [e, l, iterate_rng_reads (middle_column pal) m, f]

theorem clear_row_rng_reads (s : Fire) : (clear_row s).rng_reads = s.rng_reads := by
  have c : ∀ t, (clear_cell t).rng_reads = t.rng_reads := fun _ => rfl
  unfold clear_row
  rw [iterate_rng_reads clear_cell c]

theorem row_iter_rng_reads (pal : Mem) (s : Fire) : (row_iter pal s).rng_reads = s.rng_reads := by
  by_cases h : s.not_done = 0
  · rw [row_iter_of_eq pal s h, clear_row_rng_reads]
  · rw [row_iter_of_ne pal s h, draw_row_rng_reads]

/-- One call of `render_fire` reads the random register four times. -/
theorem render_fire_rng_reads (pal : Mem) (rng : Nat → Nat) (fd fb : Mem) :
    (render_fire pal rng fd fb).rng_reads = 4 := by
  rw [render_fire_def, iterate_rng_reads _ (row_iter_rng_reads pal)]
  exact (draw_init_seed rng fd fb).2.2.2.2.1

/-- The bits of `column_bits`: bit `j` is bit `2 * (x % 16) + j` of the word, for `j < 2`. -/
theorem column_bits_testBit (rng : Nat → Nat) (x j : Nat) :
    (column_bits rng x).testBit j =
      (decide (j < 2) && (rng (x / 16)).testBit (2 * (x % 16) + j)) := by
  unfold column_bits
  have e : (3 : Nat) = 2 ^ 2 - 1 := rfl
  rw [e, Nat.testBit_and, Nat.testBit_two_pow_sub_one, Nat.testBit_shiftRight,
    Nat.testBit_mod_two_pow, Bool.and_comm]
  by_cases hj : j < 2
  · have h32 : 2 * (x % 16) + j < 32 := by omega
    simp [hj, h32]
  · simp [hj]

theorem column_bits_eq_zero (rng : Nat → Nat) (x : Nat) :
    column_bits rng x = 0 ↔
      ((rng (x / 16)).testBit (2 * (x % 16)) = false ∧
        (rng (x / 16)).testBit (2 * (x % 16) + 1) = false) := by
  constructor
  · intro h
    have h0 := column_bits_testBit rng x 0
    have h1 := column_bits_testBit rng x 1
    rw [h] at h0 h1
    simp at h0 h1
    exact ⟨h0, h1⟩
  · rintro ⟨h0, h1⟩
    apply Nat.eq_of_testBit_eq
    intro j
    rw [column_bits_testBit, Nat.zero_testBit]
    rcases j with _ | _ | j
    · simp [h0]
    · simp [h1]
    · simp

/-! ## The control word -/

theorem HUB75_CTL_FB_ADDR_eq (a : Nat) : HUB75_CTL_FB_ADDR a = a % 2 ^ 32 / 2 % 2 ^ 24 := by
  unfold HUB75_CTL_FB_ADDR
  have e : (1 <<< 24 : Nat) - 1 = 2 ^ 24 - 1 := rfl
  rw [e, Nat.and_pow_two_sub_one_eq_mod, Nat.shiftRight_eq_div_pow]

/-- The fields of the control word do not overlap: the bitwise or is a sum. -/
theorem hub75_ctl_eq (n a : Nat) (hn : n < 4) :
    hub75_ctl n a = 2 ^ 31 + n * 2 ^ 28 + a % 2 ^ 32 / 2 % 2 ^ 24 := by
  unfold hub75_ctl HUB75_CTL_SCAN_ENA HUB75_CTL_FB HUB75_CTL_BCM_LSB_LEN
  rw [HUB75_CTL_FB_ADDR_eq]
  have hf : a % 2 ^ 32 / 2 % 2 ^ 24 < 2 ^ 24 := Nat.mod_lt _ (by decide)
  generalize a % 2 ^ 32 / 2 % 2 ^ 24 = f at hf
  have e1 : (1 <<< 31 : Nat) = 2 ^ 31 * 1 := rfl
  have e2 : n <<< 28 = n * 2 ^ 28 := Nat.shiftLeft_eq n 28
  have e3 : (0 <<< 24 : Nat) = 0 := rfl
  rw [e1, e2, e3, Nat.or_zero]
  have h1 : n * 2 ^ 28 < 2 ^ 31 := by omega
  rw [← Nat.mul_add_lt_is_or h1]
  have e4 : 2 ^ 31 * 1 + n * 2 ^ 28 = 2 ^ 24 * (128 + n * 16) := by omega
  rw [e4, ← Nat.mul_add_lt_is_or hf]
  omega

/-! ## The aligned allocator -/

/-- Clearing the low `k` bits of a 32-bit value with the mask `~(2 ^ k - 1)`. -/
theorem and_not_low (x k : Nat) (hx : x < 2 ^ 32) (hk : k ≤ 32) :
    x &&& (2 ^ 32 - 1 - (2 ^ k - 1)) = x / 2 ^ k * 2 ^ k := by
  have hpos : 0 < 2 ^ k := Nat.two_pow_pos k
  have hle : 2 ^ k ≤ 2 ^ 32 := Nat.pow_le_pow_right (by decide) hk
  have e : 2 ^ 32 - 1 - (2 ^ k - 1) = 2 ^ k * (2 ^ (32 - k) - 1) := by
    have e2 : 2 ^ k * 2 ^ (32 - k) = 2 ^ 32 := by
      rw [← Nat.pow_add]; congr 1; omega
    rw [Nat.mul_sub, e2, Nat.mul_one]
    omega
  apply Nat.eq_of_testBit_eq
  intro j
  rw [e, Nat.testBit_and, Nat.testBit_mul_pow_two, Nat.testBit_two_pow_sub_one,
    Nat.mul_comm, Nat.testBit_mul_pow_two, ← Nat.shiftRight_eq_div_pow,
    Nat.testBit_shiftRight]
  by_cases hj : k ≤ j
  · have e3 : k + (j - k) = j := by omega
    rw [e3]
    by_cases hj2 : j < 32
    · have : j - k < 32 - k := by omega
      simp [hj, this]
    · have hlt : x < 2 ^ j := lt_of_lt_of_le hx (Nat.pow_le_pow_right (by decide) (by omega))
      rw [Nat.testBit_eq_false_of_lt hlt]
      simp
  · simp [hj]

/-- The result of `calloc_aligned` when `malloc` succeeds, for a power-of-two `align` and
without overflow: the pointer is the block address rounded up to a multiple of `align`, and
the memory is the one left by `memset`. -/
theorem calloc_aligned_eq (malloc : Nat → Nat) (mem : Mem) (nmemb size align k : Nat)
    (hal : align = 2 ^ k) (ht : nmemb * size + align < 2 ^ 32)
    (hm : malloc (nmemb * size + align) ≠ 0)
    (hblk : malloc (nmemb * size + align) + (nmemb * size + align) ≤ 2 ^ 32) :
    calloc_aligned malloc mem nmemb size align =
      ((malloc (nmemb * size + align) + align - 1) / align * align,
        memset mem (malloc (nmemb * size + align) : Nat) 0 (nmemb * size + align)) := by
  have hpos : 0 < align := by rw [hal]; exact Nat.two_pow_pos k
  have hk : k ≤ 32 := by
    by_contra hc
    have : 2 ^ 33 ≤ 2 ^ k := Nat.pow_le_pow_right (by decide) (by omega)
    omega
  unfold calloc_aligned
  simp only []
  rw [Nat.mod_eq_of_lt ht]
  generalize malloc (nmemb * size + align) = m at hm hblk
  have e0 : m % 2 ^ 32 = m := Nat.mod_eq_of_lt (by omega)
  have e1 : ((m + align) % 2 ^ 32 + (2 ^ 32 - 1)) % 2 ^ 32 = m + align - 1 := by omega
  have e2 : 2 ^ 32 - 1 - (align % 2 ^ 32 + (2 ^ 32 - 1)) % 2 ^ 32 = 2 ^ 32 - 1 - (align - 1) := by
    omega
  rw [e0, if_neg hm, e1, e2]
  have e3 : m + align - 1 < 2 ^ 32 := by omega
  rw [hal] at e3 ⊢
  rw [and_not_low _ k e3 hk]

/-! ## The frame buffers of the pool -/

theorem fb_offset_eq (n : Nat) : fb_offset n = n * 4096 := by
  unfold fb_offset FB_H
  omega

theorem and_three (n : Nat) : n &&& 3 = n % 4 := by
  have e : (3 : Nat) = 2 ^ 2 - 1 := rfl
  rw [e, Nat.and_pow_two_sub_one_eq_mod]

/-- The frame-buffer writes of a call, by index: exactly the indices `0 .. 4095`. -/
theorem render_fire_fb_writes (pal : Mem) (rng : Nat → Nat) (fd fb : Mem) (i : Int) :
    Access.fb_wr i ∈ (render_fire pal rng fd fb).log ↔ (0 ≤ i ∧ i < 4096) := by
  obtain ⟨l1, l2⟩ := render_fire_log pal rng fd fb
  constructor
  · intro h
    rcases l1 _ h with hb | hb
    · exact hb
    · exact absurd hb (by simp)
  · rintro ⟨h0, h1⟩
    have h := (l2 (i.toNat / 64) (i.toNat % 64) (by omega) (by omega)).2
    have e : cell (i.toNat / 64) (i.toNat % 64) = i := by rw [cell_eq]; omega
    rw [e] at h
    exact h

/-! ## The main loop -/

theorem frame_fb_n (r : Nat → Nat) (s : Main) : (frame r s).fb_n = (s.fb_n + 1) &&& 3 := rfl

theorem frame_pool (r : Nat → Nat) (s : Main) :
    (frame r s).pool = pool_after ((s.fb_n + 1) &&& 3)
      (render_frame s.fire_pal (fun k => r (s.rng_used + k)) s.fire_data s.pool
        ((s.fb_n + 1) &&& 3)) := by
  unfold frame
  simp only []

theorem frame_hub75_mem (r : Nat → Nat) (s : Main) : (frame r s).hub75_mem = s.hub75_mem := rfl

theorem frame_run (r : Nat → Nat) (s : Main) : (frame r s).run = s.run := rfl

theorem frame_events (r : Nat → Nat) (s : Main) :
    (frame r s).events = s.events ++
      [Event.render ((s.fb_n + 1) &&& 3)
          ((s.hub75_mem + 2 * fb_offset ((s.fb_n + 1) &&& 3)) % 2 ^ 32),
        Event.flush ((s.hub75_mem + 2 * fb_offset ((s.fb_n + 1) &&& 3)) % 2 ^ 32)
          (((s.hub75_mem + 2 * fb_offset ((s.fb_n + 1) &&& 3)) % 2 ^ 32 + 2 * (FB_W * FB_H))
            % 2 ^ 32),
        Event.hub75 (hub75_ctl ((s.fb_n + 1) &&& 3) s.hub75_mem)] := by
  unfold frame
  simp only []

theorem rendered_append (a b : List Event) : rendered (a ++ b) = rendered a ++ rendered b :=
  List.filterMap_append _ _ _

theorem published_append (a b : List Event) : published (a ++ b) = published a ++ published b :=
  List.filterMap_append _ _ _

theorem hub75_ctl_fields (n a : Nat) (hn : n < 4) :
    ctl_fb (hub75_ctl n a) = n ∧ ctl_addr (hub75_ctl n a) = a % 2 ^ 32 / 2 % 2 ^ 24 := by
  have h := hub75_ctl_eq n a hn
  have hf : a % 2 ^ 32 / 2 % 2 ^ 24 < 2 ^ 24 := Nat.mod_lt _ (by decide)
  generalize a % 2 ^ 32 / 2 % 2 ^ 24 = f at h hf
  unfold ctl_fb ctl_addr
  omega

/-- A rendering iteration takes the invariant from `m` frames to `m + 1`. -/
theorem frame_inv (rng : Nat → Nat) (h : Nat) (s : Main) (m : Nat) (hs : TraceInv h s m) :
    TraceInv h (frame rng s) (m + 1) := by
  obtain ⟨h1, h2, h3, h4, h5, h6, h7, h8⟩ := hs
  have hn : (s.fb_n + 1) &&& 3 = target m := by
    rw [and_three, h3]; unfold target; omega
  have ht : target m < 4 := by unfold target; omega
  have hr : rendered (frame rng s).events = rendered s.events ++ [target m] := by
    rw [frame_events, rendered_append, hn]; rfl
  have hp : published (frame rng s).events =
      published s.events ++ [hub75_ctl (target m) h] := by
    rw [frame_events, published_append, hn, h4]; rfl
  obtain ⟨f1, f2⟩ := hub75_ctl_fields (target m) h ht
  refine ⟨?_, ?_, ?_, ?_, ?_, ?_, ?_, ?_⟩
  · rw [hr, h1, List.range_succ, List.map_append]; rfl
  · rw [hp, hr, List.map_append, h2]
    show _ ++ [ctl_fb (hub75_ctl (target m) h)] = _
    rw [f1]
  · rw [frame_fb_n, hn]; unfold target; omega
  · rw [frame_hub75_mem, h4]
  · intro w hw
    rw [hp, List.mem_append] at hw
    rcases hw with hw | hw
    · exact h5 w hw
    · rw [List.mem_singleton] at hw
      rw [hw, f2]
  · intro w hw
    rw [hp, List.getLast?_append, List.getLast?_singleton] at hw
    simp only [Option.or_some, Option.some.injEq] at hw
    rw [← hw, f1, frame_fb_n, hn]
  · intro n b hb
    rw [frame_events, List.mem_append] at hb
    rcases hb with hb | hb
    · exact h7 n b hb
    · simp only [List.mem_cons, Event.render.injEq, List.mem_singleton, reduceCtorEq,
        or_false, List.not_mem_nil] at hb
      obtain ⟨e1, e2⟩ := hb
      rw [e1, e2, h4, hn]
      exact ⟨rfl, ht⟩
  · rw [frame_events]
    exact List.mem_append_left _ h8

theorem main_iter_eq (rng : Nat → Nat) (b : Bool) (s : Main) :
    main_iter rng b s =
      if (if b then { s with run := !s.run, events := s.events ++ [Event.wait_release] }
          else s).run
      then frame rng
        (if b then { s with run := !s.run, events := s.events ++ [Event.wait_release] } else s)
      else (if b then { s with run := !s.run, events := s.events ++ [Event.wait_release] }
        else s) := rfl

/-- Pressing button B keeps the invariant. -/
theorem toggle_inv (h : Nat) (s : Main) (m : Nat) (hs : TraceInv h s m) :
    TraceInv h { s with run := !s.run, events := s.events ++ [Event.wait_release] } m := by
  obtain ⟨h1, h2, h3, h4, h5, h6, h7, h8⟩ := hs
  have hr : rendered (s.events ++ [Event.wait_release]) = rendered s.events := by
    rw [rendered_append]; exact List.append_nil _
  have hp : published (s.events ++ [Event.wait_release]) = published s.events := by
    rw [published_append]; exact List.append_nil _
  refine ⟨?_, ?_, h3, h4, ?_, ?_, ?_, ?_⟩
  · show rendered (s.events ++ [Event.wait_release]) = _
    rw [hr, h1]
  · show (published (s.events ++ [Event.wait_release])).map ctl_fb =
      rendered (s.events ++ [Event.wait_release])
    rw [hr, hp, h2]
  · show ∀ w ∈ published (s.events ++ [Event.wait_release]), _
    rw [hp]; exact h5
  · show ∀ w : Nat, (published (s.events ++ [Event.wait_release])).getLast? = some w → _
    rw [hp]; exact h6
  · intro n b hb
    have hb2 : Event.render n b ∈ s.events ++ [Event.wait_release] := hb
    rw [List.mem_append] at hb2
    rcases hb2 with hb2 | hb2
    · exact h7 n b hb2
    · simp at hb2
  · exact List.mem_append_left _ h8

/-- One iteration of the main loop keeps the invariant, with the same count of frames or one
more. -/
theorem main_iter_inv (rng : Nat → Nat) (h : Nat) (b : Bool) (s : Main) (m : Nat)
    (hs : TraceInv h s m) :
    TraceInv h (main_iter rng b s) m ∨ TraceInv h (main_iter rng b s) (m + 1) := by
  rw [main_iter_eq]
  have ht : TraceInv h
      (if b then { s with run := !s.run, events := s.events ++ [Event.wait_release] } else s)
      m := by
    cases b
    · exact hs
    · exact toggle_inv h s m hs
  generalize (if b then { s with run := !s.run, events := s.events ++ [Event.wait_release] }
    else s) = t at ht
  cases hr : t.run
  · left; simpa using ht
  · right; simpa using frame_inv rng h t m ht

theorem main_iter_running (rng : Nat → Nat) (s : Main) (hr : s.run = true) :
    main_iter rng false s = frame rng s := by
  rw [main_iter_eq]
  simp [hr]

theorem main_loop_nil (rng : Nat → Nat) (s : Main) : main_loop rng [] s = s := rfl

theorem main_loop_cons (rng : Nat → Nat) (b : Bool) (btns : List Bool) (s : Main) :
    main_loop rng (b :: btns) s = main_loop rng btns (main_iter rng b s) := rfl

/-- The main loop keeps the invariant. -/
theorem main_loop_inv (rng : Nat → Nat) (h : Nat) (btns : List Bool) :
    ∀ (s : Main) (m : Nat), TraceInv h s m →
      ∃ m2 : Nat, m ≤ m2 ∧ TraceInv h (main_loop rng btns s) m2 := by
  induction btns with
  | nil => intro s m hs; exact ⟨m, le_refl m, hs⟩
  | cons b btns ih =>
    intro s m hs
    rw [main_loop_cons]
    rcases main_iter_inv rng h b s m hs with h1 | h1
    · exact ih _ m h1
    · obtain ⟨m2, hm, h2⟩ := ih _ (m + 1) h1
      exact ⟨m2, by omega, h2⟩

/-- With `run` set and button B not pressed, every iteration renders a frame. -/
theorem main_loop_running (rng : Nat → Nat) (h : Nat) (n : Nat) :
    ∀ (s : Main) (m : Nat), TraceInv h s m → s.run = true →
      TraceInv h (main_loop rng (List.replicate n false) s) (m + n) := by
  induction n with
  | zero => intro s m hs _; exact hs
  | succ n ih =>
    intro s m hs hr
    rw [List.replicate_succ, main_loop_cons, main_iter_running rng s hr]
    have h2 := ih (frame rng s) (m + 1) (frame_inv rng h s m hs) (by rw [frame_run, hr])
    have e : m + 1 + n = m + (n + 1) := by omega
    rw [e] at h2
    exact h2

theorem main_events (malloc : Nat → Nat) (mem : Mem) (run0 : Bool) (pal0 fd0 : Mem)
    (rng : Nat → Nat) (btns : List Bool) :
    (main malloc mem run0 pal0 fd0 rng btns).events =
      (main_loop rng btns (main_start malloc mem run0 pal0 fd0)).events ++ [Event.hub75 0] :=
  rfl

theorem main_hub75_mem (malloc : Nat → Nat) (mem : Mem) (run0 : Bool) (pal0 fd0 : Mem)
    (rng : Nat → Nat) (btns : List Bool) :
    (main malloc mem run0 pal0 fd0 rng btns).hub75_mem =
      (main_loop rng btns (main_start malloc mem run0 pal0 fd0)).hub75_mem := rfl

theorem calloc_aligned_fail (mem : Mem) (nmemb size align : Nat) :
    calloc_aligned malloc_fail mem nmemb size align = (0, mem) := by
  unfold calloc_aligned malloc_fail
  simp

theorem main_start_events (malloc : Nat → Nat) (mem : Mem) (run0 : Bool) (pal0 fd0 : Mem) :
    (main_start malloc mem run0 pal0 fd0).events =
      [Event.greeting, Event.wait_release,
        Event.flush (calloc_aligned malloc mem (FB_N * FB_H * FB_W) 2 128).1
          (((calloc_aligned malloc mem (FB_N * FB_H * FB_W) 2 128).1 +
            2 * (FB_N * FB_H * FB_W)) % 2 ^ 32)] := rfl

/-- The invariant holds when the main loop is entered, with no frame rendered. -/
theorem main_start_inv (malloc : Nat → Nat) (mem : Mem) (run0 : Bool) (pal0 fd0 : Mem) :
    TraceInv (calloc_aligned malloc mem (FB_N * FB_H * FB_W) 2 128).1
      (main_start malloc mem run0 pal0 fd0) 0 := by
  unfold TraceInv
  rw [main_start_events]
  refine ⟨rfl, rfl, rfl, rfl, ?_, ?_, ?_, ?_⟩
  · intro w hw
    exact absurd hw (by simp [published])
  · intro w hw
    exact absurd hw (by simp [published])
  · intro n b hb
    simp at hb
  · simp

/-- The state when the main loop is left, for any inputs. -/
theorem main_loop_trace (malloc : Nat → Nat) (mem : Mem) (run0 : Bool) (pal0 fd0 : Mem)
    (rng : Nat → Nat) (btns : List Bool) :
    ∃ m : Nat, TraceInv (calloc_aligned malloc mem (FB_N * FB_H * FB_W) 2 128).1
      (main_loop rng btns (main_start malloc mem run0 pal0 fd0)) m := by
  obtain ⟨m, -, h⟩ := main_loop_inv rng _ btns _ 0 (main_start_inv malloc mem run0 pal0 fd0)
  exact ⟨m, h⟩

/-! ## The sequence of buffer indices -/

theorem targets_getElem (m k a : Nat) :
    ((List.range m).map target)[k]? = some a ↔ (k < m ∧ a = target k) := by
  rw [List.getElem?_map]
  by_cases hk : k < m
  · rw [List.getElem?_range hk]
    simp [hk, eq_comm]
  · rw [List.getElem?_eq_none (by simp; omega)]
    simp [hk]

theorem targets_length (m : Nat) : ((List.range m).map target).length = m := by simp

/-- Sixteen consecutive frames: each index is the target four times. -/
theorem targets_window (m j n : Nat) (hj : j + 16 ≤ m) (hn : n < 4) :
    ((((List.range m).map target).drop j).take 16).count n = 4 := by
  have hw : (((List.range m).map target).drop j).take 16 =
      (List.range 16).map (fun i => (j % 4 + i + 1) % 4) := by
    apply List.ext_getElem?
    intro i
    by_cases hi : i < 16
    · rw [List.getElem?_take_of_lt hi, List.getElem?_drop, List.getElem?_map,
        List.getElem?_map, List.getElem?_range (by omega), List.getElem?_range hi]
      show some (target (j + i)) = some ((j % 4 + i + 1) % 4)
      unfold target
      congr 1
      omega
    · rw [List.getElem?_eq_none (by simp; omega), List.getElem?_eq_none (by simp; omega)]
  rw [hw]
  have h4 : j % 4 = 0 ∨ j % 4 = 1 ∨ j % 4 = 2 ∨ j % 4 = 3 := by omega
  have hn4 : n = 0 ∨ n = 1 ∨ n = 2 ∨ n = 3 := by omega
  rcases h4 with h | h | h | h <;> rw [h] <;> rcases hn4 with q | q | q | q <;> rw [q] <;> decide

/-! # The claims -/

/-! ## C1: bounds of the array accesses -/

/-- C1 (evaluation of the code). For every heat field, palette, frame buffer and random
stream, one call of `render_fire` reads `fire_data[FB_W * (FB_H + 1)]`, the index just past
the last cell of the array, which is out of bounds: the first cell processed is at index
`FB_W * FB_H - 1` and its block reads `dp[FB_W + 1]`.  Every other access of the call is in
bounds. -/
theorem render_fire_reads_past_end (pal : Mem) (rng : Nat → Nat) (fd fb : Mem) :
    Access.fire_data_rd ((FB_W * (FB_H + 1) : Nat) : Int) ∈ (render_fire pal rng fd fb).log ∧
    ¬ in_bounds (Access.fire_data_rd ((FB_W * (FB_H + 1) : Nat) : Int)) ∧
    (∀ a ∈ (render_fire pal rng fd fb).log,
      in_bounds a ∨ a = Access.fire_data_rd ((FB_W * (FB_H + 1) : Nat) : Int)) := by
  have e : ((FB_W * (FB_H + 1) : Nat) : Int) = 4160 := by simp [FB_W, FB_H]
  refine ⟨?_, ?_, ?_⟩
  · rw [e, render_fire_def]
    have h := first_row_log pal rng fd fb
    rw [draw_state_def] at h
    have e2 : (row_iter pal)^[64] (draw_init (seed rng fd fb)) =
        (row_iter pal)^[63] ((row_iter pal)^[1] (draw_init (seed rng fd fb))) := by
      rw [← Function.iterate_add_apply]
    rw [e2]
    exact iterate_logMono _ (row_iter_logMono pal) 63 _ _ h
  · intro h
    have h2 : ((FB_W * (FB_H + 1) : Nat) : Int) < ((FB_W * (FB_H + 1) : Nat) : Int) := h.2
    omega
  · rw [e]
    exact (render_fire_log pal rng fd fb).1

/-! ## C2: the early exit -/

/-- C2 (amended). `render_fire` produces exactly the same heat field and the same frame buffer
as the variant that applies the per-cell update rule to every row with no early exit, for
every palette built by `create_fire_palette`, every random stream and every heat field in
which each cell of a row that `render_fire` clears held `0` before the call. -/
theorem early_exit_equivalence (pal0 : Mem) (rng : Nat → Nat) (fd fb : Mem)
    (hcold : ∀ y : Nat, y < FB_H → ¬ row_computed (create_fire_palette pal0) rng fd fb y →
      ∀ x : Nat, x < FB_W → rd8 fd (cell y x) = 0) :
    (render_fire (create_fire_palette pal0) rng fd fb).fire_data =
      (render_fire_full (create_fire_palette pal0) rng fd fb).fire_data ∧
    (render_fire (create_fire_palette pal0) rng fd fb).fb =
      (render_fire_full (create_fire_palette pal0) rng fd fb).fb := by
  have hp : rd16 (create_fire_palette pal0) 0 = 0 := by
    unfold rd16; rw [palette_entry_0]; decide
  have h := (agree_states (create_fire_palette pal0) hp rng fd fb (by
    intro k hk hnd j hj
    have hy : 63 - k < FB_H := by simp only [FB_H]; omega
    have hx : 63 - j < FB_W := by simp only [FB_W]; omega
    have hc : ¬ row_computed (create_fire_palette pal0) rng fd fb (63 - k) := by
      rw [row_computed_iff, not_not]
      have e : 63 - (63 - k) = k := by omega
      rw [e]; exact hnd
    have := hcold (63 - k) hy hc (63 - j) hx
    have e : cell (63 - k) (63 - j) = 4095 - 64 * (k : Int) - j := by rw [cell_eq]; omega
    rw [e] at this
    exact this) 64 (by omega)).1
  exact ⟨h.1, h.2.1⟩

/-- C2 (witness). The all-zero heat field with every ignition cell lit: every row that is
cleared held zeros, and the two variants agree. -/
theorem early_exit_equivalence_witness :
    (∀ y : Nat, y < FB_H → ¬ row_computed (create_fire_palette zero_mem) (rng_const 0) zero_mem
        zero_mem y → ∀ x : Nat, x < FB_W → rd8 zero_mem (cell y x) = 0) ∧
    (render_fire (create_fire_palette zero_mem) (rng_const 0) zero_mem zero_mem).fire_data =
      (render_fire_full (create_fire_palette zero_mem) (rng_const 0) zero_mem
        zero_mem).fire_data ∧
    (render_fire (create_fire_palette zero_mem) (rng_const 0) zero_mem zero_mem).fb =
      (render_fire_full (create_fire_palette zero_mem) (rng_const 0) zero_mem zero_mem).fb :=
  ⟨fun _ _ _ _ _ => rfl,
    early_exit_equivalence zero_mem (rng_const 0) zero_mem zero_mem (fun _ _ _ _ _ => rfl)⟩

/-- C2 (counterexample). The heat field is `0` except for one cell of value `8` in row 62,
column 5 (the byte after the array is `0` too), and the random words seed an all-zero
ignition row.  `render_fire` computes row 63 as all zero and clears row 62, so the cell ends
at `0`; the variant without early exit applies the middle rule to it and stores `1`.  The two
heat fields differ. -/
theorem early_exit_counterexample :
    (render_fire (create_fire_palette zero_mem) (rng_const 0xFFFFFFFF) spark_mem
      zero_mem).fire_data (cell 62 5) = 0 ∧
    (render_fire_full (create_fire_palette zero_mem) (rng_const 0xFFFFFFFF) spark_mem
      zero_mem).fire_data (cell 62 5) = 1 ∧
    (render_fire (create_fire_palette zero_mem) (rng_const 0xFFFFFFFF) spark_mem
      zero_mem).fire_data ≠
    (render_fire_full (create_fire_palette zero_mem) (rng_const 0xFFFFFFFF) spark_mem
      zero_mem).fire_data := by
  have hs : ∀ x : Nat, x < 64 → seed_value (column_bits (rng_const 0xFFFFFFFF) x) = 0 := by
    decide
  -- `render_fire`: row 63 is computed and is all zero
  obtain ⟨i1, i2, -⟩ := render_ignition (create_fire_palette zero_mem) (rng_const 0xFFFFFFFF)
    spark_mem zero_mem
  have ign : ∀ x : Nat, x < 64 → rd8 (render_fire (create_fire_palette zero_mem)
      (rng_const 0xFFFFFFFF) spark_mem zero_mem).fire_data (cell 64 x) = 0 := by
    intro x hx
    rw [rd8_val (i1 x hx), hs x hx]; rfl
  obtain ⟨g1, g2, g3, -⟩ := render_grid (create_fire_palette zero_mem) (rng_const 0xFFFFFFFF)
    spark_mem zero_mem 63 (by decide) (row_computed_bottom _ _ _ _)
  simp only [Nat.reduceAdd] at g1 g2 g3
  have own : ∀ x : Nat, rd8 spark_mem (cell 63 x) = 0 := by
    intro x
    apply spark_mem_other
    simp only [cell_eq]; push_cast; omega
  have r63 : ∀ x : Nat, x < 64 → (render_fire (create_fire_palette zero_mem)
      (rng_const 0xFFFFFFFF) spark_mem zero_mem).fire_data (cell 63 x) = 0 := by
    have top : (render_fire (create_fire_palette zero_mem)
        (rng_const 0xFFFFFFFF) spark_mem zero_mem).fire_data (cell 63 63) = 0 := by
      rw [g1, own, ign 63 (by decide), show cell 65 0 = 4160 by decide,
        rd8_val (i2 4160 (by decide))]
      decide
    intro x hx
    by_cases c1 : x = 63
    · subst c1; exact top
    · by_cases c0 : x = 0
      · subst c0
        rw [g3, own, ign 0 (by decide), rd8_val top]; decide
      · rw [g2 x (by omega) (by omega), own, ign x hx, ign (x - 1) (by omega),
          ign (x + 1) (by omega)]
        decide
  have hc : ¬ row_computed (create_fire_palette zero_mem) (rng_const 0xFFFFFFFF) spark_mem
      zero_mem 62 := by
    rw [row_computed_succ _ _ _ _ 62 (by decide), not_not]
    simp only [Nat.reduceAdd]
    exact r63
  have v1 := (render_grid_cleared _ _ _ _ 62 (by decide) hc 5 (by decide)).1
  -- the variant: row 63 is the same, row 62 is computed
  obtain ⟨j1, -, -⟩ := full_ignition (create_fire_palette zero_mem) (rng_const 0xFFFFFFFF)
    spark_mem zero_mem
  have ign' : ∀ x : Nat, x < 64 → rd8 (render_fire_full (create_fire_palette zero_mem)
      (rng_const 0xFFFFFFFF) spark_mem zero_mem).fire_data (cell 64 x) = 0 := by
    intro x hx
    rw [rd8_val (j1 x hx), hs x hx]; rfl
  obtain ⟨-, k2, -, -⟩ := full_grid (create_fire_palette zero_mem) (rng_const 0xFFFFFFFF)
    spark_mem zero_mem 63 (by decide)
  simp only [Nat.reduceAdd] at k2
  have f63 : ∀ x : Nat, 0 < x → x < 63 → rd8 (render_fire_full (create_fire_palette zero_mem)
      (rng_const 0xFFFFFFFF) spark_mem zero_mem).fire_data (cell 63 x) = 0 := by
    intro x h0 h1
    rw [rd8_val (k2 x h0 h1), own, ign' x (by omega), ign' (x - 1) (by omega),
      ign' (x + 1) (by omega)]
    decide
  obtain ⟨-, m2, -, -⟩ := full_grid (create_fire_palette zero_mem) (rng_const 0xFFFFFFFF)
    spark_mem zero_mem 62 (by decide)
  have v2 := m2 5 (by decide) (by decide)
  simp only [Nat.reduceAdd, Nat.reduceSub] at v2
  rw [f63 5 (by decide) (by decide), f63 4 (by decide) (by decide),
    f63 6 (by decide) (by decide)] at v2
  have own5 : rd8 spark_mem (cell 62 5) = 8 := by decide
  rw [own5] at v2
  have v2' := v2.trans (show middle_rule 8 0 0 0 = 1 by decide)
  refine ⟨v1, v2', ?_⟩
  intro h
  have := congrFun h (cell 62 5)
  rw [v1, v2'] at this
  exact absurd this (by decide)

/-! ## C3: the ignition row -/

/-- C3 (amended). For every column `x` of the ignition row, the reseeded cell is a function of
that column's two random bits: it is `255` when both bits are `0` and `0` for the other three
values, so exactly one of the four values ignites the cell and exactly three clear it; after
the reseed every ignition-row cell is either `0` or `255`. -/
theorem ignition_rule (pal : Mem) (rng : Nat → Nat) (fd fb : Mem) (x : Nat) (hx : x < FB_W) :
    column_bits rng x < 4 ∧
    (render_fire pal rng fd fb).fire_data (cell FB_H x) =
      (if column_bits rng x = 0 then 255 else 0) ∧
    ((render_fire pal rng fd fb).fire_data (cell FB_H x) = 0 ∨
      (render_fire pal rng fd fb).fire_data (cell FB_H x) = 255) ∧
    (seed_value 0 = 255 ∧ seed_value 1 = 0 ∧ seed_value 2 = 0 ∧ seed_value 3 = 0) := by
  have h := (render_ignition pal rng fd fb).1 x hx
  rw [seed_value_bits] at h
  have eH : FB_H = 64 := rfl
  rw [eH]
  refine ⟨column_bits_lt rng x, h, ?_, by decide⟩
  rw [h]
  split_ifs
  · exact Or.inr rfl
  · exact Or.inl rfl

/-- C3 (witness). Column `5` with the random register returning `0`. -/
theorem ignition_rule_witness :
    (5 : Nat) < FB_W ∧
    column_bits (rng_const 0) 5 < 4 ∧
    (render_fire zero_mem (rng_const 0) zero_mem zero_mem).fire_data (cell FB_H 5) =
      (if column_bits (rng_const 0) 5 = 0 then 255 else 0) :=
  ⟨by decide, (ignition_rule zero_mem (rng_const 0) zero_mem zero_mem 5 (by decide)).1,
    (ignition_rule zero_mem (rng_const 0) zero_mem zero_mem 5 (by decide)).2.1⟩

/-- C3 (counterexample). With the random register returning `1`, `2` or `3`, the two bits of
column `0` are `01`, `10`, `11` and the cell of the ignition row is set to `0` each time; only
the bits `00` set it to `255`.  So one value of four ignites the cell, not three. -/
theorem ignition_rule_counterexample :
    (render_fire zero_mem (rng_const 0) zero_mem zero_mem).fire_data (cell 64 0) = 255 ∧
    (render_fire zero_mem (rng_const 1) zero_mem zero_mem).fire_data (cell 64 0) = 0 ∧
    (render_fire zero_mem (rng_const 2) zero_mem zero_mem).fire_data (cell 64 0) = 0 ∧
    (render_fire zero_mem (rng_const 3) zero_mem zero_mem).fire_data (cell 64 0) = 0 := by
  refine ⟨?_, ?_, ?_, ?_⟩
  · rw [(render_ignition zero_mem (rng_const 0) zero_mem zero_mem).1 0 (by decide)]; decide
  · rw [(render_ignition zero_mem (rng_const 1) zero_mem zero_mem).1 0 (by decide)]; decide
  · rw [(render_ignition zero_mem (rng_const 2) zero_mem zero_mem).1 0 (by decide)]; decide
  · rw [(render_ignition zero_mem (rng_const 3) zero_mem zero_mem).1 0 (by decide)]; decide

/-! ## C4: the interior columns -/

/-- C4 (amended). For every body row `y` that is computed and every interior column
`0 < x < FB_W - 1`, the intermediate average is `(own + below + below-left + below-right) >> 2`
where `own` is the value the cell held before the call and the other three are the cells
`(y+1, x)`, `(y+1, x-1)`, `(y+1, x+1)` as they stand when the cell is processed (updated in
this call, or reseeded for the ignition row); every term is counted once.  The stored value
is that average after decay. -/
theorem interior_rule (pal : Mem) (rng : Nat → Nat) (fd fb : Mem) (y x : Nat)
    (hy : y < FB_H) (hx0 : 0 < x) (hx1 : x < FB_W - 1)
    (hc : row_computed pal rng fd fb y) :
    (render_fire pal rng fd fb).fire_data (cell y x) =
      decay ((rd8 fd (cell y x)
        + rd8 (render_fire pal rng fd fb).fire_data (cell (y + 1) x)
        + rd8 (render_fire pal rng fd fb).fire_data (cell (y + 1) (x - 1))
        + rd8 (render_fire pal rng fd fb).fire_data (cell (y + 1) (x + 1))) >>> (2 : Nat)) :=
  (render_grid pal rng fd fb y hy hc).2.1 x hx0 hx1

/-- C4 (witness). Row 63, column 5 of an all-zero heat field with every ignition cell lit;
the bottom row is always computed. -/
theorem interior_rule_witness :
    row_computed (create_fire_palette zero_mem) (rng_const 0) zero_mem zero_mem 63 ∧
    (render_fire (create_fire_palette zero_mem) (rng_const 0) zero_mem zero_mem).fire_data
        (cell 63 5) =
      decay ((rd8 zero_mem (cell 63 5)
        + rd8 (render_fire (create_fire_palette zero_mem) (rng_const 0) zero_mem
            zero_mem).fire_data (cell (63 + 1) 5)
        + rd8 (render_fire (create_fire_palette zero_mem) (rng_const 0) zero_mem
            zero_mem).fire_data (cell (63 + 1) (5 - 1))
        + rd8 (render_fire (create_fire_palette zero_mem) (rng_const 0) zero_mem
            zero_mem).fire_data (cell (63 + 1) (5 + 1))) >>> (2 : Nat)) :=
  ⟨row_computed_bottom _ _ _ _,
    interior_rule _ _ _ _ 63 5 (by decide) (by decide) (by decide)
      (row_computed_bottom _ _ _ _)⟩

/-- C4 (counterexample). On an all-zero heat field with every ignition cell lit, the cell in
row 63, column 5 is stored as `190`, while the rule "below counted twice, own value not an
input" gives `254`; and raising the cell's own previous value from `0` to `4` changes the
stored value to `191`. -/
theorem interior_rule_counterexample :
    (render_fire (create_fire_palette zero_mem) (rng_const 0) zero_mem zero_mem).fire_data
        (cell 63 5) = 190 ∧
    decay ((rd8 (render_fire (create_fire_palette zero_mem) (rng_const 0) zero_mem
            zero_mem).fire_data (cell 64 5)
        + rd8 (render_fire (create_fire_palette zero_mem) (rng_const 0) zero_mem
            zero_mem).fire_data (cell 64 4)
        + rd8 (render_fire (create_fire_palette zero_mem) (rng_const 0) zero_mem
            zero_mem).fire_data (cell 64 6)
        + rd8 (render_fire (create_fire_palette zero_mem) (rng_const 0) zero_mem
            zero_mem).fire_data (cell 64 5)) >>> (2 : Nat)) = 254 ∧
    (render_fire (create_fire_palette zero_mem) (rng_const 0) (wr8 zero_mem (cell 63 5) 4)
        zero_mem).fire_data (cell 63 5) = 191 := by
  have hs : ∀ x : Nat, x < 64 → seed_value (column_bits (rng_const 0) x) = 255 := by decide
  have g1 := (render_grid (create_fire_palette zero_mem) (rng_const 0) zero_mem zero_mem 63
    (by decide) (row_computed_bottom _ _ _ _)).2.1 5 (by decide) (by decide)
  have g2 := (render_grid (create_fire_palette zero_mem) (rng_const 0)
    (wr8 zero_mem (cell 63 5) 4) zero_mem 63
    (by decide) (row_computed_bottom _ _ _ _)).2.1 5 (by decide) (by decide)
  have i1 := (render_ignition (create_fire_palette zero_mem) (rng_const 0) zero_mem zero_mem).1
  have i2 := (render_ignition (create_fire_palette zero_mem) (rng_const 0)
    (wr8 zero_mem (cell 63 5) 4) zero_mem).1
  simp only [Nat.reduceAdd, Nat.reduceSub] at g1 g2
  rw [rd8_val (i1 5 (by decide)), rd8_val (i1 4 (by decide)), rd8_val (i1 6 (by decide)),
    hs 5 (by decide), hs 4 (by decide), hs 6 (by decide)] at g1
  rw [rd8_val (i2 5 (by decide)), rd8_val (i2 4 (by decide)), rd8_val (i2 6 (by decide)),
    hs 5 (by decide), hs 4 (by decide), hs 6 (by decide)] at g2
  refine ⟨g1.trans (by decide), ?_, g2.trans (by decide)⟩
  rw [rd8_val (i1 5 (by decide)), rd8_val (i1 4 (by decide)), rd8_val (i1 6 (by decide)),
    hs 5 (by decide), hs 4 (by decide), hs 6 (by decide)]
  decide

/-! ## C5: the edge columns -/

/-- C5 (amended). For every computed body row `y`, the new value of the leftmost cell and of
the rightmost cell is `decay(((own + below + t) * 85) >> 8)`: `own` is the value the cell held
before the call, `below` is the cell of row `y + 1` in the same column as it stands when the
cell is processed, and `t` is one further byte that the block reads. -/
theorem edge_columns_rule (pal : Mem) (rng : Nat → Nat) (fd fb : Mem) (y : Nat) (hy : y < FB_H)
    (hc : row_computed pal rng fd fb y) :
    (∃ t : Int, 0 ≤ t ∧ t ≤ 255 ∧
      (render_fire pal rng fd fb).fire_data (cell y 0) =
        decay (((rd8 fd (cell y 0) + rd8 (render_fire pal rng fd fb).fire_data (cell (y + 1) 0)
          + t) * 85) >>> (8 : Nat))) ∧
    (∃ t : Int, 0 ≤ t ∧ t ≤ 255 ∧
      (render_fire pal rng fd fb).fire_data (cell y (FB_W - 1)) =
        decay (((rd8 fd (cell y (FB_W - 1))
          + rd8 (render_fire pal rng fd fb).fire_data (cell (y + 1) (FB_W - 1))
          + t) * 85) >>> (8 : Nat))) := by
  obtain ⟨h1, -, h3, -⟩ := render_grid pal rng fd fb y hy hc
  have b1 := rd8_lt (render_fire pal rng fd fb).fire_data (cell y 63)
  have b2 := rd8_lt (render_fire pal rng fd fb).fire_data (cell (y + 2) 0)
  have eW : FB_W - 1 = 63 := rfl
  rw [eW]
  constructor
  · exact ⟨rd8 (render_fire pal rng fd fb).fire_data (cell y 63), rd8_nonneg _ _,
      by omega, h3⟩
  · exact ⟨rd8 (render_fire pal rng fd fb).fire_data (cell (y + 2) 0), rd8_nonneg _ _,
      by omega, h1⟩

/-- C5 (witness). The leftmost cell of row 63 of an all-zero heat field with every ignition
cell lit. -/
theorem edge_columns_rule_witness :
    (63 : Nat) < FB_H ∧
    row_computed zero_mem (rng_const 0) zero_mem zero_mem 63 ∧
    (∃ t : Int, 0 ≤ t ∧ t ≤ 255 ∧
      (render_fire zero_mem (rng_const 0) zero_mem zero_mem).fire_data (cell 63 0) =
        decay (((rd8 zero_mem (cell 63 0)
          + rd8 (render_fire zero_mem (rng_const 0) zero_mem zero_mem).fire_data
              (cell (63 + 1) 0)
          + t) * 85) >>> (8 : Nat))) :=
  ⟨by decide, row_computed_bottom _ _ _ _,
    (edge_columns_rule zero_mem (rng_const 0) zero_mem zero_mem 63 (by decide)
      (row_computed_bottom _ _ _ _)).1⟩

/-- C5 (counterexample). On an all-zero heat field (the byte after the array is `0` too) with
every ignition cell lit, the rightmost cell of row 63 is stored as `83` and the leftmost as
`111`, while the two-neighbour rule of the claim gives `168` for both. -/
theorem edge_columns_rule_counterexample :
    (render_fire zero_mem (rng_const 0) zero_mem zero_mem).fire_data (cell 63 0) = 111 ∧
    decay (((rd8 (render_fire zero_mem (rng_const 0) zero_mem zero_mem).fire_data (cell 64 0)
      + rd8 (render_fire zero_mem (rng_const 0) zero_mem zero_mem).fire_data (cell 64 1))
      * 85) >>> (8 : Nat)) = 168 ∧
    (render_fire zero_mem (rng_const 0) zero_mem zero_mem).fire_data (cell 63 63) = 83 ∧
    decay (((rd8 (render_fire zero_mem (rng_const 0) zero_mem zero_mem).fire_data (cell 64 63)
      + rd8 (render_fire zero_mem (rng_const 0) zero_mem zero_mem).fire_data (cell 64 62))
      * 85) >>> (8 : Nat)) = 168 := by
  have hs : ∀ x : Nat, x < 64 → seed_value (column_bits (rng_const 0) x) = 255 := by decide
  obtain ⟨i1, i2, -⟩ := render_ignition zero_mem (rng_const 0) zero_mem zero_mem
  obtain ⟨g1, -, g3, -⟩ := render_grid zero_mem (rng_const 0) zero_mem zero_mem 63
    (by decide) (row_computed_bottom _ _ _ _)
  have e : cell (63 + 2) 0 = 4160 := by decide
  simp only [Nat.reduceAdd] at g1 g3
  rw [show cell 65 0 = 4160 by decide, rd8_val (i1 63 (by decide)), hs 63 (by decide),
    rd8_val (i2 4160 (by decide))] at g1
  have v63 : (render_fire zero_mem (rng_const 0) zero_mem zero_mem).fire_data (cell 63 63) = 83 :=
    g1.trans (by decide)
  rw [rd8_val (i1 0 (by decide)), hs 0 (by decide), rd8_val v63] at g3
  refine ⟨g3.trans (by decide), ?_, v63, ?_⟩
  · rw [rd8_val (i1 0 (by decide)), rd8_val (i1 1 (by decide)), hs 0 (by decide),
      hs 1 (by decide)]
    decide
  · rw [rd8_val (i1 63 (by decide)), rd8_val (i1 62 (by decide)), hs 63 (by decide),
      hs 62 (by decide)]
    decide

/-! ## C6: pixels -/

/-- C6. After `create_fire_palette` and one `render_fire` call on any heat field, for every
display cell the frame buffer holds `fire_pal[v]` where `v` is the new heat value stored at
the same position, rows cleared by the early stop included (there the pixel is `0`, which is
`fire_pal[0]`).  Every one of the `FB_W * FB_H` display cells is written by the call, no
other index of the frame buffer is written, and the cells outside the display, where an
ignition row would be, are left as they were. -/
theorem pixel_coverage (pal0 : Mem) (rng : Nat → Nat) (fd fb : Mem) :
    (∀ y x : Nat, y < FB_H → x < FB_W →
      (render_fire (create_fire_palette pal0) rng fd fb).fb (cell y x) =
        rd16 (create_fire_palette pal0)
          ((render_fire (create_fire_palette pal0) rng fd fb).fire_data (cell y x))) ∧
    rd16 (create_fire_palette pal0) 0 = 0 ∧
    (∀ y x : Nat, y < FB_H → x < FB_W →
      Access.fb_wr (cell y x) ∈ (render_fire (create_fire_palette pal0) rng fd fb).log) ∧
    (∀ i : Int, Access.fb_wr i ∈ (render_fire (create_fire_palette pal0) rng fd fb).log →
      0 ≤ i ∧ i < ((FB_W * FB_H : Nat) : Int)) ∧
    (∀ i : Int, (i < 0 ∨ ((FB_W * FB_H : Nat) : Int) ≤ i) →
      (render_fire (create_fire_palette pal0) rng fd fb).fb i = fb i) := by
  have hp : rd16 (create_fire_palette pal0) 0 = 0 := by
    unfold rd16; rw [palette_entry_0]; decide
  obtain ⟨l1, l2⟩ := render_fire_log (create_fire_palette pal0) rng fd fb
  refine ⟨?_, hp, ?_, ?_, ?_⟩
  · intro y x hy hx
    by_cases hc : row_computed (create_fire_palette pal0) rng fd fb y
    · exact (render_grid _ rng fd fb y hy hc).2.2.2 x hx
    · obtain ⟨h1, h2⟩ := render_grid_cleared _ rng fd fb y hy hc x hx
      rw [h1, h2, hp]
  · intro y x hy hx
    exact (l2 y x hy hx).2
  · intro i hi
    rcases l1 _ hi with h | h
    · exact h
    · exact absurd h (by simp)
  · intro i hi
    have e : ((FB_W * FB_H : Nat) : Int) = 4096 := by simp [FB_W, FB_H]
    rw [e] at hi
    exact (render_ignition _ rng fd fb).2.2 i hi

/-- C6 (witness). The display cell of row 3, column 9. -/
theorem pixel_coverage_witness :
    (3 : Nat) < FB_H ∧ (9 : Nat) < FB_W ∧
    (render_fire (create_fire_palette zero_mem) (rng_const 0) zero_mem zero_mem).fb (cell 3 9) =
      rd16 (create_fire_palette zero_mem)
        ((render_fire (create_fire_palette zero_mem) (rng_const 0) zero_mem
          zero_mem).fire_data (cell 3 9)) :=
  ⟨by decide, by decide,
    (pixel_coverage zero_mem (rng_const 0) zero_mem zero_mem).1 3 9 (by decide) (by decide)⟩

/-! ## C7: range of the heat values -/

/-- C7. Every value that `render_fire` computes for a body cell lies in `0 .. 254`: the stored
cell is in that range and is read back unchanged as a byte, and every index used on `fire_pal`
is in that range.  So after a render no body cell equals `255`, and neither does it after the
next render, whatever the random words and the frame buffer of that next call.  (The cells of
the heat field are bytes: a read of `fire_data` always yields a value in `0 .. 255`.) -/
theorem heat_range (pal : Mem) (rng : Nat → Nat) (fd fb : Mem) (y x : Nat) (hy : y < FB_H)
    (hx : x < FB_W) :
    (0 ≤ (render_fire pal rng fd fb).fire_data (cell y x) ∧
      (render_fire pal rng fd fb).fire_data (cell y x) ≤ 254) ∧
    rd8 (render_fire pal rng fd fb).fire_data (cell y x) =
      (render_fire pal rng fd fb).fire_data (cell y x) ∧
    (∀ i : Int, Access.fire_pal_rd i ∈ (render_fire pal rng fd fb).log → 0 ≤ i ∧ i ≤ 254) ∧
    (render_fire pal rng fd fb).fire_data (cell y x) ≠ 255 ∧
    (∀ (rng2 : Nat → Nat) (fb2 : Mem),
      (render_fire pal rng2 (render_fire pal rng fd fb).fire_data fb2).fire_data (cell y x)
        ≠ 255) := by
  have h := render_bounds pal rng fd fb y x hy hx
  refine ⟨h, ?_, render_fire_palOK pal rng fd fb, by omega, ?_⟩
  · unfold rd8; omega
  · intro rng2 fb2
    have h2 := render_bounds pal rng2 (render_fire pal rng fd fb).fire_data fb2 y x hy hx
    omega

/-- C7 (witness). The cell of row 0, column 7. -/
theorem heat_range_witness :
    (0 : Nat) < FB_H ∧ (7 : Nat) < FB_W ∧
    (0 ≤ (render_fire zero_mem (rng_const 0) zero_mem zero_mem).fire_data (cell 0 7) ∧
      (render_fire zero_mem (rng_const 0) zero_mem zero_mem).fire_data (cell 0 7) ≤ 254) :=
  ⟨by decide, by decide,
    (heat_range zero_mem (rng_const 0) zero_mem zero_mem 0 7 (by decide) (by decide)).1⟩

/-! ## C8: ignition from the far edge -/

/-- C8 (evaluation of the code). On an all-zero heat field (the byte after the array is `0`
too), with the random words that light the ignition cell of column `0` only, the rightmost
cell of row 62 is computed and stored as `83` although its own previous value, the cell below
it and the cell below-left of it are all `0`: its block reads `dp[FB_W + 1]`, which from the
last column is the first cell of the ignition row. -/
theorem far_edge_ignition :
    rd8 zero_mem (cell 62 63) = 0 ∧
    (render_fire zero_mem rng_corner zero_mem zero_mem).fire_data (cell 63 63) = 0 ∧
    (render_fire zero_mem rng_corner zero_mem zero_mem).fire_data (cell 63 62) = 0 ∧
    row_computed zero_mem rng_corner zero_mem zero_mem 62 ∧
    (render_fire zero_mem rng_corner zero_mem zero_mem).fire_data (cell 62 63) = 83 := by
  have hs0 : seed_value (column_bits rng_corner 0) = 255 := by decide
  have hs : ∀ x : Nat, x < 64 → x ≠ 0 → seed_value (column_bits rng_corner x) = 0 := by decide
  obtain ⟨i1, i2, -⟩ := render_ignition zero_mem rng_corner zero_mem zero_mem
  obtain ⟨g1, g2, g3, -⟩ := render_grid zero_mem rng_corner zero_mem zero_mem 63
    (by decide) (row_computed_bottom _ _ _ _)
  simp only [Nat.reduceAdd] at g1 g2 g3
  rw [show cell 65 0 = 4160 by decide, rd8_val (i1 63 (by decide)), hs 63 (by decide) (by decide),
    rd8_val (i2 4160 (by decide))] at g1
  have v6363 : (render_fire zero_mem rng_corner zero_mem zero_mem).fire_data (cell 63 63) = 0 :=
    g1.trans (by decide)
  have v6362 : (render_fire zero_mem rng_corner zero_mem zero_mem).fire_data (cell 63 62) = 0 := by
    have h := g2 62 (by decide) (by decide)
    simp only [Nat.reduceAdd, Nat.reduceSub] at h
    rw [rd8_val (i1 62 (by decide)), rd8_val (i1 61 (by decide)), rd8_val (i1 63 (by decide)),
      hs 62 (by decide) (by decide), hs 61 (by decide) (by decide),
      hs 63 (by decide) (by decide)] at h
    exact h.trans (by decide)
  rw [rd8_val (i1 0 (by decide)), hs0, rd8_val v6363] at g3
  have v630 : (render_fire zero_mem rng_corner zero_mem zero_mem).fire_data (cell 63 0) = 83 :=
    g3.trans (by decide)
  have hc : row_computed zero_mem rng_corner zero_mem zero_mem 62 := by
    rw [row_computed_succ _ _ _ _ 62 (by decide)]
    intro hall
    have := hall 0 (by decide)
    simp only [Nat.reduceAdd] at this
    rw [v630] at this
    exact absurd this (by decide)
  obtain ⟨k1, -, -, -⟩ := render_grid zero_mem rng_corner zero_mem zero_mem 62 (by decide) hc
  simp only [Nat.reduceAdd] at k1
  rw [rd8_val v6363, rd8_val (i1 0 (by decide)), hs0] at k1
  exact ⟨by decide, v6363, v6362, hc, k1.trans (by decide)⟩

/-! ## C9: the decay rule -/

/-- C9. For every computed body cell, the stored value equals the intermediate average minus
`1` when that average is nonzero and equals `0` when the average is `0`; the stored value is
never negative and never exceeds the average. -/
theorem decay_rule (pal : Mem) (rng : Nat → Nat) (fd fb : Mem) (y x : Nat) (hy : y < FB_H)
    (hx : x < FB_W) (hc : row_computed pal rng fd fb y) :
    (cell_average fd (render_fire pal rng fd fb).fire_data y x ≠ 0 →
      (render_fire pal rng fd fb).fire_data (cell y x) =
        cell_average fd (render_fire pal rng fd fb).fire_data y x - 1) ∧
    (cell_average fd (render_fire pal rng fd fb).fire_data y x = 0 →
      (render_fire pal rng fd fb).fire_data (cell y x) = 0) ∧
    0 ≤ (render_fire pal rng fd fb).fire_data (cell y x) ∧
    (render_fire pal rng fd fb).fire_data (cell y x) ≤
      cell_average fd (render_fire pal rng fd fb).fire_data y x := by
  have h := average_of_grid pal fd _ y x hx (render_grid pal rng fd fb y hy hc)
  have h0 := cell_average_nonneg fd (render_fire pal rng fd fb).fire_data y x
  rw [h, decay_eq]
  refine ⟨?_, ?_, ?_, ?_⟩
  · intro hne; rw [if_neg hne]
  · intro he; rw [if_pos he]
  · split_ifs <;> omega
  · split_ifs <;> omega

/-- C9 (witness). Row 63, column 5 of an all-zero heat field with every ignition cell lit. -/
theorem decay_rule_witness :
    (63 : Nat) < FB_H ∧ (5 : Nat) < FB_W ∧
    row_computed zero_mem (rng_const 0) zero_mem zero_mem 63 ∧
    0 ≤ (render_fire zero_mem (rng_const 0) zero_mem zero_mem).fire_data (cell 63 5) ∧
    (render_fire zero_mem (rng_const 0) zero_mem zero_mem).fire_data (cell 63 5) ≤
      cell_average zero_mem (render_fire zero_mem (rng_const 0) zero_mem zero_mem).fire_data
        63 5 :=
  ⟨by decide, by decide, row_computed_bottom _ _ _ _,
    (decay_rule zero_mem (rng_const 0) zero_mem zero_mem 63 5 (by decide) (by decide)
      (row_computed_bottom _ _ _ _)).2.2⟩

/-! ## C10: the palette at its boundary entries -/

/-- C10. After `create_fire_palette`, whatever `fire_pal` held before, entry `0` is the packed
form of black `(0,0,0)`, entry `255` of white `(255,255,255)`, entry `64` of red `(255,0,0)`
and entry `96` of yellow `(255,255,0)`, the packing being `COMP_COLOR`; these are `0x0000`,
`0xFFFF`, `0x001F` and `0x07FF`. -/
theorem palette_boundary_values (pal0 : Mem) :
    (create_fire_palette pal0 0 = COMP_COLOR 0 0 0 ∧ create_fire_palette pal0 0 = 0x0000) ∧
    (create_fire_palette pal0 255 = COMP_COLOR 255 255 255 ∧
      create_fire_palette pal0 255 = 0xFFFF) ∧
    (create_fire_palette pal0 64 = COMP_COLOR 255 0 0 ∧ create_fire_palette pal0 64 = 0x001F) ∧
    (create_fire_palette pal0 96 = COMP_COLOR 255 255 0 ∧
      create_fire_palette pal0 96 = 0x07FF) := by
  rw [palette_entry_0, palette_entry_64, palette_entry_96, palette_entry_255]
  decide

/-! ## C11: the yellow-to-white ramp -/

/-- C11 (evaluation of the code). After `create_fire_palette`, the blue channel is not
monotone over the entries 96 to 255: it falls from `124` at entry 127 to `64` at entry 128
(packed field from `15` to `8`), from `188` to `128` at entries 159, 160 and from `252` to
`192` at entries 191, 192.  The bands starting at 96, 128 and 160 step by `i << 2` from the
bases `0`, `64`, `128`, so each overshoots the base of the next one.  The rest of the claim
holds: red and green are `255` over the entries 96 to 255, blue does not decrease from an
entry to the next one anywhere else, and in the band 224 to 255 it rises by exactly `1` per
entry up to `255` at entry 255. -/
theorem blue_ramp_drops (pal0 : Mem) :
    (palette_blue 127 = 124 ∧ palette_blue 128 = 64 ∧
      blue_field (create_fire_palette pal0 127) = 15 ∧
      blue_field (create_fire_palette pal0 128) = 8) ∧
    (palette_blue 159 = 188 ∧ palette_blue 160 = 128) ∧
    (palette_blue 191 = 252 ∧ palette_blue 192 = 192) ∧
    (∀ j : Int, 96 ≤ j → j ≤ 255 →
      palette_red j = 255 ∧ palette_green j = 255 ∧
      create_fire_palette pal0 j = COMP_COLOR 255 255 (palette_blue j) ∧
      blue_field (create_fire_palette pal0 j) = palette_blue j >>> (3 : Nat)) ∧
    (∀ j : Int, 96 ≤ j → j < 255 → j ≠ 127 → j ≠ 159 → j ≠ 191 →
      palette_blue j ≤ palette_blue (j + 1)) ∧
    (∀ j : Int, 224 ≤ j → j < 255 → palette_blue (j + 1) = palette_blue j + 1) ∧
    palette_blue 255 = 255 := by
  have key : ∀ j : Int, 96 ≤ j → j ≤ 255 →
      palette_red j = 255 ∧ palette_green j = 255 ∧
      create_fire_palette pal0 j = COMP_COLOR 255 255 (palette_blue j) ∧
      blue_field (create_fire_palette pal0 j) = palette_blue j >>> (3 : Nat) := by
    intro j h0 h1
    have hr : palette_red j = 255 := by
      unfold palette_red palette_channels
      split_ifs <;> first | rfl | (exfalso; omega)
    have hg : palette_green j = 255 := by
      unfold palette_green palette_channels
      split_ifs <;> first | rfl | (exfalso; omega)
    obtain ⟨hR, hG, hB⟩ := palette_channels_range j
    have he : create_fire_palette pal0 j = COMP_COLOR 255 255 (palette_blue j) := by
      rw [create_fire_palette_spec, if_pos ⟨by omega, by omega⟩, palette_entry_eq, hr, hg]
    refine ⟨hr, hg, he, ?_⟩
    rw [he]
    exact (COMP_COLOR_fields 255 255 _ (by omega) (by omega) hB).2.2.1
  refine ⟨⟨by decide, by decide, ?_, ?_⟩, ⟨by decide, by decide⟩, ⟨by decide, by decide⟩,
    key, ?_, ?_, by decide⟩
  · rw [(key 127 (by omega) (by omega)).2.2.2]; decide
  · rw [(key 128 (by omega) (by omega)).2.2.2]; decide
  · intro j h0 h1 n1 n2 n3
    have b3 := fun k h => (channels_band3 k h).2.2
    have b4 := fun k h => (channels_band4 k h).2.2
    have b5 := fun k h => (channels_band5 k h).2.2
    have b6 := fun k h => (channels_band6 k h).2.2
    have b7 := fun k h => (channels_band7 k h).2.2
    have hj : j / 32 = 3 ∨ j / 32 = 4 ∨ j / 32 = 5 ∨ j / 32 = 6 ∨ j / 32 = 7 := by omega
    have hk : (j + 1) / 32 = j / 32 ∨ ((j + 1) / 32 = j / 32 + 1 ∧ j % 32 = 31) := by omega
    rcases hj with q | q | q | q | q
    · have c := b3 j q
      rcases hk with r | ⟨r, s⟩
      · have d := b3 (j + 1) (by omega); omega
      · omega
    · have c := b4 j q
      rcases hk with r | ⟨r, s⟩
      · have d := b4 (j + 1) (by omega); omega
      · omega
    · have c := b5 j q
      rcases hk with r | ⟨r, s⟩
      · have d := b5 (j + 1) (by omega); omega
      · omega
    · have c := b6 j q
      rcases hk with r | ⟨r, s⟩
      · have d := b6 (j + 1) (by omega); omega
      · have d := b7 (j + 1) (by omega); omega
    · have c := b7 j q
      have d := b7 (j + 1) (by omega)
      omega
  · intro j h0 h1
    have c := (channels_band7 j (by omega)).2.2
    have d := (channels_band7 (j + 1) (by omega)).2.2
    omega

/-! ## C12: the first four bands and the packing -/

/-- C12. For every `i` in `0 .. 31`, entry `i` is `pack(0, 0, 2i)`, entry `32 + i` is
`pack(8i, 0, 64 - 2i)`, entry `64 + i` is `pack(255, 8i, 0)` and entry `96 + i` is
`pack(255, 255, 4i)`, where `pack` is `COMP_COLOR`.  For channels in `0 .. 255` the packing
puts the channels truncated by right shift side by side (red and blue keep 5 bits, green 6),
so each field is recovered from the packed value, and the value fits 16 bits.  Every channel
value fed to the packing, for every one of the 256 entries, is in `0 .. 255`, and every entry
fits 16 bits. -/
theorem palette_bands (pal0 : Mem) (i : Int) (h0 : 0 ≤ i) (h1 : i < 32) :
    (create_fire_palette pal0 i = COMP_COLOR 0 0 (2 * i) ∧
      create_fire_palette pal0 (32 + i) = COMP_COLOR (8 * i) 0 (64 - 2 * i) ∧
      create_fire_palette pal0 (64 + i) = COMP_COLOR 255 (8 * i) 0 ∧
      create_fire_palette pal0 (96 + i) = COMP_COLOR 255 255 (4 * i)) ∧
    (∀ R G B : Int, (0 ≤ R ∧ R < 256) → (0 ≤ G ∧ G < 256) → (0 ≤ B ∧ B < 256) →
      COMP_COLOR R G B =
        (B >>> (3 : Nat)) * 2048 + (G >>> (2 : Nat)) * 32 + (R >>> (3 : Nat)) ∧
      (0 ≤ R >>> (3 : Nat) ∧ R >>> (3 : Nat) < 32) ∧
      (0 ≤ G >>> (2 : Nat) ∧ G >>> (2 : Nat) < 64) ∧
      (0 ≤ B >>> (3 : Nat) ∧ B >>> (3 : Nat) < 32) ∧
      red_field (COMP_COLOR R G B) = R >>> (3 : Nat) ∧
      green_field (COMP_COLOR R G B) = G >>> (2 : Nat) ∧
      blue_field (COMP_COLOR R G B) = B >>> (3 : Nat)) ∧
    (∀ j : Int, 0 ≤ j → j < 256 →
      (0 ≤ palette_red j ∧ palette_red j < 256) ∧
      (0 ≤ palette_green j ∧ palette_green j < 256) ∧
      (0 ≤ palette_blue j ∧ palette_blue j < 256) ∧
      create_fire_palette pal0 j =
        COMP_COLOR (palette_red j) (palette_green j) (palette_blue j) ∧
      0 ≤ create_fire_palette pal0 j ∧ create_fire_palette pal0 j < 65536) := by
  have entry : ∀ j : Int, 0 ≤ j → j < 256 → create_fire_palette pal0 j =
      COMP_COLOR (palette_red j) (palette_green j) (palette_blue j) := by
    intro j a b
    rw [create_fire_palette_spec, if_pos ⟨a, b⟩, palette_entry_eq]
  refine ⟨⟨?_, ?_, ?_, ?_⟩, ?_, ?_⟩
  · obtain ⟨r, g, b⟩ := channels_band0 i (by omega)
    rw [entry i (by omega) (by omega), r, g, b]
    congr 1; omega
  · obtain ⟨r, g, b⟩ := channels_band1 (32 + i) (by omega)
    rw [entry (32 + i) (by omega) (by omega), r, g, b]
    congr 1 <;> omega
  · obtain ⟨r, g, b⟩ := channels_band2 (64 + i) (by omega)
    rw [entry (64 + i) (by omega) (by omega), r, g, b]
    congr 1; omega
  · obtain ⟨r, g, b⟩ := channels_band3 (96 + i) (by omega)
    rw [entry (96 + i) (by omega) (by omega), r, g, b]
    congr 1; omega
  · intro R G B hR hG hB
    obtain ⟨f1, f2, f3, -, -⟩ := COMP_COLOR_fields R G B hR hG hB
    refine ⟨?_, ?_, ?_, ?_, f1, f2, f3⟩
    · rw [COMP_COLOR_eq R G B hR hG hB, shr3_eq, shr3_eq, shr2_eq]
    · rw [shr3_eq]; omega
    · rw [shr2_eq]; omega
    · rw [shr3_eq]; omega
  · intro j a b
    obtain ⟨hR, hG, hB⟩ := palette_channels_range j
    have e := entry j a b
    have := COMP_COLOR_fields _ _ _ hR hG hB
    refine ⟨hR, hG, hB, e, ?_, ?_⟩
    · rw [e]; exact this.2.2.2.1
    · rw [e]; exact this.2.2.2.2

/-- Witness for C12 at `i = 5`. -/
theorem palette_bands_witness :
    create_fire_palette zero_mem 5 = COMP_COLOR 0 0 (2 * 5) ∧
    create_fire_palette zero_mem (32 + 5) = COMP_COLOR (8 * 5) 0 (64 - 2 * 5) ∧
    create_fire_palette zero_mem (64 + 5) = COMP_COLOR 255 (8 * 5) 0 ∧
    create_fire_palette zero_mem (96 + 5) = COMP_COLOR 255 255 (4 * 5) :=
  (palette_bands zero_mem 5 (by decide) (by decide)).1

/-! ## C13: rotation of the buffers -/

/-- C13. The counter starts at `0`, and in any run of the main loop, whatever the inputs, the
frame rendered in position `k` (counted from `0`, so the `k + 1`-th frame) writes buffer index
`(k + 1) mod 4`; each frame goes to the index after the one of the frame before, modulo 4; in
any 16 consecutive rendered frames each of the 4 indices is the target exactly 4 times; and
the frame-buffer field of the control word written on a frame is the index written on that
frame.  With `run` set and button B never pressed, `n` iterations render `n` frames; five of
them go to the indices 1, 2, 3, 0, 1. -/
theorem buffer_rotation (malloc : Nat → Nat) (mem : Mem) (run0 : Bool) (pal0 fd0 : Mem)
    (rng : Nat → Nat) (btns : List Bool) :
    (main_start malloc mem run0 pal0 fd0).fb_n = 0 ∧
    (∀ k : Nat,
      k < (rendered (main_loop rng btns (main_start malloc mem run0 pal0 fd0)).events).length →
      (rendered (main_loop rng btns (main_start malloc mem run0 pal0 fd0)).events)[k]? =
        some ((k + 1) % 4)) ∧
    (∀ k a b : Nat,
      (rendered (main_loop rng btns (main_start malloc mem run0 pal0 fd0)).events)[k]? =
        some a →
      (rendered (main_loop rng btns (main_start malloc mem run0 pal0 fd0)).events)[k + 1]? =
        some b →
      b = (a + 1) % 4) ∧
    (∀ j : Nat,
      j + 16 ≤
        (rendered (main_loop rng btns (main_start malloc mem run0 pal0 fd0)).events).length →
      ∀ n : Nat, n < 4 →
        (((rendered (main_loop rng btns (main_start malloc mem run0 pal0 fd0)).events).drop
          j).take 16).count n = 4) ∧
    (published (main_loop rng btns (main_start malloc mem run0 pal0 fd0)).events).map ctl_fb =
      rendered (main_loop rng btns (main_start malloc mem run0 pal0 fd0)).events ∧
    (∀ n : Nat,
      (rendered (main_loop rng (List.replicate n false)
        (main_start malloc mem true pal0 fd0)).events).length = n) ∧
    rendered (main_loop rng (List.replicate 5 false)
      (main_start malloc mem true pal0 fd0)).events = [1, 2, 3, 0, 1] := by
  have hrun : ∀ n : Nat, rendered (main_loop rng (List.replicate n false)
      (main_start malloc mem true pal0 fd0)).events = (List.range n).map target := by
    intro n
    have h := main_loop_running rng _ n _ 0 (main_start_inv malloc mem true pal0 fd0) rfl
    rw [Nat.zero_add] at h
    exact h.1
  obtain ⟨m, h1, h2, -⟩ := main_loop_trace malloc mem run0 pal0 fd0 rng btns
  rw [h2, h1, targets_length, hrun 5]
  refine ⟨rfl, ?_, ?_, ?_, rfl, ?_, by decide⟩
  rotate_left 3
  · intro n
    rw [hrun n, targets_length]
  · intro k hk
    exact (targets_getElem m k _).mpr ⟨hk, rfl⟩
  · intro k a b ha hb
    obtain ⟨-, ea⟩ := (targets_getElem m k a).mp ha
    obtain ⟨-, eb⟩ := (targets_getElem m (k + 1) b).mp hb
    rw [ea, eb]
    unfold target
    omega
  · intro j hj n hn
    exact targets_window m j n hj hn

/-! ## C14: the buffer being scanned -/

/-- C14. From any state that the main loop reaches, an iteration either renders nothing and
leaves `fb_n` as it is, or renders one frame into the index `(fb_n + 1) mod 4`, which differs
from the current `fb_n` and from the index carried by the control word most recently written
to the driver.  In any run, two frames that go to the same index have at least 3 other frames
between their positions. -/
theorem scanned_buffer_not_written (malloc : Nat → Nat) (mem : Mem) (run0 : Bool)
    (pal0 fd0 : Mem) (rng : Nat → Nat) (btns : List Bool) :
    (∀ b : Bool,
      ((main_iter rng b (main_loop rng btns (main_start malloc mem run0 pal0 fd0))).fb_n =
          (main_loop rng btns (main_start malloc mem run0 pal0 fd0)).fb_n ∧
        rendered
            (main_iter rng b (main_loop rng btns (main_start malloc mem run0 pal0 fd0))).events =
          rendered (main_loop rng btns (main_start malloc mem run0 pal0 fd0)).events) ∨
      (rendered
            (main_iter rng b (main_loop rng btns (main_start malloc mem run0 pal0 fd0))).events =
          rendered (main_loop rng btns (main_start malloc mem run0 pal0 fd0)).events ++
            [((main_loop rng btns (main_start malloc mem run0 pal0 fd0)).fb_n + 1) % 4] ∧
        (main_iter rng b (main_loop rng btns (main_start malloc mem run0 pal0 fd0))).fb_n =
          ((main_loop rng btns (main_start malloc mem run0 pal0 fd0)).fb_n + 1) % 4 ∧
        ((main_loop rng btns (main_start malloc mem run0 pal0 fd0)).fb_n + 1) % 4 ≠
          (main_loop rng btns (main_start malloc mem run0 pal0 fd0)).fb_n ∧
        ∀ w : Nat,
          (published (main_loop rng btns (main_start malloc mem run0 pal0 fd0)).events).getLast?
            = some w →
          ctl_fb w ≠ ((main_loop rng btns (main_start malloc mem run0 pal0 fd0)).fb_n + 1) % 4)) ∧
    (∀ i j a : Nat, i < j →
      (rendered (main_loop rng btns (main_start malloc mem run0 pal0 fd0)).events)[i]? =
        some a →
      (rendered (main_loop rng btns (main_start malloc mem run0 pal0 fd0)).events)[j]? =
        some a →
      i + 4 ≤ j) := by
  obtain ⟨m, hs⟩ := main_loop_trace malloc mem run0 pal0 fd0 rng btns
  generalize main_loop rng btns (main_start malloc mem run0 pal0 fd0) = S at hs
  refine ⟨?_, ?_⟩
  · intro b
    rcases main_iter_inv rng _ b S m hs with h | h
    · left
      exact ⟨by rw [h.2.2.1, hs.2.2.1], by rw [h.1, hs.1]⟩
    · right
      have e3 := hs.2.2.1
      refine ⟨?_, ?_, ?_, ?_⟩
      · rw [h.1, hs.1, List.range_succ, List.map_append, e3]
        show _ ++ [target m] = _
        unfold target
        congr 2
        omega
      · rw [h.2.2.1, e3]; omega
      · omega
      · intro w hw
        rw [hs.2.2.2.2.2.1 w hw]
        omega
  · intro i j a hij hi hj
    rw [hs.1] at hi hj
    obtain ⟨-, ei⟩ := (targets_getElem m i a).mp hi
    obtain ⟨-, ej⟩ := (targets_getElem m j a).mp hj
    unfold target at ei ej
    omega

/-! ## C15: failure of the allocation -/

/-- C15 (evaluation of the code). When `malloc` fails, `calloc_aligned` returns `NULL` and
`main` goes on with it: `hub75_mem` is `0`, the cache flush after the allocation is made on
the range from address `0`, and, with `run` set, the first iteration of the main loop calls
`render_fire` with the pointer `&hub75_mem[1 * FB_H * FB_H]` computed from `NULL`, address
`0x2000`, and writes a control word whose address field is `0`.  The whole trace of that run
holds no report of the failure.  For any inputs, the flush from address `0` is in the trace,
every `render_fire` call gets a pointer computed from `NULL`, and every control word written
in the main loop has the address field `0`. -/
theorem allocation_failure_unchecked (mem pal0 fd0 : Mem) (rng : Nat → Nat) :
    (calloc_aligned malloc_fail mem (FB_N * FB_H * FB_W) 2 128).1 = 0 ∧
    (main malloc_fail mem true pal0 fd0 rng [false]).hub75_mem = 0 ∧
    (main malloc_fail mem true pal0 fd0 rng [false]).events =
      [Event.greeting, Event.wait_release, Event.flush 0 0x8000, Event.render 1 0x2000,
        Event.flush 0x2000 0x4000, Event.hub75 0x90000000, Event.hub75 0] ∧
    ctl_addr 0x90000000 = 0 ∧
    (∀ (run0 : Bool) (btns : List Bool),
      Event.flush 0 0x8000 ∈ (main malloc_fail mem run0 pal0 fd0 rng btns).events ∧
      (∀ n b : Nat, Event.render n b ∈ (main malloc_fail mem run0 pal0 fd0 rng btns).events →
        b = 2 * (n * FB_H * FB_H) ∧ n < 4) ∧
      (∀ w : Nat,
        w ∈ published (main_loop rng btns (main_start malloc_fail mem run0 pal0 fd0)).events →
        ctl_addr w = 0)) := by
  have e0 : (calloc_aligned malloc_fail mem (FB_N * FB_H * FB_W) 2 128).1 = 0 := by
    rw [calloc_aligned_fail]
  have s0 := main_start_inv malloc_fail mem true pal0 fd0
  rw [e0] at s0
  have l1 : main_loop rng [false] (main_start malloc_fail mem true pal0 fd0) =
      frame rng (main_start malloc_fail mem true pal0 fd0) := by
    rw [main_loop_cons, main_loop_nil, main_iter_running rng _ rfl]
  refine ⟨e0, ?_, ?_, by decide, ?_⟩
  · rw [main_hub75_mem, l1, frame_hub75_mem]
    exact s0.2.2.2.1
  · rw [main_events, l1, frame_events, main_start_events, e0, s0.2.2.2.1, s0.2.2.1]
    decide
  intro run0 btns
  obtain ⟨m, hs⟩ := main_loop_trace malloc_fail mem run0 pal0 fd0 rng btns
  rw [e0] at hs
  obtain ⟨h1, -, -, -, h5, -, h7, h8⟩ := hs
  rw [main_events]
  refine ⟨List.mem_append_left _ h8, ?_, ?_⟩
  · intro n b hb
    rw [List.mem_append] at hb
    rcases hb with hb | hb
    · obtain ⟨hb1, hb2⟩ := h7 n b hb
      rw [fb_offset_eq] at hb1
      simp only [FB_H]
      omega
    · simp at hb
  · intro w hw
    exact h5 w hw

/-! ## C16: the aligned allocator -/

/-- C16. For a power-of-two `align`, when `nmemb * size + align` does not overflow 32 bits and
`malloc` returns a block at a nonzero address `m` that ends inside the 32-bit address space,
the pointer `p` returned by `calloc_aligned` is a multiple of `align` with `m ≤ p < m + align`,
the range of `nmemb * size` bytes from `p` lies inside the block of `nmemb * size + align`
bytes from `m`, every byte of that range is zero after the call, and no byte outside the
block is changed. -/
theorem calloc_aligned_spec (malloc : Nat → Nat) (mem : Mem) (nmemb size align k : Nat)
    (hal : align = 2 ^ k) (ht : nmemb * size + align < 2 ^ 32)
    (hm : malloc (nmemb * size + align) ≠ 0)
    (hblk : malloc (nmemb * size + align) + (nmemb * size + align) ≤ 2 ^ 32) :
    (calloc_aligned malloc mem nmemb size align).1 % align = 0 ∧
    malloc (nmemb * size + align) ≤ (calloc_aligned malloc mem nmemb size align).1 ∧
    (calloc_aligned malloc mem nmemb size align).1 < malloc (nmemb * size + align) + align ∧
    (calloc_aligned malloc mem nmemb size align).1 + nmemb * size ≤
      malloc (nmemb * size + align) + (nmemb * size + align) ∧
    (∀ a : Nat, (calloc_aligned malloc mem nmemb size align).1 ≤ a →
      a < (calloc_aligned malloc mem nmemb size align).1 + nmemb * size →
      rd8 (calloc_aligned malloc mem nmemb size align).2 a = 0) ∧
    (∀ a : Int, (a < (malloc (nmemb * size + align) : Nat) ∨
        ((malloc (nmemb * size + align) + (nmemb * size + align) : Nat) : Int) ≤ a) →
      (calloc_aligned malloc mem nmemb size align).2 a = mem a) := by
  rw [calloc_aligned_eq malloc mem nmemb size align k hal ht hm hblk]
  have hpos : 0 < align := by rw [hal]; exact Nat.two_pow_pos k
  generalize malloc (nmemb * size + align) = m at hm hblk
  generalize nmemb * size = n at ht hblk
  have hd := Nat.div_add_mod (m + align - 1) align
  have hr := Nat.mod_lt (m + align - 1) hpos
  have hmod : (m + align - 1) / align * align % align = 0 := Nat.mul_mod_left _ _
  rw [Nat.mul_comm] at hd
  generalize (m + align - 1) / align * align = p at hd hmod
  generalize (m + align - 1) % align = r at hd hr
  simp only []
  refine ⟨hmod, by omega, by omega, by omega, ?_, ?_⟩
  · intro a h1 h2
    unfold rd8 memset
    rw [if_pos ⟨by omega, by omega⟩]
    rfl
  · intro a ha
    unfold memset
    rw [if_neg (by omega)]

/-- C16 (witness). The allocation made by `main`: `FB_N * FB_H * FB_W` cells of 2 bytes aligned
to 128, with `malloc` returning the address `0x40001004`. -/
theorem calloc_aligned_spec_witness :
    (128 : Nat) = 2 ^ 7 ∧ 16384 * 2 + 128 < 2 ^ 32 ∧ malloc_at (16384 * 2 + 128) ≠ 0 ∧
    (calloc_aligned malloc_at zero_mem 16384 2 128).1 % 128 = 0 ∧
    malloc_at (16384 * 2 + 128) ≤ (calloc_aligned malloc_at zero_mem 16384 2 128).1 :=
  ⟨by decide, by decide, by decide,
    (calloc_aligned_spec malloc_at zero_mem 16384 2 128 7 (by decide) (by decide) (by decide)
      (by decide)).1,
    (calloc_aligned_spec malloc_at zero_mem 16384 2 128 7 (by decide) (by decide) (by decide)
      (by decide)).2.1⟩

/-! ## C17: tracking of the extinguishment -/

/-- C17. For a body row `y` that `render_fire` computes, the cells of the row in the final heat
field are the values computed for it by the per-cell rules.  If every one of these values
is zero, then no row above it (smaller `y`) is computed by the averaging rule, and every cell
of every such row is zero in the heat field and zero in the frame buffer; if some value
computed for the row is nonzero and the row is not the top one, then the row directly above
is computed, so it holds the values of the per-cell rules. -/
theorem extinguishment_tracking (pal : Mem) (rng : Nat → Nat) (fd fb : Mem) (y : Nat)
    (hy : y < FB_H) (hc : row_computed pal rng fd fb y) :
    GridRules pal fd (render_fire pal rng fd fb) y ∧
    ((∀ x : Nat, x < FB_W → (render_fire pal rng fd fb).fire_data (cell y x) = 0) →
      ∀ y2 : Nat, y2 < y →
        ¬ row_computed pal rng fd fb y2 ∧
        ∀ x : Nat, x < FB_W →
          (render_fire pal rng fd fb).fire_data (cell y2 x) = 0 ∧
          (render_fire pal rng fd fb).fb (cell y2 x) = 0) ∧
    ((∃ x : Nat, x < FB_W ∧ (render_fire pal rng fd fb).fire_data (cell y x) ≠ 0) →
      0 < y →
        row_computed pal rng fd fb (y - 1) ∧
        GridRules pal fd (render_fire pal rng fd fb) (y - 1)) := by
  have eH : FB_H = 64 := rfl
  have eW : FB_W = 64 := rfl
  rw [eH] at hy
  simp only [eW]
  refine ⟨render_grid pal rng fd fb y hy hc, ?_, ?_⟩
  · intro hz y2 h2
    have hn := not_computed_above pal rng fd fb y hy hz (y - 1 - y2) (by omega)
    have e : y - 1 - (y - 1 - y2) = y2 := by omega
    rw [e] at hn
    exact ⟨hn, fun x hx => render_grid_cleared pal rng fd fb y2 (by omega) hn x hx⟩
  · rintro ⟨x, hx, hne⟩ hpos
    have hr : row_computed pal rng fd fb (y - 1) := by
      rw [row_computed_succ pal rng fd fb (y - 1) (by omega)]
      have e : y - 1 + 1 = y := by omega
      rw [e]
      intro hall
      exact hne (hall x hx)
    exact ⟨hr, render_grid pal rng fd fb (y - 1) (by omega) hr⟩

/-- C17 (witness). The bottom row of an all-zero heat field with no ignition cell lit: the
row is computed, all its values are zero, and row 10 above it is cleared. -/
theorem extinguishment_tracking_witness :
    (63 : Nat) < FB_H ∧ row_computed zero_mem (rng_const 1) zero_mem zero_mem 63 ∧
    ((∀ x : Nat, x < FB_W →
        (render_fire zero_mem (rng_const 1) zero_mem zero_mem).fire_data (cell 63 x) = 0) →
      ∀ y2 : Nat, y2 < 63 →
        ¬ row_computed zero_mem (rng_const 1) zero_mem zero_mem y2 ∧
        ∀ x : Nat, x < FB_W →
          (render_fire zero_mem (rng_const 1) zero_mem zero_mem).fire_data (cell y2 x) = 0 ∧
          (render_fire zero_mem (rng_const 1) zero_mem zero_mem).fb (cell y2 x) = 0) :=
  ⟨by decide, row_computed_bottom _ _ _ _,
    (extinguishment_tracking zero_mem (rng_const 1) zero_mem zero_mem 63 (by decide)
      (row_computed_bottom _ _ _ _)).2.1⟩

/-! ## C18: the ignition of distinct columns -/

/-- C18. One call of `render_fire` reads the random register exactly `FB_W / 16 = 4` times.
The ignition cell of column `x` ends as `255` when bits `2 * (x % 16)` and `2 * (x % 16) + 1`
of word number `x / 16` are both clear and as `0` otherwise, whatever the palette, the heat
field and the frame buffer: so calls whose random words agree on these two bits give the same
ignition value to column `x`.  The bit pairs of distinct columns are disjoint, and when the
random words change in the two bits of one column only, the ignition value of every other
column is unchanged. -/
theorem ignition_independence (pal : Mem) (rng : Nat → Nat) (fd fb : Mem) :
    ((render_fire pal rng fd fb).rng_reads = FB_W / 16 ∧ FB_W / 16 = 4) ∧
    (∀ x : Nat, x < FB_W →
      (render_fire pal rng fd fb).fire_data (cell FB_H x) =
        if (rng (x / 16)).testBit (2 * (x % 16)) = false ∧
            (rng (x / 16)).testBit (2 * (x % 16) + 1) = false then 255 else 0) ∧
    (∀ (pal2 : Mem) (rng2 : Nat → Nat) (fd2 fb2 : Mem) (x : Nat), x < FB_W →
      (rng2 (x / 16)).testBit (2 * (x % 16)) = (rng (x / 16)).testBit (2 * (x % 16)) →
      (rng2 (x / 16)).testBit (2 * (x % 16) + 1) = (rng (x / 16)).testBit (2 * (x % 16) + 1) →
      (render_fire pal2 rng2 fd2 fb2).fire_data (cell FB_H x) =
        (render_fire pal rng fd fb).fire_data (cell FB_H x)) ∧
    (∀ x x2 : Nat, x < FB_W → x2 < FB_W → x ≠ x2 →
      x / 16 ≠ x2 / 16 ∨
        (2 * (x % 16) ≠ 2 * (x2 % 16) ∧ 2 * (x % 16) ≠ 2 * (x2 % 16) + 1 ∧
          2 * (x % 16) + 1 ≠ 2 * (x2 % 16) ∧ 2 * (x % 16) + 1 ≠ 2 * (x2 % 16) + 1)) ∧
    (∀ (rng2 : Nat → Nat) (x : Nat), x < FB_W →
      (∀ k b : Nat, ¬ (k = x / 16 ∧ (b = 2 * (x % 16) ∨ b = 2 * (x % 16) + 1)) →
        (rng2 k).testBit b = (rng k).testBit b) →
      ∀ x2 : Nat, x2 < FB_W → x2 ≠ x →
        (render_fire pal rng2 fd fb).fire_data (cell FB_H x2) =
          (render_fire pal rng fd fb).fire_data (cell FB_H x2)) := by
  have eH : FB_H = 64 := rfl
  have eW : FB_W = 64 := rfl
  simp only [eH, eW]
  have val : ∀ (p : Mem) (r : Nat → Nat) (d b : Mem) (x : Nat), x < 64 →
      (render_fire p r d b).fire_data (cell 64 x) =
        if (r (x / 16)).testBit (2 * (x % 16)) = false ∧
            (r (x / 16)).testBit (2 * (x % 16) + 1) = false then 255 else 0 := by
    intro p r d b x hx
    rw [(render_ignition p r d b).1 x hx, seed_value_bits]
    by_cases h : column_bits r x = 0
    · rw [if_pos h, if_pos ((column_bits_eq_zero r x).mp h)]
    · rw [if_neg h, if_neg (fun q => h ((column_bits_eq_zero r x).mpr q))]
  refine ⟨⟨render_fire_rng_reads pal rng fd fb, by decide⟩, val pal rng fd fb, ?_, ?_, ?_⟩
  · intro pal2 rng2 fd2 fb2 x hx h0 h1
    rw [val pal2 rng2 fd2 fb2 x hx, val pal rng fd fb x hx, h0, h1]
  · intro x x2 hx hx2 hne
    omega
  · intro rng2 x hx hagree x2 hx2 hne
    rw [val pal rng2 fd fb x2 hx2, val pal rng fd fb x2 hx2,
      hagree (x2 / 16) (2 * (x2 % 16)) (by omega),
      hagree (x2 / 16) (2 * (x2 % 16) + 1) (by omega)]

/-! ## C19: the cells written by a frame -/

/-- C19. For every buffer index `n` in `0 .. FB_N - 1`, the call `render_fire(fb_base)` with
`fb_base = &hub75_mem[n * FB_H * FB_H]` writes exactly the pool cells at the offsets
`n * FB_H * FB_H .. n * FB_H * FB_H + FB_W * FB_H - 1`.  This range lies inside the pool of
`FB_N * FB_H * FB_W` cells, the ranges of distinct indices are disjoint, and every pool cell
outside the range, so every cell of the other buffers, is left unchanged.  Every rendering
iteration of the main loop is such a call, with an index in `0 .. FB_N - 1`. -/
theorem frame_footprint (pal : Mem) (rng : Nat → Nat) (fd pool : Mem) (n : Nat) (hn : n < FB_N) :
    (∀ j : Int, Access.fb_wr (j - (fb_offset n : Int)) ∈ (render_frame pal rng fd pool n).log ↔
      (((n * FB_H * FB_H : Nat) : Int) ≤ j ∧
        j ≤ ((n * FB_H * FB_H + FB_W * FB_H - 1 : Nat) : Int))) ∧
    fb_offset n = n * FB_H * FB_H ∧
    n * FB_H * FB_H + FB_W * FB_H ≤ FB_N * FB_H * FB_W ∧
    (∀ n2 : Nat, n2 < FB_N → n2 ≠ n →
      n * FB_H * FB_H + FB_W * FB_H ≤ n2 * FB_H * FB_H ∨
        n2 * FB_H * FB_H + FB_W * FB_H ≤ n * FB_H * FB_H) ∧
    (∀ j : Int, (j < ((n * FB_H * FB_H : Nat) : Int) ∨
        ((n * FB_H * FB_H + FB_W * FB_H : Nat) : Int) ≤ j) →
      pool_after n (render_frame pal rng fd pool n) j = pool j) ∧
    (∀ (r : Nat → Nat) (s : Main), (frame r s).fb_n < FB_N ∧
      (frame r s).pool = pool_after (frame r s).fb_n
        (render_frame s.fire_pal (fun k => r (s.rng_used + k)) s.fire_data s.pool
          (frame r s).fb_n)) := by
  have eN : FB_N = 4 := rfl
  have eH : FB_H = 64 := rfl
  have eW : FB_W = 64 := rfl
  have eo := fb_offset_eq n
  rw [eN] at hn
  simp only [eN, eH, eW]
  refine ⟨?_, by omega, by omega, ?_, ?_, ?_⟩
  · intro j
    unfold render_frame
    rw [render_fire_fb_writes]
    omega
  · intro n2 h2 hne
    omega
  · intro j hj
    unfold pool_after render_frame
    rw [(render_ignition pal rng fd _).2.2 _ (by omega)]
    congr 1
    omega
  · intro r s
    rw [frame_pool, frame_fb_n, and_three]
    exact ⟨by omega, rfl⟩

/-- C19 (witness). Buffer index 2 of a pool of zero cells. -/
theorem frame_footprint_witness :
    (2 : Nat) < FB_N ∧ fb_offset 2 = 2 * FB_H * FB_H ∧
    2 * FB_H * FB_H + FB_W * FB_H ≤ FB_N * FB_H * FB_W :=
  ⟨by decide,
    (frame_footprint zero_mem (rng_const 0) zero_mem zero_mem 2 (by decide)).2.1,
    (frame_footprint zero_mem (rng_const 0) zero_mem zero_mem 2 (by decide)).2.2.1⟩

/-! ## C20: layout of the control word -/

/-- C20. For every buffer index `n` in `0 .. 3` and every 32-bit address `a`, the control word
`SCAN_ENA | FB(n) | BCM_LSB_LEN(0) | FB_ADDR(a)` has bit 31 set and bit 30 clear, bits 28 and
29 hold `n`, bits 24 to 27 hold `0` and bits 0 to 23 hold `(a >> 1) mod 2 ^ 24`.  The fields
do not overlap: the word is the sum of the three fields in place, it fits 32 bits, `n` and the
address field are recovered from it, and it is never `0`. -/
theorem control_word_layout (n a : Nat) (hn : n < 4) (ha : a < 2 ^ 32) :
    ((hub75_ctl n a).testBit 31 = true ∧ (hub75_ctl n a).testBit 30 = false) ∧
    ctl_fb (hub75_ctl n a) = n ∧
    hub75_ctl n a / 2 ^ 24 % 16 = 0 ∧
    ctl_addr (hub75_ctl n a) = (a >>> 1) % 2 ^ 24 ∧
    hub75_ctl n a = 2 ^ 31 + n * 2 ^ 28 + (a >>> 1) % 2 ^ 24 ∧
    hub75_ctl n a < 2 ^ 32 ∧
    (∀ n2 a2 : Nat, n2 < 4 → a2 < 2 ^ 32 → hub75_ctl n2 a2 = hub75_ctl n a →
      n2 = n ∧ (a2 >>> 1) % 2 ^ 24 = (a >>> 1) % 2 ^ 24) ∧
    hub75_ctl n a ≠ 0 := by
  have key : ∀ m b : Nat, m < 4 → b < 2 ^ 32 →
      hub75_ctl m b = 2 ^ 31 + m * 2 ^ 28 + (b >>> 1) % 2 ^ 24 := by
    intro m b hm hb
    rw [hub75_ctl_eq m b hm, Nat.shiftRight_eq_div_pow, Nat.mod_eq_of_lt hb]
  have h := key n a hn ha
  have hf : (a >>> 1) % 2 ^ 24 < 2 ^ 24 := Nat.mod_lt _ (by decide)
  generalize (a >>> 1) % 2 ^ 24 = f at h hf
  refine ⟨⟨?_, ?_⟩, ?_, ?_, ?_, h, ?_, ?_, ?_⟩
  · rw [Nat.testBit_to_div_mod, h]; simp only [decide_eq_true_eq]; omega
  · rw [Nat.testBit_to_div_mod, h]; simp only [decide_eq_false_iff_not]; omega
  · unfold ctl_fb; omega
  · omega
  · unfold ctl_addr; omega
  · omega
  · intro n2 a2 hn2 ha2 he
    have h2 := key n2 a2 hn2 ha2
    have hf2 : (a2 >>> 1) % 2 ^ 24 < 2 ^ 24 := Nat.mod_lt _ (by decide)
    generalize (a2 >>> 1) % 2 ^ 24 = f2 at h2 hf2
    omega
  · omega

/-- C20 (witness). Buffer index 2 and the pool at address `0x40001080`. -/
theorem control_word_layout_witness :
    (2 : Nat) < 4 ∧ (0x40001080 : Nat) < 2 ^ 32 ∧
    ctl_fb (hub75_ctl 2 0x40001080) = 2 ∧
    ctl_addr (hub75_ctl 2 0x40001080) = (0x40001080 >>> 1) % 2 ^ 24 :=
  ⟨by decide, by decide,
    (control_word_layout 2 0x40001080 (by decide) (by decide)).2.1,
    (control_word_layout 2 0x40001080 (by decide) (by decide)).2.2.2.1⟩

end FireLed
